import Mathlib

/-!
# wxMaxima cells: a shallow embedding of `AbsCell.cpp` and `EMFout.cpp`

Cells live in a heap (a list of cell records); a cell pointer is an index into the
heap and `NULL` is `none`.  Dereferencing `NULL` (or an index outside the heap) makes
a method fail, which is the result `none`.  Methods that mutate cells return the new
heap.  Loops that follow links take a fuel argument.

`Cell.h`, `Cell.cpp`, `MathCell.h`, `TextCell.cpp` and `Configuration.h` are not among
the sources under study.  What the translated methods need from them is collected in
`CellEnv` and stays uninterpreted, or is modelled from the specification where a
definition says so.
-/

namespace WxMaxima

set_option linter.dupNamespace false

/-- The concrete cell classes that matter here. -/
inductive CellKind where
  | AbsCell
  | TextCell
  | Other
deriving DecidableEq, Repr

/-- State that the `Cell` base class keeps to itself (cached aggregate sizes, the last
font size, ...).  The methods under study reach it only through base-class helpers, so
it stays uninterpreted. -/
abbrev BaseState := List Int

/-- One cell object: the members of `Cell` that `AbsCell.cpp` and `EMFout.cpp` read or
write, the members of `AbsCell`, and the text of a `TextCell`.  `EMFout.cpp` addresses
`m_isBrokenIntoLines` under its older name `m_isBroken`. -/
structure Cell where
  kind : CellKind := CellKind.Other
  m_next : Option Nat := none
  m_nextToDraw : Option Nat := none
  m_width : Int := 0
  m_height : Int := 0
  m_center : Int := 0
  m_isBrokenIntoLines : Bool := false
  m_forceBreakLine : Bool := false
  m_breakLine : Bool := false
  m_bigSkip : Bool := false
  m_innerCell : Option Nat := none
  m_open : Option Nat := none
  m_close : Option Nat := none
  m_last : Option Nat := none
  m_text : String := ""
  m_dontEscapeOpeningParenthesis : Bool := false
  base : BaseState := []
deriving DecidableEq, Repr

/-- The heap of cell objects. -/
abbrev Heap := List Cell

/-- Write through a pointer: `p->... = ...`.  Fails when `p` is not a live cell. -/
def Heap.update (H : Heap) (p : Nat) (f : Cell → Cell) : Option Heap :=
  match H[p]? with
  | some c => some (H.set p (f c))
  | none => none

/-- What the translated methods use from the parts of the program that are not among
the sources: helpers of the `Cell` base class, of `Configuration`, and the list-level
helpers that walk a chain of cells. -/
structure CellEnv where
  Scale_Px : Int → Int
  GetDefaultLineWidth : Int
  MC_CELL_SKIP : Int
  MC_LINE_SKIP : Int
  newCell : Cell
  ResetData : BaseState → BaseState
  NeedsRecalculation : Heap → Nat → Bool
  Cell_RecalculateWidths : Int → BaseState → BaseState
  Cell_RecalculateHeight : Int → BaseState → BaseState
  RecalculateWidthsList : Int → Heap → Nat → Heap
  RecalculateHeightList : Int → Heap → Nat → Heap
  GetFullWidth : Heap → Nat → Int
  GetMaxHeight : Heap → Nat → Int
  GetMaxCenter : Heap → Nat → Int
  ListToString : Heap → Nat → String
  ListToMatlab : Heap → Nat → String
  ListToTeX : Heap → Nat → String
  ListToMathML : Heap → Nat → String
  ListToOMML : Heap → Nat → String
  ListToXML : Heap → Nat → String
  UnbreakList : Heap → Nat → Heap
  GetMaxDrop : Heap → Nat → Int := fun _ _ => 0
  IsMath : Cell → Bool := fun _ => false
  DrawThisCell : Heap → Nat → Int → Int → Bool := fun _ _ _ _ => true
  BreakUp_other : Heap → Nat → Option (Bool × Heap) := fun H _ => some (false, H)
  RecalculateWidths_other : Int → Heap → Nat → Option Heap := fun _ H _ => some H
  RecalculateHeight_other : Int → Heap → Nat → Option Heap := fun _ H _ => some H
  IsGroupCell : Cell → Bool := fun _ => false
  GroupCell_Recalculate : Heap → Nat → Option Heap := fun H _ => some H
  ResetSize : Heap → Nat → Option Heap := fun H _ => some H
  CopyList : Heap → Nat → Heap × Option Nat := fun H _ => (H, none)
  CopyCommonData : Cell → Cell → Cell := fun _ dst => dst
  Destroyed : Heap → Nat → List Nat := fun _ _ => []

/-- The constructor `TextCell::TextCell(parent, config, cellPointers, text)`: a new text cell is
allocated at the end of the heap; its address is returned. -/
def TextCell.TextCell (E : CellEnv) (text : String) (H : Heap) : Heap × Nat :=
  (H ++ [{ E.newCell with kind := CellKind.TextCell, m_text := text }], H.length)

/-- The constructor `AbsCell::AbsCell(parent, config, cellPointers)`: allocates the open cell
`"abs("` and the close cell `")"`, leaves `m_innerCell` and `m_last` null, and calls
`DontEscapeOpeningParenthesis` on the open cell.  Returns the address of the new
`AbsCell`. -/
def AbsCell.AbsCell (E : CellEnv) (H : Heap) : Heap × Nat :=
  let r1 := TextCell.TextCell E "abs(" H
  let r2 := TextCell.TextCell E ")" r1.1
  let H3 := r2.1 ++ [{ E.newCell with
    kind := CellKind.AbsCell, m_open := some r1.2, m_close := some r2.2,
    m_last := none, m_innerCell := none }]
  let H4 := H3.modify (fun c => { c with m_dontEscapeOpeningParenthesis := true }) r1.2
  (H4, r2.1.length)

/-- The method `AbsCell::GetInnerCells`: the non-null ones among `m_innerCell`, `m_open`,
`m_close`, pushed in this order. -/
def AbsCell.GetInnerCells (H : Heap) (p : Nat) : Option (List Nat) :=
  match H[p]? with
  | none => none
  | some c =>
    let innerCells : List Nat := []
    let innerCells := match c.m_innerCell with
      | some i => innerCells ++ [i]
      | none => innerCells
    let innerCells := match c.m_open with
      | some o => innerCells ++ [o]
      | none => innerCells
    let innerCells := match c.m_close with
      | some cl => innerCells ++ [cl]
      | none => innerCells
    some innerCells

/-- The loop of `AbsCell::SetInner`: `while (m_last->m_next != NULL) m_last = m_last->m_next;`
started at `m_last = l`.  The result is `none` when the fuel runs out or a link leaves
the heap. -/
def AbsCell.SetInner_loop (H : Heap) : Nat → Nat → Option Nat
  | 0, _ => none
  | fuel + 1, l =>
    match H[l]? with
    | none => none
    | some c =>
      match c.m_next with
      | none => some l
      | some n => AbsCell.SetInner_loop H fuel n

/-- The method `AbsCell::SetInner(inner)`: nothing happens for `NULL`; otherwise `m_innerCell`
becomes `inner` and `m_last` the last cell of the `m_next` chain of `inner`. -/
def AbsCell.SetInner (fuel : Nat) (H : Heap) (p : Nat) (inner : Option Nat) : Option Heap :=
  match inner with
  | none => if p < H.length then some H else none
  | some i =>
    match H.update p (fun c => { c with m_innerCell := some i }) with
    | none => none
    | some H1 =>
      match AbsCell.SetInner_loop H1 fuel i with
      | none => none
      | some l => H1.update p (fun c => { c with m_last := some l })

/-- The statement `if (m_last != NULL) m_last->m_nextToDraw = m_close.get();` of
`AbsCell::BreakUp`, for the cell `c`. -/
def AbsCell.BreakUp_linkLast (c : Cell) (H : Heap) : Option Heap :=
  match c.m_last with
  | some l => H.update l (fun x => { x with m_nextToDraw := c.m_close })
  | none => some H

/-- The method `AbsCell::BreakUp`.  The members `m_open`, `m_innerCell`, `m_last` and `m_close`
of the cell are not written by the method, so they are read once; `m_nextToDraw` of
the cell is read at the statement that uses it. -/
def AbsCell.BreakUp (E : CellEnv) (H : Heap) (p : Nat) : Option (Bool × Heap) :=
  match H[p]? with
  | none => none
  | some c =>
    if !c.m_isBrokenIntoLines then
      -- m_isBrokenIntoLines = true;
      (H.update p (fun x => { x with m_isBrokenIntoLines := true })).bind fun H1 =>
      -- m_open->m_nextToDraw = m_innerCell.get();
      c.m_open.bind fun o =>
      (H1.update o (fun x => { x with m_nextToDraw := c.m_innerCell })).bind fun H2 =>
      -- wxASSERT_MSG(m_last != NULL, ...) reports and goes on: no effect on the cells
      -- if (m_last != NULL) m_last->m_nextToDraw = m_close.get();
      (AbsCell.BreakUp_linkLast c H2).bind fun H3 =>
      -- m_close->m_nextToDraw = m_nextToDraw;
      c.m_close.bind fun cl =>
      H3[p]?.bind fun self =>
      (H3.update cl (fun x => { x with m_nextToDraw := self.m_nextToDraw })).bind fun H4 =>
      -- m_nextToDraw = m_open.get();
      (H4.update p (fun x => { x with m_nextToDraw := some o })).bind fun H5 =>
      -- ResetData();
      (H5.update p (fun x => { x with base := E.ResetData x.base })).bind fun H6 =>
      -- m_height = wxMax(m_innerCell->GetMaxHeight(), m_open->GetMaxHeight());
      c.m_innerCell.bind fun i =>
      (H6.update p (fun x => { x with
        m_height := max (E.GetMaxHeight H6 i) (E.GetMaxHeight H6 o) })).bind fun H7 =>
      -- m_center = wxMax(m_innerCell->GetMaxCenter(), m_open->GetMaxCenter());
      (H7.update p (fun x => { x with
        m_center := max (E.GetMaxCenter H7 i) (E.GetMaxCenter H7 o) })).bind fun H8 =>
      some (true, H8)
    else
      some (false, H)

/-- The branch of `AbsCell::RecalculateWidths` for a cell that is not broken into
lines.  The list helpers may rewrite the heap, so the members of the cell are read
again after each of them. -/
def AbsCell.RecalculateWidths_unbroken (E : CellEnv) (fontsize : Int) (H : Heap) (p : Nat) :
    Option Heap :=
  -- m_innerCell->RecalculateWidthsList(fontsize);
  H[p]?.bind fun c =>
  c.m_innerCell.bind fun i =>
  let H1 := E.RecalculateWidthsList fontsize H i
  -- m_width = m_innerCell->GetFullWidth() + Scale_Px(8) + 2 * GetDefaultLineWidth();
  H1[p]?.bind fun c1 =>
  c1.m_innerCell.bind fun i1 =>
  (H1.update p (fun x => { x with
    m_width := E.GetFullWidth H1 i1 + E.Scale_Px 8 + 2 * E.GetDefaultLineWidth })).bind fun H2 =>
  -- m_open->RecalculateWidthsList(fontsize);
  c1.m_open.bind fun o =>
  let H3 := E.RecalculateWidthsList fontsize H2 o
  -- m_close->RecalculateWidthsList(fontsize);
  H3[p]?.bind fun c3 =>
  c3.m_close.bind fun cl =>
  some (E.RecalculateWidthsList fontsize H3 cl)

/-- The method `AbsCell::RecalculateWidths(fontsize)`. -/
def AbsCell.RecalculateWidths (E : CellEnv) (fontsize : Int) (H : Heap) (p : Nat) :
    Option Heap :=
  match H[p]? with
  | none => none
  | some c =>
    if !E.NeedsRecalculation H p then
      some H
    else
      (if c.m_isBrokenIntoLines then
        H.update p (fun x => { x with m_width := 0, m_height := 0 })
      else
        AbsCell.RecalculateWidths_unbroken E fontsize H p).bind fun H4 =>
      -- Cell::RecalculateWidths(fontsize);
      H4.update p (fun x => { x with base := E.Cell_RecalculateWidths fontsize x.base })

/-- The branch of `AbsCell::RecalculateHeight` for a cell that is not broken into
lines. -/
def AbsCell.RecalculateHeight_unbroken (E : CellEnv) (fontsize : Int) (H0 : Heap) (p : Nat) :
    Option Heap :=
  H0[p]?.bind fun c =>
  c.m_innerCell.bind fun i =>
  c.m_open.bind fun o =>
  -- m_height = wxMax(m_innerCell->GetMaxHeight(), m_open->GetMaxHeight());
  (H0.update p (fun x => { x with
    m_height := max (E.GetMaxHeight H0 i) (E.GetMaxHeight H0 o) })).bind fun H1 =>
  -- m_center = wxMax(m_innerCell->GetMaxCenter(), m_open->GetMaxCenter());
  (H1.update p (fun x => { x with
    m_center := max (E.GetMaxCenter H1 i) (E.GetMaxCenter H1 o) })).bind fun H2 =>
  -- m_innerCell->RecalculateHeightList(fontsize);
  let H3 := E.RecalculateHeightList fontsize H2 i
  -- m_height = m_innerCell->GetMaxHeight() + Scale_Px(4);
  H3[p]?.bind fun c3 =>
  c3.m_innerCell.bind fun i3 =>
  (H3.update p (fun x => { x with
    m_height := E.GetMaxHeight H3 i3 + E.Scale_Px 4 })).bind fun H4 =>
  -- m_center = m_innerCell->GetMaxCenter() + Scale_Px(2);
  (H4.update p (fun x => { x with
    m_center := E.GetMaxCenter H4 i3 + E.Scale_Px 2 })).bind fun H5 =>
  -- m_open->RecalculateHeightList(fontsize);
  c3.m_open.bind fun o3 =>
  let H6 := E.RecalculateHeightList fontsize H5 o3
  -- m_close->RecalculateHeightList(fontsize);
  H6[p]?.bind fun c6 =>
  c6.m_close.bind fun cl =>
  some (E.RecalculateHeightList fontsize H6 cl)

/-- The method `AbsCell::RecalculateHeight(fontsize)`. -/
def AbsCell.RecalculateHeight (E : CellEnv) (fontsize : Int) (H : Heap) (p : Nat) :
    Option Heap :=
  match H[p]? with
  | none => none
  | some _ =>
    if !E.NeedsRecalculation H p then
      some H
    else
      -- Cell::RecalculateHeight(fontsize);
      (H.update p (fun x => { x with
        base := E.Cell_RecalculateHeight fontsize x.base })).bind fun H0 =>
      H0[p]?.bind fun c =>
      if !c.m_isBrokenIntoLines then
        AbsCell.RecalculateHeight_unbroken E fontsize H0 p
      else
        some H0

/-- One layout round on a cell: `RecalculateWidths` and then `RecalculateHeight`. -/
def AbsCell.Recalculate (E : CellEnv) (fontsize : Int) (H : Heap) (p : Nat) : Option Heap :=
  (AbsCell.RecalculateWidths E fontsize H p).bind
    (fun H1 => AbsCell.RecalculateHeight E fontsize H1 p)

/-- The method `AbsCell::ToString`.  The exports return the heap they leave behind together with
the string; the list exports of the base class are functions of the heap. -/
def AbsCell.ToString (E : CellEnv) (H : Heap) (p : Nat) : Option (String × Heap) :=
  match H[p]? with
  | none => none
  | some c =>
    if c.m_isBrokenIntoLines then
      some ("", H)
    else
      match c.m_innerCell with
      | none => none
      | some i => some ("abs(" ++ E.ListToString H i ++ ")", H)

/-- The method `AbsCell::ToMatlab`. -/
def AbsCell.ToMatlab (E : CellEnv) (H : Heap) (p : Nat) : Option (String × Heap) :=
  match H[p]? with
  | none => none
  | some c =>
    if c.m_isBrokenIntoLines then
      some ("", H)
    else
      match c.m_innerCell with
      | none => none
      | some i => some ("abs(" ++ E.ListToMatlab H i ++ ")", H)

/-- The method `AbsCell::ToTeX`. -/
def AbsCell.ToTeX (E : CellEnv) (H : Heap) (p : Nat) : Option (String × Heap) :=
  match H[p]? with
  | none => none
  | some c =>
    if c.m_isBrokenIntoLines then
      some ("", H)
    else
      match c.m_innerCell with
      | none => none
      | some i => some ("\\left| " ++ E.ListToTeX H i ++ "\\right| ", H)

/-- The method `AbsCell::ToMathML`. -/
def AbsCell.ToMathML (E : CellEnv) (H : Heap) (p : Nat) : Option (String × Heap) :=
  match H[p]? with
  | none => none
  | some c =>
    match c.m_innerCell with
    | none => none
    | some i => some ("<row><mo>|</mo>" ++ E.ListToMathML H i ++ "<mo>|</mo></row>\n", H)

/-- The method `AbsCell::ToOMML`. -/
def AbsCell.ToOMML (E : CellEnv) (H : Heap) (p : Nat) : Option (String × Heap) :=
  match H[p]? with
  | none => none
  | some c =>
    match c.m_innerCell with
    | none => none
    | some i =>
      some ("<m:d><m:dPr m:begChr=\"|\" m:endChr=\"|\"></m:dPr><m:e>" ++
        E.ListToOMML H i ++ "</m:e></m:d>", H)

/-- The `flags` string that `AbsCell::ToXML` builds. -/
def AbsCell.xmlFlags (c : Cell) : String :=
  let flags := ""
  if c.m_forceBreakLine then flags ++ " breakline=\"true\"" else flags

/-- The method `AbsCell::ToXML`. -/
def AbsCell.ToXML (E : CellEnv) (H : Heap) (p : Nat) : Option (String × Heap) :=
  match H[p]? with
  | none => none
  | some c =>
    match c.m_innerCell with
    | none => none
    | some i =>
      some ("<a" ++ AbsCell.xmlFlags c ++ ">" ++ E.ListToXML H i ++ "</a>", H)

/-- Modelled from the spec: `MathCell::BreakLine(b)`, which `EMFout.cpp` calls
(`MathCell.h` is not among the sources), marks or unmarks the node as beginning a
line. -/
def MathCell.BreakLine (b : Bool) (c : Cell) : Cell := { c with m_breakLine := b }

/-- Modelled from the spec: `MathCell::BreakLineHere()`, which `EMFout.cpp` calls
(`MathCell.h` is not among the sources), tells whether the node is explicitly marked
to force a new line or is marked as beginning a line. -/
def MathCell.BreakLineHere (c : Cell) : Bool := c.m_breakLine || c.m_forceBreakLine

/-- Modelled from the spec: `MathCell::GetWidth()`, which `EMFout.cpp` calls
(`MathCell.h` is not among the sources), is the accessor of the cached `width`. -/
def MathCell.GetWidth (c : Cell) : Int := c.m_width

/-- The call `tmp->ResetData()`: the base class resets its caches. -/
def MathCell.ResetData (E : CellEnv) (c : Cell) : Cell := { c with base := E.ResetData c.base }

/-- The body of the loop of `Emfout::BreakLines` for the cell `tmp`, with the
accumulator `currentWidth`; returns the heap and the accumulator after the body.
`fullWidth` is the `int` that `500*m_scale` was converted to; the sums of pixel widths
stay far inside `int` and are taken in the integers. -/
def Emfout.BreakLines_body (E : CellEnv) (fullWidth : Int) (H : Heap) (tmp : Nat)
    (currentWidth : Int) : Option (Heap × Int) :=
  match H[tmp]? with
  | none => none
  | some c =>
    if !c.m_isBrokenIntoLines then
      -- tmp->BreakLine(false);
      (H.update tmp (MathCell.BreakLine false)).bind fun H1 =>
      -- tmp->ResetData();
      (H1.update tmp (MathCell.ResetData E)).bind fun H2 =>
      H2[tmp]?.bind fun c2 =>
      if MathCell.BreakLineHere c2 ||
          decide (currentWidth + MathCell.GetWidth c2 ≥ fullWidth) then
        -- currentWidth = tmp->GetWidth(); tmp->BreakLine(true);
        (H2.update tmp (MathCell.BreakLine true)).bind fun H3 =>
        some (H3, MathCell.GetWidth c2)
      else
        -- currentWidth += (tmp->GetWidth() + MC_CELL_SKIP);
        some (H2, currentWidth + (MathCell.GetWidth c2 + E.MC_CELL_SKIP))
    else
      some (H, currentWidth)

/-- The loop of `Emfout::BreakLines`: `while (tmp != NULL) { ...; tmp = tmp->m_nextToDraw; }`. -/
def Emfout.BreakLines_loop (E : CellEnv) (fullWidth : Int) :
    Nat → Heap → Option Nat → Int → Option Heap
  | _, H, none, _ => some H
  | 0, _, some _, _ => none
  | fuel + 1, H, some tmp, currentWidth =>
    match Emfout.BreakLines_body E fullWidth H tmp currentWidth with
    | none => none
    | some r =>
      match r.1[tmp]? with
      | none => none
      | some c => Emfout.BreakLines_loop E fullWidth fuel r.1 c.m_nextToDraw r.2

/-- The method `Emfout::BreakLines` on the tree `m_tree`, the accumulator starting at 0. -/
def Emfout.BreakLines (E : CellEnv) (fullWidth : Int) (fuel : Nat) (H : Heap)
    (m_tree : Option Nat) : Option Heap :=
  Emfout.BreakLines_loop E fullWidth fuel H m_tree 0

/-! ## Vocabulary of the statements -/

/-- A pointer is null or designates a cell of the heap. -/
def Heap.live (H : Heap) : Option Nat → Bool
  | none => true
  | some q => decide (q < H.length)

/-- The object at `p` is an `AbsCell` as the constructor leaves it with respect to its
pointers: the open and the close cell exist, and no pointer member dangles. -/
def AbsCell.wellFormed (H : Heap) (p : Nat) : Bool :=
  match H[p]? with
  | none => false
  | some c =>
    c.kind == CellKind.AbsCell && c.m_open.isSome && c.m_close.isSome &&
      H.live c.m_open && H.live c.m_close && H.live c.m_innerCell && H.live c.m_last

/-- The value of `q->m_nextToDraw` (null when `q` is no live cell). -/
def Heap.nextToDraw (H : Heap) (q : Nat) : Option Nat :=
  match H[q]? with
  | some c => c.m_nextToDraw
  | none => none

/-- The value of `q->m_next` (null when `q` is no live cell). -/
def Heap.next (H : Heap) (q : Nat) : Option Nat :=
  match H[q]? with
  | some c => c.m_next
  | none => none

/-- The first `n` cells that the walk `tmp = tmp->m_nextToDraw` visits from `start`. -/
def drawWalk (H : Heap) : Nat → Option Nat → List Nat
  | 0, _ => []
  | _ + 1, none => []
  | n + 1, some q => q :: drawWalk H n (H.nextToDraw q)

/-- The list `I` is the logical chain from `start`: the live cells reached through
`m_next`, up to the null link. -/
def isLogicalChain (H : Heap) : Option Nat → List Nat → Bool
  | none, [] => true
  | some q, j :: rest => q == j && decide (q < H.length) && isLogicalChain H (H.next q) rest
  | _, _ => false

/-- Draw order mirrors logical order on the cells of `I`. -/
def drawMirrorsLogical (H : Heap) (I : List Nat) : Bool :=
  I.all (fun q => H.nextToDraw q == H.next q)

/-- Concatenation of the texts along the logical chain from `q`. -/
def demoListText (H : Heap) : Nat → Option Nat → String
  | 0, _ => ""
  | _ + 1, none => ""
  | n + 1, some q =>
    match H[q]? with
    | none => ""
    | some c => c.m_text ++ demoListText H n c.m_next

/-- An environment in which every list export concatenates the texts of the chain,
cells are never dirty and the remaining helpers are trivial. -/
def demoEnv : CellEnv where
  Scale_Px := fun n => n
  GetDefaultLineWidth := 1
  MC_CELL_SKIP := 0
  MC_LINE_SKIP := 2
  newCell := {}
  ResetData := fun _ => []
  NeedsRecalculation := fun _ _ => false
  Cell_RecalculateWidths := fun _ b => b
  Cell_RecalculateHeight := fun _ b => b
  RecalculateWidthsList := fun _ H _ => H
  RecalculateHeightList := fun _ H _ => H
  GetFullWidth := fun H q => match H[q]? with
    | some c => c.m_width
    | none => 0
  GetMaxHeight := fun H q => match H[q]? with
    | some c => c.m_height
    | none => 0
  GetMaxCenter := fun H q => match H[q]? with
    | some c => c.m_center
    | none => 0
  ListToString := fun H q => demoListText H H.length (some q)
  ListToMatlab := fun H q => demoListText H H.length (some q)
  ListToTeX := fun H q => demoListText H H.length (some q)
  ListToMathML := fun H q => demoListText H H.length (some q)
  ListToOMML := fun H q => demoListText H H.length (some q)
  ListToXML := fun H q => demoListText H H.length (some q)
  UnbreakList := fun H _ => H

/-- A heap with one text cell `x` at address 0 and a freshly constructed `AbsCell`
(open cell 1, close cell 2, the `AbsCell` itself 3) that has no inner list yet. -/
def demoFresh : Heap × Nat := AbsCell.AbsCell demoEnv [{ kind := CellKind.TextCell, m_text := "x" }]

/-- The heap `demoFresh` after `SetInner` installed the cell 0 as the inner list. -/
def demoAbs : Heap :=
  (AbsCell.SetInner 1 demoFresh.1 3 (some 0)).getD []

/-- The heap `demoAbs` after `BreakUp` on the `AbsCell`. -/
def demoBroken : Heap :=
  match AbsCell.BreakUp demoEnv demoAbs 3 with
  | some r => r.2
  | none => []

/-- A heap with the logical chain `x`, `+y` (addresses 0 and 1, draw order mirroring
the logical order), a cell `z` at address 2, and a freshly constructed `AbsCell`
(open cell 3, close cell 4, the `AbsCell` itself 5) that is followed by `z` both in
the logical and in the draw order. -/
def demoTwo : Heap :=
  (AbsCell.AbsCell demoEnv
    [{ kind := CellKind.TextCell, m_text := "x", m_next := some 1, m_nextToDraw := some 1 },
     { kind := CellKind.TextCell, m_text := "+y" },
     { kind := CellKind.TextCell, m_text := "z" }]).1.modify
    (fun c => { c with m_next := some 2, m_nextToDraw := some 2 }) 5

/-- A draw order of two unbroken cells of widths 200 and 300, neither of them forced
to begin a line. -/
def demoLine : Heap :=
  [{ kind := CellKind.TextCell, m_text := "a", m_width := 200, m_next := some 1,
     m_nextToDraw := some 1 },
   { kind := CellKind.TextCell, m_text := "b", m_width := 300 }]

/-- An environment like `demoEnv` in which a cell is dirty until the base class has
recalculated its height: `NeedsRecalculation()` holds while the base state is empty,
and `Cell::RecalculateHeight` records the font size there. -/
def demoDirtyEnv : CellEnv :=
  { demoEnv with
    NeedsRecalculation := fun H q => match H[q]? with
      | some c => c.base == []
      | none => false
    Cell_RecalculateHeight := fun fontsize _ => [fontsize] }

/-- The heap `demoAbs` after one round of `RecalculateWidths` and `RecalculateHeight`
in `demoDirtyEnv`. -/
def demoRecalculated : Heap :=
  (AbsCell.Recalculate demoDirtyEnv 12 demoAbs 3).getD []

/-! ## `Emfout::GetMaxPoint` and `Emfout::Draw` -/

instance : Inhabited Cell := ⟨{}⟩

/-- The cell object at `q` (a default cell when `q` is no live cell). -/
def Heap.cell (H : Heap) (q : Nat) : Cell := (H[q]?).getD default

/-- The local variables of `Emfout::GetMaxPoint` together with its two results
`*width` and `*height`. -/
structure GetMaxPointState where
  currentHeight : Int := 0
  currentWidth : Int := 0
  width : Int := 0
  height : Int := 0
  bigSkip : Bool := false
  firstCell : Bool := true
deriving DecidableEq, Repr

/-- The body of the loop of `Emfout::GetMaxPoint` for the cell `c` at `tmp`. -/
def Emfout.GetMaxPoint_body (E : CellEnv) (H : Heap) (tmp : Nat) (c : Cell)
    (st : GetMaxPointState) : GetMaxPointState :=
  if !c.m_isBrokenIntoLines then
    let st1 : GetMaxPointState :=
      if MathCell.BreakLineHere c || st.firstCell then
        -- firstCell = false; currentHeight += tmp->GetMaxHeight();
        let currentHeight := st.currentHeight + E.GetMaxHeight H tmp
        -- if (bigSkip) currentHeight += MC_LINE_SKIP;
        let currentHeight := if st.bigSkip then currentHeight + E.MC_LINE_SKIP else currentHeight
        -- *height = currentHeight; currentWidth = tmp->GetWidth();
        -- *width = MAX(currentWidth, *width);
        { st with
          firstCell := false
          currentHeight := currentHeight
          height := currentHeight
          currentWidth := MathCell.GetWidth c
          width := max (MathCell.GetWidth c) st.width }
      else
        -- currentWidth += (tmp->GetWidth() + MC_CELL_SKIP);
        -- *width = MAX(currentWidth - MC_CELL_SKIP, *width);
        let currentWidth := st.currentWidth + (MathCell.GetWidth c + E.MC_CELL_SKIP)
        { st with
          currentWidth := currentWidth
          width := max (currentWidth - E.MC_CELL_SKIP) st.width }
    -- bigSkip = tmp->m_bigSkip;
    { st1 with bigSkip := c.m_bigSkip }
  else
    st

/-- The loop of `Emfout::GetMaxPoint`: `while (tmp != NULL) { ...; tmp = tmp->m_nextToDraw; }`. -/
def Emfout.GetMaxPoint_loop (E : CellEnv) (H : Heap) :
    Nat → Option Nat → GetMaxPointState → Option GetMaxPointState
  | _, none, st => some st
  | 0, some _, _ => none
  | fuel + 1, some tmp, st =>
    match H[tmp]? with
    | none => none
    | some c =>
      Emfout.GetMaxPoint_loop E H fuel c.m_nextToDraw (Emfout.GetMaxPoint_body E H tmp c st)

/-- The method `Emfout::GetMaxPoint(&width, &height)`: the pair `(*width, *height)`. -/
def Emfout.GetMaxPoint (E : CellEnv) (fuel : Nat) (H : Heap) (m_tree : Option Nat) :
    Option (Int × Int) :=
  (Emfout.GetMaxPoint_loop E H fuel m_tree {}).map (fun st => (st.width, st.height))

/-- A call `tmp->Draw(point, fontsize)` that `Emfout::Draw` made: the cell, the cursor
`point.x`, `point.y`, and whether the cell painted (`DrawThisCell`). -/
structure DrawCall where
  cell : Nat
  x : Int
  y : Int
  painted : Bool
deriving DecidableEq, Repr

/-- The cell and the cursor of a call, without the record of whether it painted. -/
def DrawCall.position (d : DrawCall) : Nat × Int × Int := (d.cell, d.x, d.y)

/-- The cursor `point` and the variable `drop` of `Emfout::Draw`. -/
structure DrawCursor where
  x : Int
  y : Int
  drop : Int
deriving DecidableEq, Repr

/-- The statements of `Emfout::Draw` under
`if ((tmp->m_next != NULL) && (tmp->m_next->BreakLineHere()))`, for the cell `c`; when
the test fails the result is `orElse`. -/
def Emfout.Draw_lineBreak (E : CellEnv) (H : Heap) (c : Cell) (cur orElse : DrawCursor) :
    Option DrawCursor :=
  match c.m_next with
  | none => some orElse
  | some n =>
    match H[n]? with
    | none => none
    | some cn =>
      if MathCell.BreakLineHere cn then
        -- point.x = 0; point.y += drop + tmp->m_next->GetMaxCenter();
        let y := cur.y + (cur.drop + E.GetMaxCenter H n)
        -- if (tmp->m_bigSkip) point.y += MC_LINE_SKIP;
        let y := if c.m_bigSkip then y + E.MC_LINE_SKIP else y
        -- drop = tmp->m_next->GetMaxDrop();
        some { x := 0, y := y, drop := E.GetMaxDrop H n }
      else
        some orElse

/-- The loop of `Emfout::Draw`.  Painting goes to the device context and does not write
the cell members that the loop reads, so the heap is not threaded through; the calls
are the result.  The font size passed to `tmp->Draw` does not enter the cursor and is
left out of the record. -/
def Emfout.Draw_loop (E : CellEnv) (H : Heap) :
    Nat → Option Nat → DrawCursor → Option (List DrawCall)
  | _, none, _ => some []
  | 0, some _, _ => none
  | fuel + 1, some tmp, cur =>
    match H[tmp]? with
    | none => none
    | some c =>
      if !c.m_isBrokenIntoLines then
        -- tmp->Draw(point, ...); then the line break test, else
        -- point.x += (tmp->GetWidth() + MC_CELL_SKIP);
        (Emfout.Draw_lineBreak E H c cur
          { cur with x := cur.x + (MathCell.GetWidth c + E.MC_CELL_SKIP) }).bind fun cur1 =>
        (Emfout.Draw_loop E H fuel c.m_nextToDraw cur1).map fun calls =>
          { cell := tmp, x := cur.x, y := cur.y,
            painted := E.DrawThisCell H tmp cur.x cur.y } :: calls
      else
        (Emfout.Draw_lineBreak E H c cur cur).bind fun cur1 =>
        Emfout.Draw_loop E H fuel c.m_nextToDraw cur1

/-- The method `Emfout::Draw`: the cursor starts at `x = 0`, `y = m_tree->GetMaxCenter()`
with `drop = m_tree->GetMaxDrop()`. -/
def Emfout.Draw (E : CellEnv) (fuel : Nat) (H : Heap) (m_tree : Option Nat) :
    Option (List DrawCall) :=
  match m_tree with
  | none => some []
  | some t =>
    match H[t]? with
    | none => none
    | some _ =>
      Emfout.Draw_loop E H fuel (some t)
        { x := 0, y := E.GetMaxCenter H t, drop := E.GetMaxDrop H t }

/-! ## Lines of a draw order -/

/-- The list `P` is the draw order from `start`: the live cells reached through
`m_nextToDraw`, up to the null link. -/
def isDrawChain (H : Heap) : Option Nat → List Nat → Bool
  | none, [] => true
  | some q, j :: rest => q == j && decide (q < H.length) && isDrawChain H (H.nextToDraw q) rest
  | _, _ => false

/-- Split a sequence into lines: an element that `starts` a line ends the line before
it; the first element begins the first line whatever its mark. -/
def splitLines {α : Type} (starts : α → Bool) : List α → List (List α)
  | [] => []
  | c :: rest =>
    match splitLines starts rest with
    | [] => [[c]]
    | [] :: ls => [c] :: ls
    | (d :: l) :: ls => if starts d then [c] :: (d :: l) :: ls else (c :: d :: l) :: ls

/-- The unbroken cells of the draw order `P`. -/
def Emfout.unbrokenCells (H : Heap) (P : List Nat) : List Nat :=
  P.filter (fun q => !(H.cell q).m_isBrokenIntoLines)

/-- The lines of the draw order `P`: the maximal runs of unbroken cells that begin at
the first cell or at a cell that begins a line (`BreakLineHere`). -/
def Emfout.lines (H : Heap) (P : List Nat) : List (List Nat) :=
  splitLines (fun q => MathCell.BreakLineHere (H.cell q)) (Emfout.unbrokenCells H P)

/-- The height of a sequence of lines as the amended C19 words it: every line counts
`GetMaxHeight()` of the cell that begins it, and `MC_LINE_SKIP` is added before a line
when the last cell of the line before it has `m_bigSkip` (`prevBigSkip`; false before
the first line). -/
def Emfout.linesHeight (E : CellEnv) (H : Heap) : Bool → List (List Nat) → Int
  | _, [] => 0
  | prevBigSkip, l :: ls =>
    (match l.head? with
      | some q => E.GetMaxHeight H q
      | none => 0) +
    (if prevBigSkip then E.MC_LINE_SKIP else 0) +
    Emfout.linesHeight E H
      (match l.getLast? with
        | some q => (H.cell q).m_bigSkip
        | none => false) ls

/-- The height of a sequence of lines as C19 words it: `MC_LINE_SKIP` is added before
a line when any cell of the line before it has `m_bigSkip`. -/
def Emfout.linesHeightAny (E : CellEnv) (H : Heap) : Bool → List (List Nat) → Int
  | _, [] => 0
  | prevBigSkip, l :: ls =>
    (match l.head? with
      | some q => E.GetMaxHeight H q
      | none => 0) +
    (if prevBigSkip then E.MC_LINE_SKIP else 0) +
    Emfout.linesHeightAny E H (l.any (fun q => (H.cell q).m_bigSkip)) ls

/-- The cursor rule as C15 words it, for the cells `P` that remain to be drawn with the
cursor at `(x, y)` and the drop `drop` of the current line: after a cell, if the
following cell begins a line the cursor becomes `x = 0` and `y` grows by the drop of the
current line plus the max center of the following cell (plus `MC_LINE_SKIP` when the
cell just drawn has `m_bigSkip`); otherwise `x` grows by the width of the cell plus
`MC_CELL_SKIP`. -/
def Emfout.cursorRule (E : CellEnv) (H : Heap) : DrawCursor → List Nat → List (Nat × Int × Int)
  | _, [] => []
  | cur, q :: rest =>
    (q, cur.x, cur.y) ::
      Emfout.cursorRule E H
        (match rest.head? with
          | none => cur
          | some n =>
            if MathCell.BreakLineHere (H.cell n) then
              { x := 0
                y := cur.y + (cur.drop + E.GetMaxCenter H n) +
                  (if (H.cell q).m_bigSkip then E.MC_LINE_SKIP else 0)
                drop := E.GetMaxDrop H n }
            else
              { cur with x := cur.x + ((H.cell q).m_width + E.MC_CELL_SKIP) })
        rest

/-- The part of a line height below the baseline, for the cells of the demo heaps: the
height of the cell minus its center. -/
def demoDrawEnv : CellEnv :=
  { demoEnv with
    GetMaxDrop := fun H q => match H[q]? with
      | some c => c.m_height - c.m_center
      | none => 0 }

/-- The helper behind the statement about the height that `GetMaxPoint` measures: the
height that the unbroken cells `U` add when the walk reaches them with the flags
`firstCell` and `bigSkip`. -/
def Emfout.linesHeightFrom (E : CellEnv) (H : Heap) (firstCell bigSkip : Bool) (U : List Nat) :
    Int :=
  match U, splitLines (fun q => MathCell.BreakLineHere (H.cell q)) U with
  | d :: _, l :: ls =>
    if firstCell || MathCell.BreakLineHere (H.cell d) then
      Emfout.linesHeight E H bigSkip (l :: ls)
    else
      Emfout.linesHeight E H
        (match l.getLast? with
          | some q => (H.cell q).m_bigSkip
          | none => false) ls
  | _, _ => 0

/-- Draw order `a`, `b`, `c` for the measurement of the height: `a` (with `m_bigSkip`)
and `b` form the first line, `c` begins the second line; every cell is 10 wide and 10
high with its center at 6. -/
def demoSkip : Heap :=
  [{ kind := CellKind.TextCell, m_text := "a", m_width := 10, m_height := 10, m_center := 6,
     m_bigSkip := true, m_next := some 1, m_nextToDraw := some 1 },
   { kind := CellKind.TextCell, m_text := "b", m_width := 10, m_height := 10, m_center := 6,
     m_next := some 2, m_nextToDraw := some 2 },
   { kind := CellKind.TextCell, m_text := "c", m_width := 10, m_height := 10, m_center := 6,
     m_breakLine := true }]

/-- The heap `demoSkip` with the logical link of the second cell cut: the draw order is
still `a`, `b`, `c`. -/
def demoSkipCut : Heap :=
  demoSkip.modify (fun c => { c with m_next := none }) 1

/-! ## Lines after `Emfout::BreakLines` -/

/-- What one turn of the loop of `Emfout::BreakLines` does to the cell object it visits
and to the accumulator `currentWidth`. -/
def Emfout.BreakLines_cell (E : CellEnv) (fullWidth : Int) (c : Cell) (currentWidth : Int) :
    Cell × Int :=
  if !c.m_isBrokenIntoLines then
    let c2 := MathCell.ResetData E (MathCell.BreakLine false c)
    if MathCell.BreakLineHere c2 || decide (currentWidth + MathCell.GetWidth c2 ≥ fullWidth) then
      (MathCell.BreakLine true c2, MathCell.GetWidth c2)
    else
      (c2, currentWidth + (MathCell.GetWidth c2 + E.MC_CELL_SKIP))
  else
    (c, currentWidth)

/-- The cell objects of a draw order after `Emfout::BreakLines` went over them, the
accumulator starting at `currentWidth`. -/
def Emfout.BreakLines_cells (E : CellEnv) (fullWidth : Int) : Int → List Cell → List Cell
  | _, [] => []
  | currentWidth, c :: rest =>
    (Emfout.BreakLines_cell E fullWidth c currentWidth).1 ::
      Emfout.BreakLines_cells E fullWidth (Emfout.BreakLines_cell E fullWidth c currentWidth).2 rest

/-- The width of a line: the widths of its cells plus the gap between each two
neighbours. -/
def Emfout.lineWidth (gap : Int) : List Cell → Int
  | [] => 0
  | c :: rest =>
    match rest with
    | [] => c.m_width
    | _ :: _ => c.m_width + gap + Emfout.lineWidth gap rest

/-- The lines of a sequence of cell objects in draw order. -/
def Emfout.cellLines (cs : List Cell) : List (List Cell) :=
  splitLines MathCell.BreakLineHere (cs.filter (fun c => !c.m_isBrokenIntoLines))

/-- A draw order of three unbroken cells of widths 300, 300 and 195, none of them forced
to begin a line. -/
def demoGap : Heap :=
  [{ kind := CellKind.TextCell, m_text := "a", m_width := 300, m_next := some 1,
     m_nextToDraw := some 1 },
   { kind := CellKind.TextCell, m_text := "b", m_width := 300, m_next := some 2,
     m_nextToDraw := some 2 },
   { kind := CellKind.TextCell, m_text := "c", m_width := 195 }]

/-- The environment `demoEnv` with an inter-cell gap of 10. -/
def demoGapEnv : CellEnv := { demoEnv with MC_CELL_SKIP := 10 }

/-- The heap `demoGap` after `Emfout::BreakLines` with target width 500 and gap 10. -/
def demoGapBroken : Heap :=
  (Emfout.BreakLines demoGapEnv 500 3 demoGap (some 0)).getD []

/-! ## `AutoComplete::CompleteSymbol` -/

/-- The enumeration `AutoComplete::autoCompletionType`. -/
inductive autoCompletionType where
  | command
  | tmplte
  | loadfile
  | demofile
  | generalfile
  | esccommand
  | unit
deriving DecidableEq, Repr

/-- The members of `AutoComplete` that `CompleteSymbol` reads: the word lists by type
and the keys of the worksheet words in iteration order. -/
structure AutoComplete where
  m_wordList : autoCompletionType → List String
  m_worksheetWords : List String

/-- Whether the characters `s` begin with the characters `p`. -/
def charsStartWith : List Char → List Char → Bool
  | _, [] => true
  | [], _ :: _ => false
  | a :: s, b :: p => a == b && charsStartWith s p

/-- Whether the characters `s` come before the characters `t`, or are the same, in the
order of `wxString::Cmp`: character by character, by code. -/
def charsLe : List Char → List Char → Bool
  | [], _ => true
  | _ :: _, [] => false
  | a :: s, b :: t => decide (a.toNat < b.toNat) || (a.toNat == b.toNat && charsLe s t)

/-- The order that `wxArrayString::Sort()` sorts by. -/
def wxString.le (s t : String) : Bool := charsLe s.data t.data

/-- The method `wxString::StartsWith`. -/
def wxString.StartsWith (s p : String) : Bool := charsStartWith s.data p.data

/-- The method `wxString::EndsWith`. -/
def wxString.EndsWith (s p : String) : Bool := charsStartWith s.data.reverse p.data.reverse

/-- The method `wxString::Left(n)`: the first `n` characters. -/
def wxString.Left (s : String) (n : Nat) : String := ⟨s.data.take n⟩

/-- The value `wxString::npos`, the largest `size_t`. -/
def wxString.npos : Nat := 2 ^ 64 - 1

/-- The method `wxString::Mid(nFirst, nCount)`: `nCount` characters from `nFirst` on, all
the rest for `npos` or a count that is too large. -/
def wxString.Mid (s : String) (nFirst nCount : Nat) : String :=
  if nCount = wxString.npos then ⟨s.data.drop nFirst⟩ else ⟨(s.data.drop nFirst).take nCount⟩

/-- The method `wxString::SubString(from, to)`, which is `Mid(from, to - from + 1)` in
`size_t` arithmetic. -/
def wxString.SubString (s : String) (first last : Int) : String :=
  wxString.Mid s (first % 2 ^ 64).toNat ((last - first + 1) % 2 ^ 64).toNat

/-- The method `wxString::Find(ch)`: the index of the first occurrence, `wxNOT_FOUND`
(-1) when there is none. -/
def wxString.Find (s : String) (ch : Char) : Int :=
  match s.data.indexOf? ch with
  | some i => (i : Int)
  | none => -1

/-- The loop of `CompleteSymbol` for the types other than `tmplte`, over the words
`words`: a word is added when it starts with the typed text and is not in the list
yet. -/
def AutoComplete.CompleteSymbol_words (typed : String) (words completions : List String) :
    List String :=
  words.foldl (fun completions w =>
    if wxString.StartsWith w typed && !completions.contains w then completions ++ [w]
    else completions) completions

/-- The loop of `CompleteSymbol` for the type `tmplte`: the pair of `completions` and
`perfectCompletions`. -/
def AutoComplete.CompleteSymbol_templates (typed : String) (words : List String) :
    List String × List String :=
  words.foldl (fun (acc : List String × List String) templ =>
    if wxString.StartsWith templ typed then
      let completions :=
        if !acc.1.contains templ then acc.1 ++ [templ] else acc.1
      let perfectCompletions :=
        if wxString.SubString templ 0 (wxString.Find templ '(' - 1) == typed &&
            !acc.2.contains templ then acc.2 ++ [templ] else acc.2
      (completions, perfectCompletions)
    else acc) ([], [])

/-- The text that `CompleteSymbol` matches against: for the types `demofile` and
`loadfile` a closing double quote at the end of the typed text is dropped. -/
def AutoComplete.CompleteSymbol_typed (typed : String) (type : autoCompletionType) : String :=
  if (type == autoCompletionType.demofile || type == autoCompletionType.loadfile) &&
      wxString.EndsWith typed "\"" then
    wxString.Left typed (typed.length - 1)
  else typed

/-- The method `AutoComplete::CompleteSymbol(partial, type)`; the argument `partial` is
called `typed` here.  `completions.Sort()` is the ascending sort of the strings. -/
def AutoComplete.CompleteSymbol (A : AutoComplete) (typed : String) (type : autoCompletionType) :
    List String :=
  let typed := AutoComplete.CompleteSymbol_typed typed type
  let r : List String × List String :=
    if type != autoCompletionType.tmplte then
      (AutoComplete.CompleteSymbol_words typed (A.m_wordList type) [], [])
    else
      AutoComplete.CompleteSymbol_templates typed (A.m_wordList type)
  let completions :=
    if type == autoCompletionType.command then
      AutoComplete.CompleteSymbol_words typed A.m_worksheetWords r.1
    else r.1
  let completions := completions.insertionSort (fun a b => wxString.le a b)
  if r.2.length > 0 then r.2 else completions

/-- Word lists to evaluate `CompleteSymbol` on: the load file `foobar`, the commands
`sin` and `sinh`, the templates of `sin` and `sinh`, and the worksheet word `sine`. -/
def demoAutoComplete : AutoComplete where
  m_wordList := fun t =>
    match t with
    | autoCompletionType.command => ["sinh", "sin", "cos"]
    | autoCompletionType.tmplte => ["sinh(<x>)", "sin(<x>)"]
    | autoCompletionType.loadfile => ["foobar", "bar"]
    | _ => []
  m_worksheetWords := ["sine", "sin"]

/-! ## `Emfout::BreakUpCells` -/

/-- The virtual call `tmp->BreakUp()`: `AbsCell::BreakUp` when the object is an `AbsCell`;
the method of the other cell classes is not among the sources and is a parameter. -/
def MathCell.BreakUp (E : CellEnv) (H : Heap) (tmp : Nat) : Option (Bool × Heap) :=
  match H[tmp]? with
  | none => none
  | some c =>
    if c.kind = CellKind.AbsCell then AbsCell.BreakUp E H tmp else E.BreakUp_other H tmp

/-- The virtual call `tmp->RecalculateWidths(fontsize)`. -/
def MathCell.RecalculateWidths (E : CellEnv) (fontsize : Int) (H : Heap) (tmp : Nat) :
    Option Heap :=
  match H[tmp]? with
  | none => none
  | some c =>
    if c.kind = CellKind.AbsCell then AbsCell.RecalculateWidths E fontsize H tmp
    else E.RecalculateWidths_other fontsize H tmp

/-- The virtual call `tmp->RecalculateHeight(fontsize)`. -/
def MathCell.RecalculateHeight (E : CellEnv) (fontsize : Int) (H : Heap) (tmp : Nat) :
    Option Heap :=
  match H[tmp]? with
  | none => none
  | some c =>
    if c.kind = CellKind.AbsCell then AbsCell.RecalculateHeight E fontsize H tmp
    else E.RecalculateHeight_other fontsize H tmp

/-- A method call that `Emfout::BreakUpCells` made on a cell: `BreakUp()` with the value
it returned, `RecalculateWidths(fontsize)` or `RecalculateHeight(fontsize)`. -/
inductive MethodCall where
  | BreakUp (cell : Nat) (result : Bool)
  | RecalculateWidths (cell : Nat) (fontsize : Int)
  | RecalculateHeight (cell : Nat) (fontsize : Int)
deriving DecidableEq, Repr

/-- One round of the loop of `Emfout::BreakUpCells`: the cell `tmp`, the value of
`tmp->GetWidth()` that the test read, and the calls made on the cell, in order. -/
structure Visit where
  cell : Nat
  width : Int
  calls : List MethodCall
deriving DecidableEq, Repr

/-- The argument `tmp->IsMath() ? mfontsize : fontsize`. -/
def Emfout.fontsizeOf (E : CellEnv) (fontsize mfontsize : Int) (c : Cell) : Int :=
  if E.IsMath c then mfontsize else fontsize

/-- The statements of `Emfout::BreakUpCells` under `if (tmp->BreakUp())`:
`tmp->RecalculateWidths(...); tmp->RecalculateHeight(...);`. -/
def Emfout.BreakUpCells_recalculate (E : CellEnv) (fontsize mfontsize : Int) (H : Heap)
    (tmp : Nat) : Option (Heap × List MethodCall) :=
  H[tmp]?.bind fun c1 =>
  (MathCell.RecalculateWidths E (Emfout.fontsizeOf E fontsize mfontsize c1) H tmp).bind fun H2 =>
  H2[tmp]?.bind fun c2 =>
  (MathCell.RecalculateHeight E (Emfout.fontsizeOf E fontsize mfontsize c2) H2 tmp).bind fun H3 =>
  some (H3, [MethodCall.BreakUp tmp true,
    MethodCall.RecalculateWidths tmp (Emfout.fontsizeOf E fontsize mfontsize c1),
    MethodCall.RecalculateHeight tmp (Emfout.fontsizeOf E fontsize mfontsize c2)])

/-- The body of the loop of `Emfout::BreakUpCells` for the cell `tmp`: the heap after
the body and the calls made.  `fullWidth` is the greatest integer that is not above
`500*m_scale`: the `int` that `tmp->GetWidth()` returns is greater than `500*m_scale`
exactly when it is greater than `fullWidth`. -/
def Emfout.BreakUpCells_body (E : CellEnv) (fullWidth fontsize mfontsize : Int) (H : Heap)
    (tmp : Nat) : Option (Heap × List MethodCall) :=
  H[tmp]?.bind fun c =>
  if MathCell.GetWidth c > fullWidth then
    (MathCell.BreakUp E H tmp).bind fun r =>
    if r.1 then
      Emfout.BreakUpCells_recalculate E fontsize mfontsize r.2 tmp
    else
      some (r.2, [MethodCall.BreakUp tmp false])
  else
    some (H, [])

/-- The loop of `Emfout::BreakUpCells`: `while (tmp != NULL) { ...; tmp = tmp->m_nextToDraw; }`.
The link to the next cell is read after the body.  Returns the heap after the loop and
the rounds of the loop. -/
def Emfout.BreakUpCells_loop (E : CellEnv) (fullWidth fontsize mfontsize : Int) :
    Nat → Heap → Option Nat → Option (Heap × List Visit)
  | _, H, none => some (H, [])
  | 0, _, some _ => none
  | fuel + 1, H, some tmp =>
    H[tmp]?.bind fun c =>
    (Emfout.BreakUpCells_body E fullWidth fontsize mfontsize H tmp).bind fun r =>
    r.1[tmp]?.bind fun c1 =>
    (Emfout.BreakUpCells_loop E fullWidth fontsize mfontsize fuel r.1 c1.m_nextToDraw).map
      fun r2 => (r2.1, { cell := tmp, width := MathCell.GetWidth c, calls := r.2 } :: r2.2)

/-- The method `Emfout::BreakUpCells` on the tree `m_tree`; `fontsize` and `mfontsize` are
the values read from the configuration. -/
def Emfout.BreakUpCells (E : CellEnv) (fullWidth fontsize mfontsize : Int) (fuel : Nat)
    (H : Heap) (m_tree : Option Nat) : Option (Heap × List Visit) :=
  Emfout.BreakUpCells_loop E fullWidth fontsize mfontsize fuel H m_tree

/-- A heap with `abs(abs(x))`: the text cell `x` (address 0, width 600), the inner
`AbsCell` (open cell 1, close cell 2, itself 3, width 620) with the inner list `x`, and the
outer `AbsCell` (open cell 4, close cell 5, itself 6, width 640) with the inner `AbsCell`
as inner list.  The open and close cells are 10 wide. -/
def demoNested : Heap :=
  [{ kind := CellKind.TextCell, m_text := "x", m_width := 600 },
   { kind := CellKind.TextCell, m_text := "abs(", m_width := 10,
     m_dontEscapeOpeningParenthesis := true },
   { kind := CellKind.TextCell, m_text := ")", m_width := 10 },
   { kind := CellKind.AbsCell, m_open := some 1, m_close := some 2, m_innerCell := some 0,
     m_last := some 0, m_width := 620 },
   { kind := CellKind.TextCell, m_text := "abs(", m_width := 10,
     m_dontEscapeOpeningParenthesis := true },
   { kind := CellKind.TextCell, m_text := ")", m_width := 10 },
   { kind := CellKind.AbsCell, m_open := some 4, m_close := some 5, m_innerCell := some 3,
     m_last := some 3, m_width := 640 }]

/-- A cell without its draw link. -/
def Cell.withoutDrawLink (c : Cell) : Cell := { c with m_nextToDraw := none }

/-- The `AbsCell` at `p` is well formed and not broken into lines, with the open cell
`o` and the close cell `cl`, and is as `SetInner(i)` leaves it: `m_innerCell` is `i` and
`m_last` is the last cell of the logical chain `I` from `i`.  The draw links of `I`
mirror its logical links, and the cell, its open cell, its close cell and the cells of
`I` are distinct objects. -/
def AbsCell.hasInner (H : Heap) (p o cl i : Nat) (I : List Nat) : Bool :=
  AbsCell.wellFormed H p &&
  (match H[p]? with
    | none => false
    | some c => !c.m_isBrokenIntoLines && c.m_open == some o && c.m_close == some cl &&
        c.m_innerCell == some i && c.m_last == I.getLast?) &&
  isLogicalChain H (some i) I && drawMirrorsLogical H I &&
  decide (p :: o :: cl :: I).Nodup

/-- The round of the loop of `Emfout::BreakUpCells` at a cell `q` that cannot be broken
up, as the claim words it: `BreakUp` is called exactly when the cell is wider than the
target `W`, and returns false. -/
def Emfout.inertVisit (W : Int) (H : Heap) (q : Nat) : Visit :=
  { cell := q, width := (H.cell q).m_width,
    calls := if (H.cell q).m_width > W then [MethodCall.BreakUp q false] else [] }

/-- The round of the loop of `Emfout::BreakUpCells` at a cell `q` of width `width` on
which `BreakUp` returned true: `RecalculateWidths` and then `RecalculateHeight` follow. -/
def Emfout.brokenUpVisit (q : Nat) (width f1 f2 : Int) : Visit :=
  { cell := q, width := width,
    calls := [MethodCall.BreakUp q true, MethodCall.RecalculateWidths q f1,
      MethodCall.RecalculateHeight q f2] }

/-! ## `Emfout::SetData` and `Emfout::Layout` -/

/-- The members of an `Emfout` object that `SetData` and `Layout` read or write, and what
the object did to the outside.  The scale `m_scale` is a `double`; it is taken to be
positive and finite and is given by its value, the ratio `m_scale_num / m_scale_den`.
`m_recalculationDc_IsOk` is what `m_recalculationDc->IsOk()` returns.  `surfaces` lists
the sizes of the output contexts created by `new wxEnhMetaFileDC(m_filename, m_width,
m_height, ...)`, and `drawn` the calls `tmp->Draw(...)` made by `Emfout::Draw`. -/
structure Emfout where
  m_tree : Option Nat := none
  m_width : Int := -1
  m_height : Int := -1
  m_scale_num : Nat := 1
  m_scale_den : Nat := 1
  m_recalculationDc_IsOk : Bool := true
  surfaces : List (Int × Int) := []
  drawn : List DrawCall := []
deriving DecidableEq, Repr

/-- The number of binary digits of `n` behind the first, found by halving. -/
def log2Fuel : Nat → Nat → Nat
  | 0, _ => 0
  | fuel + 1, n => if n < 2 then 0 else log2Fuel fuel (n / 2) + 1

/-- The position of the highest binary digit of `n`. -/
def ilog2 (n : Nat) : Nat := log2Fuel n n

/-- The integer nearest to `a / b`, the even one of two that are equally near. -/
def roundHalfEven (a b : Nat) : Nat :=
  if 2 * (a % b) < b then a / b
  else if b < 2 * (a % b) then a / b + 1
  else if (a / b) % 2 = 0 then a / b
  else a / b + 1

/-- The `double` nearest to the ratio `a / b` (for `b` that is not 0), as a ratio with a
power of two below: the ratio is scaled by a power of two into the range from `2 ^ 52`
up to `2 ^ 53`, rounded to the nearest integer, the even one in a tie, and scaled back.
This is the rounding of the format with 53 binary digits for the numbers of its normal
range; above that range the conversion to `int` has no value anyway, and below it,
where the format is coarser, the number cut off to an integer is 0 either way. -/
def roundToDouble (a b : Nat) : Nat × Nat :=
  let up := (53 + ilog2 b) - ilog2 a
  let down := ilog2 a - (53 + ilog2 b)
  let down := if b * 2 ^ down * 2 ^ 53 ≤ a * 2 ^ up then down + 1 else down
  (roundHalfEven (a * 2 ^ up) (b * 2 ^ down) * 2 ^ down, 2 ^ up)

/-- The `double` nearest to `a / b`, cut off to an integer. -/
def truncDouble (a b : Nat) : Nat := (roundToDouble a b).1 / (roundToDouble a b).2

/-- The conversion to `int` of the `double` that a product or quotient with the value
`a / b` is rounded to: the number is cut off towards zero; there is no defined value for
a division by 0 or a number that does not fit an `int`. -/
def doubleToInt (a b : Nat) : Option Int :=
  if b = 0 then none
  else if truncDouble a b < 2 ^ 31 then some (truncDouble a b : Int)
  else none

/-- The target width `int fullWidth = 500*m_scale`: the product is a `double` and is
cut off to an `int`. -/
def Emfout.fullWidth (S : Emfout) : Option Int :=
  doubleToInt (500 * S.m_scale_num) S.m_scale_den

/-- The method `Emfout::RecalculateWidths`: the loop
`while (tmp != NULL) { tmp->RecalculateWidths(...); tmp = tmp->m_next; }`. -/
def Emfout.RecalculateWidths (E : CellEnv) (fontsize mfontsize : Int) :
    Nat → Heap → Option Nat → Option Heap
  | _, H, none => some H
  | 0, _, some _ => none
  | fuel + 1, H, some tmp =>
    H[tmp]?.bind fun c =>
    (MathCell.RecalculateWidths E (Emfout.fontsizeOf E fontsize mfontsize c) H tmp).bind fun H1 =>
    H1[tmp]?.bind fun c1 =>
    Emfout.RecalculateWidths E fontsize mfontsize fuel H1 c1.m_next

/-- The method `Emfout::RecalculateHeight`: the loop
`while (tmp != NULL) { tmp->RecalculateHeight(...); tmp = tmp->m_next; }`. -/
def Emfout.RecalculateHeight (E : CellEnv) (fontsize mfontsize : Int) :
    Nat → Heap → Option Nat → Option Heap
  | _, H, none => some H
  | 0, _, some _ => none
  | fuel + 1, H, some tmp =>
    H[tmp]?.bind fun c =>
    (MathCell.RecalculateHeight E (Emfout.fontsizeOf E fontsize mfontsize c) H tmp).bind fun H1 =>
    H1[tmp]?.bind fun c1 =>
    Emfout.RecalculateHeight E fontsize mfontsize fuel H1 c1.m_next

/-- The call `CopyCommonData(cell)` on an `AbsCell` object `x`: a method of the `Cell` base
class (`Cell.cpp` is not among the sources); it has no access to the members of `AbsCell`
and cannot change the class of the object. -/
def AbsCell.CopyCommonData (E : CellEnv) (cell x : Cell) : Cell :=
  { E.CopyCommonData cell x with
    kind := x.kind, m_open := x.m_open, m_close := x.m_close,
    m_innerCell := x.m_innerCell, m_last := x.m_last }

/-- How a call of `GetUnmatchedParenthesisState` ends: it returns a string, or it reads
`delimiters.back()` while `delimiters` is empty, for which `std::list` defines no
behaviour; `outOfFuel` is the fuel of the model running out. -/
inductive ParenthesisOutcome where
  | returns (s : String)
  | backOfEmpty
  | outOfFuel
deriving DecidableEq, Repr

/-- The first position at or after `pos` at which `pat` occurs, `pos` being the position
of the first character of the list. -/
def charsFind (pat : List Char) : List Char → Nat → Option Nat
  | [], pos => if pat.isEmpty then some pos else none
  | c :: s, pos => if charsStartWith (c :: s) pat then some pos else charsFind pat s (pos + 1)

/-- The method `wxString::find(str, nStart)`: the first position at or after `nStart` at
which `str` occurs; `none` stands for `npos`. -/
def wxString.find (text pat : List Char) (nStart : Nat) : Option Nat :=
  charsFind pat (text.drop nStart) nStart

/-- The loop `while((index<len)&&(c=text[index])!='"') { if(c=='\\') index++; index++; }`
of `GetUnmatchedParenthesisState`: the values of `index` and `c` after the loop.  The
variable `c` is assigned only when `index<len` holds. -/
def GetUnmatchedParenthesisState_string (text : List Char) : Nat → Nat → Char → Nat × Char
  | 0, index, c => (index, c)
  | fuel + 1, index, c =>
    match text[index]? with
    | none => (index, c)
    | some d =>
      if d != '"' then
        GetUnmatchedParenthesisState_string text fuel
          ((if d == '\\' then index + 1 else index) + 1) d
      else
        (index, d)

/-- The loop `while(index<len) { ...; index++; }` of `GetUnmatchedParenthesisState`.  The
list `delimiters` is kept with its back first.  The texts handed to `_()` stand for
their translations. -/
def GetUnmatchedParenthesisState_loop (text : List Char) :
    Nat → Nat → List Char → ParenthesisOutcome
  | 0, _, _ => ParenthesisOutcome.outOfFuel
  | fuel + 1, index, delimiters =>
    match text[index]? with
    | none =>
      -- if(!delimiters.empty()) return _("Un-closed parenthesis"); return wxEmptyString;
      if !delimiters.isEmpty then ParenthesisOutcome.returns "Un-closed parenthesis"
      else ParenthesisOutcome.returns ""
    | some c =>
      if c == '(' then
        GetUnmatchedParenthesisState_loop text fuel (index + 1) (')' :: delimiters)
      else if c == '[' then
        GetUnmatchedParenthesisState_loop text fuel (index + 1) (']' :: delimiters)
      else if c == '{' then
        GetUnmatchedParenthesisState_loop text fuel (index + 1) ('}' :: delimiters)
      else if c == ')' || c == ']' || c == '}' then
        -- if(c!=delimiters.back()) return(_("Mismatched parenthesis")); delimiters.pop_back();
        match delimiters with
        | [] => ParenthesisOutcome.backOfEmpty
        | d :: rest =>
          if c != d then ParenthesisOutcome.returns "Mismatched parenthesis"
          else GetUnmatchedParenthesisState_loop text fuel (index + 1) rest
      else if c == '\\' then
        GetUnmatchedParenthesisState_loop text fuel (index + 1 + 1) delimiters
      else if c == '"' then
        -- index++; while(...) ...; if(c!='"') return(_("Unterminated string."));
        if (GetUnmatchedParenthesisState_string text (text.length + 1) (index + 1) c).2 != '"' then
          ParenthesisOutcome.returns "Unterminated string."
        else
          GetUnmatchedParenthesisState_loop text fuel
            ((GetUnmatchedParenthesisState_string text (text.length + 1) (index + 1) c).1 + 1)
            delimiters
      else if c == '/' then
        -- if(index<len-1) if(text[index + 1]=='*') { index=text.find("*/",index); ... }
        if index + 1 < text.length && text[index + 1]? == some '*' then
          match wxString.find text "*/".data index with
          | none => ParenthesisOutcome.returns "Unterminated comment."
          | some found => GetUnmatchedParenthesisState_loop text fuel (found + 1) delimiters
        else
          GetUnmatchedParenthesisState_loop text fuel (index + 1) delimiters
      else
        GetUnmatchedParenthesisState_loop text fuel (index + 1) delimiters

/-- The method `wxMaxima::GetUnmatchedParenthesisState(text)`.  Every round of the loop
moves `index` forward, so the fuel `len + 1` is never used up. -/
def GetUnmatchedParenthesisState (text : String) : ParenthesisOutcome :=
  GetUnmatchedParenthesisState_loop text.data (text.length + 1) 0 []

/-- The closing bracket that belongs to an opening bracket. -/
def closerOf (c : Char) : Option Char :=
  if c == '(' then some ')' else if c == '[' then some ']' else if c == '{' then some '}'
  else none

/-- Whether the character is a closing bracket. -/
def isCloser (c : Char) : Bool := c == ')' || c == ']' || c == '}'

/-- The round, square and curly brackets of a text are properly nested and matched:
the text is empty, or a character that is no bracket followed by such a text, or an
opening bracket, such a text, the closing bracket of the same kind, and such a text. -/
inductive Balanced : List Char → Prop where
  | nil : Balanced []
  | plain (c : Char) (s : List Char) :
      closerOf c = none → isCloser c = false → Balanced s → Balanced (c :: s)
  | wrap (o k : Char) (s t : List Char) :
      closerOf o = some k → Balanced s → Balanced t → Balanced (o :: (s ++ k :: t))

/-- The closing brackets that the opening brackets still pending after a text are
waiting for, the most recently opened first, when `pending` were pending before the
text; `none` when a closing bracket of the text meets no pending opening bracket or
one of another kind. -/
def pendingClosers : List Char → List Char → Option (List Char)
  | [], pending => some pending
  | c :: s, pending =>
    match closerOf c with
    | some k => pendingClosers s (k :: pending)
    | none =>
      if isCloser c then
        match pending with
        | [] => none
        | d :: rest => if c == d then pendingClosers s rest else none
      else pendingClosers s pending

/-- The loop of `GetUnmatchedParenthesisState` on the rest `s` of a text in which no double
quote, backslash or slash occurs, with the closing brackets `delimiters` pending. -/
def bracketRun : List Char → List Char → ParenthesisOutcome
  | [], delimiters =>
    if !delimiters.isEmpty then ParenthesisOutcome.returns "Un-closed parenthesis"
    else ParenthesisOutcome.returns ""
  | c :: s, delimiters =>
    match closerOf c with
    | some k => bracketRun s (k :: delimiters)
    | none =>
      if isCloser c then
        match delimiters with
        | [] => ParenthesisOutcome.backOfEmpty
        | d :: rest =>
          if c != d then ParenthesisOutcome.returns "Mismatched parenthesis"
          else bracketRun s rest
      else bracketRun s delimiters

/-- The text `s` closes the pending opening brackets whose closing brackets are
`pending` (the most recently opened first), and nothing else is left open: `s` is a
properly nested text, the first closing bracket, a properly nested text, the next
closing bracket, and so on, and ends with a properly nested text. -/
def ClosesPending : List Char → List Char → Prop
  | [], s => Balanced s
  | k :: pending, s => ∃ b t, Balanced b ∧ s = b ++ k :: t ∧ ClosesPending pending t

/-! ## `wxMaxima::StripComments` -/

/-- The regular expressions that `m_blankStatementRegEx` and `m_args` are built from: a
character, a bracket expression `[^c]`, the dot, the class `[[:space:]]`, the anchor `^`,
sequence, alternative, and the operators `?`, `*` and `+`. -/
inductive RegEx where
  | chr (c : Char)
  | notChr (c : Char)
  | any
  | space
  | bol
  | seq (r s : RegEx)
  | alt (r s : RegEx)
  | opt (r : RegEx)
  | star (r : RegEx)
  | plus (r : RegEx)
deriving Repr

/-- The characters of the class `[[:space:]]` in the C locale. -/
def isSpaceChar (c : Char) : Bool :=
  c == ' ' || c == '\t' || c == '\n' || c == '\x0b' || c == '\x0c' || c == '\r'

/-- The positions of `xs` followed by those of `ys` that are not in `xs`. -/
def posUnion (xs ys : List Nat) : List Nat :=
  xs ++ ys.filter (fun y => !xs.contains y)

/-- The positions reached from `acc` by at most `fuel` rounds of `f`; the rounds end
when one of them adds no position. -/
def posClosure (f : List Nat → List Nat) : Nat → List Nat → List Nat
  | 0, acc => acc
  | fuel + 1, acc =>
    if (posUnion acc (f acc)).length == acc.length then acc
    else posClosure f fuel (posUnion acc (f acc))

/-- The positions of `text` at which a match of the expression can end when it begins at
one of the positions `starts`.  With `notbol` the anchor `^` matches nowhere, without it
at position 0 only; the dot matches every character (the expression is compiled without
`wxRE_NEWLINE`).  A starred expression is iterated `text.length + 1` times, once for
every position there is. -/
def RegEx.ends (text : List Char) (notbol : Bool) : RegEx → List Nat → List Nat
  | RegEx.chr c, starts =>
    starts.filterMap (fun p => if text[p]? == some c then some (p + 1) else none)
  | RegEx.notChr c, starts =>
    starts.filterMap (fun p =>
      match text[p]? with
      | some d => if d != c then some (p + 1) else none
      | none => none)
  | RegEx.any, starts =>
    starts.filterMap (fun p => if (text[p]?).isSome then some (p + 1) else none)
  | RegEx.space, starts =>
    starts.filterMap (fun p =>
      match text[p]? with
      | some c => if isSpaceChar c then some (p + 1) else none
      | none => none)
  | RegEx.bol, starts => starts.filter (fun p => p == 0 && !notbol)
  | RegEx.seq r s, starts => RegEx.ends text notbol s (RegEx.ends text notbol r starts)
  | RegEx.alt r s, starts =>
    posUnion (RegEx.ends text notbol r starts) (RegEx.ends text notbol s starts)
  | RegEx.opt r, starts => posUnion starts (RegEx.ends text notbol r starts)
  | RegEx.star r, starts => posClosure (RegEx.ends text notbol r) (text.length + 1) starts
  | RegEx.plus r, starts =>
    posClosure (RegEx.ends text notbol r) (text.length + 1) (RegEx.ends text notbol r starts)

/-- The end of the longest match of the expression that begins at `start`. -/
def RegEx.matchAt (r : RegEx) (text : List Char) (notbol : Bool) (start : Nat) : Option Nat :=
  match RegEx.ends text notbol r [start] with
  | [] => none
  | p :: ps => some (ps.foldl max p)

/-- The search for the first position from `start` on at which the expression matches,
with the length of the longest match there. -/
def RegEx.searchFrom (r : RegEx) (text : List Char) (notbol : Bool) :
    Nat → Nat → Option (Nat × Nat)
  | 0, _ => none
  | fuel + 1, start =>
    match RegEx.matchAt r text notbol start with
    | some e => some (start, e - start)
    | none => RegEx.searchFrom r text notbol fuel (start + 1)

/-- The methods `wxRegEx::Matches` and `GetMatch(&start, &len)` of the wxWidgets library
for an extended expression: the leftmost match, and the longest one that begins there,
as `(start, len)`. -/
def wxRegEx.Matches (r : RegEx) (text : List Char) (notbol : Bool) : Option (Nat × Nat) :=
  RegEx.searchFrom r text notbol (text.length + 1) 0

/-- The loop of `wxRegEx::Replace` of the wxWidgets library: the expression is searched
in the text from `matchStart` on, with `wxRE_NOTBOL` once a replacement has been made;
the text before the match and the replacement are appended to `result`, and the search
goes on behind the match.  The replacement `textNew` is given as a function of the
matched text, the constant function for a replacement without back references.  The
value is `none` when the rounds of `fuel` are used up. -/
def wxRegEx.Replace_loop (r : RegEx) (text : List Char) (textNew : List Char → List Char) :
    Nat → Nat → List Char → Nat → Option (List Char × Nat)
  | 0, _, _, _ => none
  | fuel + 1, matchStart, result, countRepl =>
    match wxRegEx.Matches r (text.drop matchStart) (countRepl != 0) with
    | none => some (result ++ text.drop matchStart, countRepl)
    | some (start, len) =>
      wxRegEx.Replace_loop r text textNew fuel (matchStart + start + len)
        (result ++ ((text.drop matchStart).take start ++
          textNew (((text.drop matchStart).drop start).take len))) (countRepl + 1)

/-- The method `wxRegEx::Replace(&text, replacement)`, which `ReplaceAll` is another
name of: the new text and the number of replacements.  A match of length 0 does not move
`matchStart`, so the loop of the library does not end for an expression that matches the
empty text; the fuel is one round for every character and two more. -/
def wxRegEx.Replace (r : RegEx) (text : String) (textNew : List Char → List Char) :
    Option (String × Nat) :=
  (wxRegEx.Replace_loop r text.data textNew (text.length + 2) 0 [] 0).map
    (fun p => (String.mk p.1, p.2))

/-- The expression of a comment, `\/\*.*\*\/`. -/
def commentRegEx : RegEx :=
  RegEx.seq (RegEx.chr '/') (RegEx.seq (RegEx.chr '*')
    (RegEx.seq (RegEx.star RegEx.any) (RegEx.seq (RegEx.chr '*') (RegEx.chr '/'))))

/-- The member `m_blankStatementRegEx` as the constructor of `wxMaxima` compiles it:
`(^;)|((^|;)(((\/\*.*\*\/)?([[:space:]]*))+;)+)`. -/
def m_blankStatementRegEx : RegEx :=
  RegEx.alt (RegEx.seq RegEx.bol (RegEx.chr ';'))
    (RegEx.seq (RegEx.alt RegEx.bol (RegEx.chr ';'))
      (RegEx.plus (RegEx.seq
        (RegEx.plus (RegEx.seq (RegEx.opt commentRegEx) (RegEx.star RegEx.space)))
        (RegEx.chr ';'))))

/-- The method `wxMaxima::StripComments`: the command string after
`m_blankStatementRegEx.Replace(&s, ";")`. -/
def wxMaxima.StripComments (s : String) : Option String :=
  (wxRegEx.Replace m_blankStatementRegEx s (fun _ => [';'])).map (fun p => p.1)

/-! ## `AutoComplete::AddSymbol_nowait` -/

/-- The method `wxString::Freq(ch)`: the number of occurrences of the character. -/
def wxString.Freq (s : String) (ch : Char) : Nat := s.data.count ch

/-- The characters `s` with every occurrence of the non-empty `strOld` replaced by
`strNew`, from left to right and without a second look at replaced text; `skip` is the
number of characters of a found occurrence that are still to be passed over. -/
def charsReplace (strOld strNew : List Char) : List Char → Nat → List Char
  | [], _ => []
  | _ :: s, skip + 1 => charsReplace strOld strNew s skip
  | c :: s, 0 =>
    if charsStartWith (c :: s) strOld then
      strNew ++ charsReplace strOld strNew s (strOld.length - 1)
    else c :: charsReplace strOld strNew s 0

/-- The method `wxString::Replace(strOld, strNew)` with `bReplaceAll` at its default
`true`. -/
def wxString.Replace (s strOld strNew : String) : String :=
  ⟨charsReplace strOld.data strNew.data s.data 0⟩

/-- The static member `AutoComplete::m_args`, the expression `[[]<([^>]*)>[]]`: an
opening square bracket, `<`, characters other than `>`, `>` and a closing square
bracket. -/
def AutoComplete.m_args : RegEx :=
  RegEx.seq (RegEx.chr '[') (RegEx.seq (RegEx.chr '<')
    (RegEx.seq (RegEx.star (RegEx.notChr '>')) (RegEx.seq (RegEx.chr '>') (RegEx.chr ']'))))

/-- The replacement `<[\1]>` for a match of `m_args`: the group `\1` is the matched text
without its first two and its last two characters. -/
def AutoComplete.m_args_textNew (matched : List Char) : List Char :=
  ['<', '['] ++ ((matched.drop 2).take (matched.length - 4) ++ [']', '>'])

/-- The method `AutoComplete::FixTemplate`. -/
def AutoComplete.FixTemplate (templ : String) : String :=
  let templ := wxString.Replace templ " " ""
  let templ := wxString.Replace templ ",..." ""
  match wxRegEx.Replace AutoComplete.m_args templ AutoComplete.m_args_textNew with
  | some p => p.1
  | none => templ

/-- The first statement of `AddSymbol_nowait`: the text and the type after the check
for the marks `FUNCTION: `, `TEMPLATE: ` and `UNIT: `. -/
def AutoComplete.AddSymbol_kind (fun_ : String) (type : autoCompletionType) :
    String × autoCompletionType :=
  if wxString.StartsWith fun_ "FUNCTION: " then
    (wxString.Mid fun_ 10 wxString.npos, autoCompletionType.command)
  else if wxString.StartsWith fun_ "TEMPLATE: " then
    (wxString.Mid fun_ 10 wxString.npos, autoCompletionType.tmplte)
  else if wxString.StartsWith fun_ "UNIT: " then
    (wxString.Mid fun_ 6 wxString.npos, autoCompletionType.unit)
  else (fun_, type)

/-- The word lists after `m_wordList[type].Add(word)`. -/
def AutoComplete.Add (A : AutoComplete) (type : autoCompletionType) (word : String) :
    AutoComplete :=
  { A with m_wordList := fun t => if t = type then A.m_wordList t ++ [word]
                                   else A.m_wordList t }

/-- The test in the loop of `AddSymbol_nowait` for an entry `t` of the template list:
`t.StartsWith(funName) && (t.Freq('<') == count)` with
`funName = fun.SubString(0, fun.Find("("))` and `count = fun.Freq('<')`. -/
def AutoComplete.sameTemplate (fun_ t : String) : Bool :=
  wxString.StartsWith t (wxString.SubString fun_ 0 (wxString.Find fun_ '(')) &&
    wxString.Freq t '<' == wxString.Freq fun_ '<'

/-- The method `AutoComplete::AddSymbol_nowait`. -/
def AutoComplete.AddSymbol_nowait (A : AutoComplete) (fun_ : String)
    (type : autoCompletionType) : AutoComplete :=
  let k := AutoComplete.AddSymbol_kind fun_ type
  let A :=
    if k.2 ≠ autoCompletionType.tmplte ∧ ¬ (A.m_wordList k.2).contains k.1 then
      AutoComplete.Add A k.2 k.1
    else A
  if k.2 = autoCompletionType.tmplte then
    let fun_ := AutoComplete.FixTemplate k.1
    let i := (A.m_wordList autoCompletionType.tmplte).findIdx
      (AutoComplete.sameTemplate fun_)
    if i = (A.m_wordList autoCompletionType.tmplte).length then
      AutoComplete.Add A autoCompletionType.tmplte fun_
    else A
  else A

/-- The method `AutoComplete::AddSymbol`, which calls `AddSymbol_nowait`. -/
def AutoComplete.AddSymbol (A : AutoComplete) (fun_ : String) (type : autoCompletionType) :
    AutoComplete :=
  AutoComplete.AddSymbol_nowait A fun_ type

/-- A sequence of calls of `AddSymbol_nowait`, one after the other. -/
def AutoComplete.AddSymbols (A : AutoComplete)
    (calls : List (String × autoCompletionType)) : AutoComplete :=
  calls.foldl (fun A c => AutoComplete.AddSymbol_nowait A c.1 c.2) A

/-- The function name of a template: the text before the first `(`, the whole text when
there is none. -/
def templateName (t : String) : String := ⟨t.data.takeWhile (fun c => c != '(')⟩

/-- An `AutoComplete` object with empty word lists. -/
def AutoComplete.blank : AutoComplete :=
  { m_wordList := fun _ => [], m_worksheetWords := [] }

/-- Three calls of `AddSymbol_nowait` from empty word lists on: the template `foo(<y>)`
is not added after `foo(<x>)`. -/
def demoTemplateCalls : List (String × autoCompletionType) :=
  [("TEMPLATE: foo(<x>)", autoCompletionType.command),
   ("foo(<y>)", autoCompletionType.tmplte),
   ("foo(<x>, <y>)", autoCompletionType.tmplte)]

/-! ## `wxMaxima::CreateTreeFromWXMCode` -/

/-- The group cell types that `CreateTreeFromWXMCode` passes to the constructor of
`GroupCell`. -/
inductive GroupType where
  | GC_TYPE_CODE
  | GC_TYPE_TITLE
  | GC_TYPE_SECTION
  | GC_TYPE_SUBSECTION
  | GC_TYPE_SUBSUBSECTION
  | GC_TYPE_TEXT
  | GC_TYPE_PAGEBREAK
deriving DecidableEq, Repr

/-- What `CreateTreeFromWXMCode` does with a group cell: the type and the text it gives
to the constructor (the empty text for `new GroupCell(GC_TYPE_PAGEBREAK)`), whether it
has called `Hide(true)`, and the tree it has handed to `HideTree`, the empty chain when
there was no such call or the tree was `NULL`. -/
inductive GroupCell where
  | mk (m_type : GroupType) (text : String) (m_hide : Bool) (hiddenTree : List GroupCell)
deriving Repr

/-- The cell after `HideTree(tree)`. -/
def GroupCell.HideTree : GroupCell → List GroupCell → GroupCell
  | GroupCell.mk type text hide _, tree => GroupCell.mk type text hide tree

/-- The ways in which `CreateTreeFromWXMCode` leaves the defined behaviour: `Item(0)` on
an empty array, `RemoveAt(0)` on an empty array (the library asserts the index),
`last->HideTree` while `last` is `NULL`; and the end of the fuel of the model. -/
inductive WXMFault where
  | itemOfEmpty
  | removeAtOfEmpty
  | nullLast
  | outOfFuel
deriving DecidableEq, Repr

/-- The start markers of the blocks with a text, in the order of the tests of
`CreateTreeFromWXMCode`, each with the cell type and the end marker of its branch. -/
def blockStart (line : String) : Option (GroupType × String) :=
  if line == "/* [wxMaxima: title   start ]" then
    some (GroupType.GC_TYPE_TITLE, "   [wxMaxima: title   end   ] */")
  else if line == "/* [wxMaxima: section start ]" then
    some (GroupType.GC_TYPE_SECTION, "   [wxMaxima: section end   ] */")
  else if line == "/* [wxMaxima: subsect start ]" then
    some (GroupType.GC_TYPE_SUBSECTION, "   [wxMaxima: subsect end   ] */")
  else if line == "/* [wxMaxima: subsubsect start ]" then
    some (GroupType.GC_TYPE_SUBSUBSECTION, "   [wxMaxima: subsubsect end   ] */")
  else if line == "/* [wxMaxima: comment start ]" then
    some (GroupType.GC_TYPE_TEXT, "   [wxMaxima: comment end   ] */")
  else if line == "/* [wxMaxima: input   start ] */" then
    some (GroupType.GC_TYPE_CODE, "/* [wxMaxima: input   end   ] */")
  else none

/-- The inner loop of a block branch, `while (wxmLines->Item(0) != end) { ... }`: the
text `line` and the lines that are left, the first of which is the end marker.  On an
empty array `Item(0)` has nothing to return. -/
def CreateTreeFromWXMCode_block (endMarker : String) :
    List String → String → Except WXMFault (String × List String)
  | [], _ => Except.error WXMFault.itemOfEmpty
  | item :: wxmLines, line =>
    if item != endMarker then
      CreateTreeFromWXMCode_block endMarker wxmLines
        (if line.length == 0 then item else line ++ ("\n" ++ item))
    else Except.ok (line, item :: wxmLines)

/-- The call `wxmLines->RemoveAt(0)`. -/
def wxArrayString.RemoveAt0 : List String → Except WXMFault (List String)
  | [] => Except.error WXMFault.removeAtOfEmpty
  | _ :: wxmLines => Except.ok wxmLines

/-- The loop of `CreateTreeFromWXMCode` with the variables `wxmLines`, `hide` and the
chain from `tree` to `last`; the value is the returned chain and the lines that are left
in the array.  The recursive call for a fold starts with `hide = false` and no chain. -/
def CreateTreeFromWXMCode_loop :
    Nat → List String → Bool → List GroupCell → Except WXMFault (List GroupCell × List String)
  | 0, _, _, _ => Except.error WXMFault.outOfFuel
  | _ + 1, [], _, tree => Except.ok (tree, [])
  | fuel + 1, item :: wxmLines, hide, tree =>
    if item == "/* [wxMaxima: hide output   ] */" then
      CreateTreeFromWXMCode_loop fuel wxmLines true tree
    else
      match blockStart item with
      | some (type, endMarker) =>
        match CreateTreeFromWXMCode_block endMarker wxmLines "" with
        | Except.error e => Except.error e
        | Except.ok (line, wxmLines) =>
          match wxArrayString.RemoveAt0 wxmLines with
          | Except.error e => Except.error e
          | Except.ok wxmLines =>
            CreateTreeFromWXMCode_loop fuel wxmLines false
              (tree ++ [GroupCell.mk type line hide []])
      | none =>
        if item == "/* [wxMaxima: page break    ] */" then
          match wxArrayString.RemoveAt0 wxmLines with
          | Except.error e => Except.error e
          | Except.ok wxmLines =>
            CreateTreeFromWXMCode_loop fuel wxmLines hide
              (tree ++ [GroupCell.mk GroupType.GC_TYPE_PAGEBREAK "" false []])
        else if item == "/* [wxMaxima: fold    start ] */" then
          match CreateTreeFromWXMCode_loop fuel wxmLines false [] with
          | Except.error e => Except.error e
          | Except.ok (folded, wxmLines) =>
            match tree.getLast? with
            | none => Except.error WXMFault.nullLast
            | some last =>
              match wxArrayString.RemoveAt0 wxmLines with
              | Except.error e => Except.error e
              | Except.ok wxmLines =>
                CreateTreeFromWXMCode_loop fuel wxmLines hide
                  (tree.dropLast ++ [GroupCell.HideTree last folded])
        else if item == "/* [wxMaxima: fold    end   ] */" then
          Except.ok (tree, wxmLines)
        else CreateTreeFromWXMCode_loop fuel wxmLines hide tree

/-- The method `wxMaxima::CreateTreeFromWXMCode`: the returned chain of group cells and
the lines that are left in `wxmLines`.  Every round of the loop removes a line, so one
round of fuel for every line and one more are enough. -/
def wxMaxima.CreateTreeFromWXMCode (wxmLines : List String) :
    Except WXMFault (List GroupCell × List String) :=
  CreateTreeFromWXMCode_loop (wxmLines.length + 1) wxmLines false []

/-- The text of the content lines, joined by newline characters. -/
def joinLines : List String → String
  | [] => ""
  | [l] => l
  | l :: ls => l ++ ("\n" ++ joinLines ls)

/-- A block of a `.wxm` file: a block with a text, made of an optional hide marker, the
start marker, the content lines and the end marker; or a page break marker. -/
inductive WXMBlock where
  | text (hide : Bool) (type : GroupType) (start endMarker : String) (content : List String)
  | pageBreak
deriving Repr

/-- The lines of a block. -/
def WXMBlock.lines : WXMBlock → List String
  | WXMBlock.text hide _ start endMarker content =>
    (if hide then ["/* [wxMaxima: hide output   ] */"] else []) ++
      start :: (content ++ [endMarker])
  | WXMBlock.pageBreak => ["/* [wxMaxima: page break    ] */"]

/-- The group cell that stands for a block: the type of the block, the content lines
joined by newline characters, hidden when the block has a hide marker. -/
def WXMBlock.cell : WXMBlock → GroupCell
  | WXMBlock.text hide type _ _ content => GroupCell.mk type (joinLines content) hide []
  | WXMBlock.pageBreak => GroupCell.mk GroupType.GC_TYPE_PAGEBREAK "" false []

/-- Whether a line is none of the markers that `CreateTreeFromWXMCode` tests for: such a
line is removed by the `RemoveAt(0)` at the end of the round. -/
def isSeparatorLine (line : String) : Bool :=
  line != "/* [wxMaxima: hide output   ] */" && (blockStart line).isNone &&
    line != "/* [wxMaxima: page break    ] */" &&
    line != "/* [wxMaxima: fold    start ] */" &&
    line != "/* [wxMaxima: fold    end   ] */"

/-- A block with the separator lines behind it that `CreateTreeFromWXMCode` reads as one
cell: the markers of a text block belong together, the end marker is not a content line
and the first content line is not empty; a page break has a separator line behind
it. -/
def WXMBlock.readable : WXMBlock × List String → Prop
  | (WXMBlock.text _ type start endMarker content, separators) =>
    blockStart start = some (type, endMarker) ∧ endMarker ∉ content ∧
      content.head? ≠ some "" ∧ ∀ l ∈ separators, isSeparatorLine l = true
  | (WXMBlock.pageBreak, separators) =>
    separators ≠ [] ∧ ∀ l ∈ separators.tail, isSeparatorLine l = true

/-- The lines of a list of blocks, each with its separator lines behind it. -/
def WXMBlock.fileLines : List (WXMBlock × List String) → List String
  | [] => []
  | (block, separators) :: blocks =>
    WXMBlock.lines block ++ (separators ++ WXMBlock.fileLines blocks)

/-- A file of four blocks: a title, a hidden input block of two lines, a page break
and a comment, with separator lines behind the first three. -/
def demoWXMBlocks : List (WXMBlock × List String) :=
  [(WXMBlock.text false GroupType.GC_TYPE_TITLE "/* [wxMaxima: title   start ]"
      "   [wxMaxima: title   end   ] */" ["Title"], [""]),
   (WXMBlock.text true GroupType.GC_TYPE_CODE "/* [wxMaxima: input   start ] */"
      "/* [wxMaxima: input   end   ] */" ["x:1;", "y:2;"], ["", ""]),
   (WXMBlock.pageBreak, [""]),
   (WXMBlock.text false GroupType.GC_TYPE_TEXT "/* [wxMaxima: comment start ]"
      "   [wxMaxima: comment end   ] */" ["a", "", "b"], [])]

/-- The content of a cell that the exports read: everything but the draw-order link, the
cached geometry, the line-start mark and the caches of the base class.  The flag
`m_isBrokenIntoLines` belongs to it: a cell that is broken into lines exports the empty
string. -/
def Cell.content (c : Cell) : Cell :=
  { c with m_nextToDraw := none, m_width := 0, m_height := 0, m_center := 0,
           m_breakLine := false, base := [] }

/-- The content of the cells of a heap. -/
def Heap.content (H : Heap) : Heap := H.map Cell.content

/-- The lists that an `AbsCell` owns: its inner list, its open cell and its close
cell. -/
def AbsCell.lists (c : Cell) : List Nat :=
  c.m_innerCell.toList ++ c.m_open.toList ++ c.m_close.toList

/-- Modelled from the spec: the list passes `Cell::RecalculateWidthsList` and
`Cell::RecalculateHeightList` and the measures `GetFullWidth`, `GetMaxHeight` and
`GetMaxCenter` (`Cell.cpp` is not among the sources) on the lists `owned` that the cell
`p` owns, in the trees with the content of `H`.  The passes compute sizes: they leave
the content of the tree as it is.  Ownership is tree-shaped: a pass over an owned
list does not write the cell `p`, and the measures of an owned list do not read it. -/
def CellEnv.ListPassesAreLocal (E : CellEnv) (H : Heap) (p : Nat) (owned : List Nat) : Prop :=
  ∀ (fontsize : Int) (K : Heap) (q : Nat), K.content = H.content → q ∈ owned →
    (E.RecalculateWidthsList fontsize K q).content = H.content ∧
    (E.RecalculateHeightList fontsize K q).content = H.content ∧
    (E.RecalculateWidthsList fontsize K q)[p]? = K[p]? ∧
    (E.RecalculateHeightList fontsize K q)[p]? = K[p]? ∧
    ∀ x : Cell, E.GetFullWidth (K.set p x) q = E.GetFullWidth K q ∧
      E.GetMaxHeight (K.set p x) q = E.GetMaxHeight K q ∧
      E.GetMaxCenter (K.set p x) q = E.GetMaxCenter K q

/-- Modelled from the spec: sizes are computed bottom-up from the content.  What
`GetFullWidth` measures for an owned list after `RecalculateWidthsList`, and what
`GetMaxHeight` and `GetMaxCenter` measure after `RecalculateHeightList`, is the same for
all trees with the content of `H`: it does not depend on the sizes that were cached
before the pass. -/
def CellEnv.MeasuresFollowContent (E : CellEnv) (H : Heap) (owned : List Nat) : Prop :=
  ∀ (fontsize : Int) (K K' : Heap) (q : Nat), K.content = H.content →
    K'.content = H.content → q ∈ owned →
    E.GetFullWidth (E.RecalculateWidthsList fontsize K q) q =
        E.GetFullWidth (E.RecalculateWidthsList fontsize K' q) q ∧
    E.GetMaxHeight (E.RecalculateHeightList fontsize K q) q =
        E.GetMaxHeight (E.RecalculateHeightList fontsize K' q) q ∧
    E.GetMaxCenter (E.RecalculateHeightList fontsize K q) q =
        E.GetMaxCenter (E.RecalculateHeightList fontsize K' q) q

/-- A widths pass that is forced, over the logical chain from a cell: every cell gets
the width of its text, `fontsize` for every character (a stand-in for the text extent
that the drawing context gives). -/
def demoRecalculateWidthsList (fontsize : Int) : Nat → Heap → Option Nat → Heap
  | 0, H, _ => H
  | _ + 1, H, none => H
  | fuel + 1, H, some q =>
    match H[q]? with
    | none => H
    | some c =>
      demoRecalculateWidthsList fontsize fuel
        (H.set q { c with m_width := fontsize * c.m_text.length }) c.m_next

/-- A heights pass that is forced, over the logical chain from a cell: every cell gets
the height `fontsize` and the center `fontsize / 2`. -/
def demoRecalculateHeightList (fontsize : Int) : Nat → Heap → Option Nat → Heap
  | 0, H, _ => H
  | _ + 1, H, none => H
  | fuel + 1, H, some q =>
    match H[q]? with
    | none => H
    | some c =>
      demoRecalculateHeightList fontsize fuel
        (H.set q { c with m_height := fontsize, m_center := fontsize / 2 }) c.m_next

/-- The sum of the widths along the logical chain from a cell. -/
def demoGetFullWidth (H : Heap) : Nat → Option Nat → Int
  | 0, _ => 0
  | _ + 1, none => 0
  | fuel + 1, some q =>
    match H[q]? with
    | none => 0
    | some c => c.m_width + demoGetFullWidth H fuel c.m_next

/-- The largest of the values `f` of the cells along the logical chain from a cell. -/
def demoGetMax (f : Cell → Int) (H : Heap) : Nat → Option Nat → Int
  | 0, _ => 0
  | _ + 1, none => 0
  | fuel + 1, some q =>
    match H[q]? with
    | none => 0
    | some c => max (f c) (demoGetMax f H fuel c.m_next)

/-- An environment in which the recalculation is forced, as it is while an `Emfout`
object exists (`SetForceUpdate(true)`): `NeedsRecalculation()` is true whatever the
cell is, the list passes set the sizes of the cells of a chain anew, and the measures
read the cells of a chain. -/
def demoForcedEnv : CellEnv :=
  { demoEnv with
    NeedsRecalculation := fun _ _ => true
    Cell_RecalculateWidths := fun fontsize _ => [fontsize]
    Cell_RecalculateHeight := fun fontsize b => fontsize :: b
    RecalculateWidthsList := fun fontsize H q =>
      demoRecalculateWidthsList fontsize (H.length + 1) H (some q)
    RecalculateHeightList := fun fontsize H q =>
      demoRecalculateHeightList fontsize (H.length + 1) H (some q)
    GetFullWidth := fun H q => demoGetFullWidth H (H.length + 1) (some q)
    GetMaxHeight := fun H q => demoGetMax Cell.m_height H (H.length + 1) (some q)
    GetMaxCenter := fun H q => demoGetMax Cell.m_center H (H.length + 1) (some q) }

/-- The heap `demoAbs` after one round of `RecalculateWidths` and `RecalculateHeight` at
font size 12 in `demoForcedEnv`. -/
def demoForcedRound : Heap :=
  (AbsCell.Recalculate demoForcedEnv 12 demoAbs 3).getD []

/-! ## Heap lemmas -/

theorem Heap.update_eq_some {H H1 : Heap} {q : Nat} {f : Cell → Cell}
    (h : H.update q f = some H1) : ∃ c, H[q]? = some c ∧ H1 = H.set q (f c) := by
  unfold Heap.update at h
  cases hq : H[q]? with
  | none => simp [hq] at h
  | some c => simp [hq] at h; exact ⟨c, rfl, h.symm⟩

theorem Heap.update_of_get {H : Heap} {q : Nat} {c : Cell} (f : Cell → Cell)
    (h : H[q]? = some c) : H.update q f = some (H.set q (f c)) := by
  simp [Heap.update, h]

theorem Heap.update_length {H H1 : Heap} {q : Nat} {f : Cell → Cell}
    (h : H.update q f = some H1) : H1.length = H.length := by
  obtain ⟨c, _, rfl⟩ := Heap.update_eq_some h
  simp

theorem Heap.get_update_self {H H1 : Heap} {q : Nat} {f : Cell → Cell}
    (h : H.update q f = some H1) : H1[q]? = (H[q]?).map f := by
  obtain ⟨c, hc, rfl⟩ := Heap.update_eq_some h
  have hlt : q < H.length := by
    rcases Nat.lt_or_ge q H.length with hlt | hge
    · exact hlt
    · rw [List.getElem?_eq_none hge] at hc; cases hc
  simp [hc, List.getElem?_set_self hlt]

theorem Heap.get_update_ne {H H1 : Heap} {q p : Nat} {f : Cell → Cell}
    (h : H.update q f = some H1) (hne : q ≠ p) : H1[p]? = H[p]? := by
  obtain ⟨c, _, rfl⟩ := Heap.update_eq_some h
  simp [List.getElem?_set_ne hne]

/-- A property of the cell at `p` that the written function keeps survives a write
through any pointer. -/
theorem Heap.update_keeps {H H1 : Heap} {q p : Nat} {f : Cell → Cell} (P : Cell → Prop)
    (h : H.update q f = some H1) (hf : ∀ x, P x → P (f x))
    (hp : ∃ c, H[p]? = some c ∧ P c) : ∃ c, H1[p]? = some c ∧ P c := by
  obtain ⟨c, hc, hP⟩ := hp
  by_cases hqp : q = p
  · subst hqp
    refine ⟨f c, ?_, hf c hP⟩
    rw [Heap.get_update_self h, hc]; rfl
  · exact ⟨c, by rw [Heap.get_update_ne h hqp, hc], hP⟩

/-! ## `AbsCell::BreakUp` -/

/-- What a successful `BreakUp` on an unbroken cell did, write by write. -/
theorem AbsCell.BreakUp_true_steps {E : CellEnv} {H H' : Heap} {p : Nat} {c : Cell} {r : Bool}
    (hp : H[p]? = some c) (hb : c.m_isBrokenIntoLines = false)
    (h : AbsCell.BreakUp E H p = some (r, H')) :
    r = true ∧ ∃ H1 o H2 H3 cl self H4 H5 H6 i H7,
      H.update p (fun x => { x with m_isBrokenIntoLines := true }) = some H1 ∧
      c.m_open = some o ∧
      H1.update o (fun x => { x with m_nextToDraw := c.m_innerCell }) = some H2 ∧
      AbsCell.BreakUp_linkLast c H2 = some H3 ∧
      c.m_close = some cl ∧
      H3[p]? = some self ∧
      H3.update cl (fun x => { x with m_nextToDraw := self.m_nextToDraw }) = some H4 ∧
      H4.update p (fun x => { x with m_nextToDraw := some o }) = some H5 ∧
      H5.update p (fun x => { x with base := E.ResetData x.base }) = some H6 ∧
      c.m_innerCell = some i ∧
      H6.update p (fun x => { x with
        m_height := max (E.GetMaxHeight H6 i) (E.GetMaxHeight H6 o) }) = some H7 ∧
      H7.update p (fun x => { x with
        m_center := max (E.GetMaxCenter H7 i) (E.GetMaxCenter H7 o) }) = some H' := by
  unfold AbsCell.BreakUp at h
  simp only [hp, hb, Bool.not_false, if_true, Option.bind_eq_some,
    Option.some.injEq, Prod.mk.injEq] at h
  obtain ⟨H1, h1, o, ho, H2, h2, H3, h3, cl, hcl, self, hself, H4, h4, H5, h5, H6, h6, i, hi,
    H7, h7, H8, h8, rfl, rfl⟩ := h
  exact ⟨rfl, H1, o, H2, H3, cl, self, H4, H5, H6, i, H7, h1, ho, h2, h3, hcl, hself, h4, h5,
    h6, hi, h7, h8⟩

/-- The write to the last inner cell keeps what the written function keeps. -/
theorem AbsCell.BreakUp_linkLast_keeps {c : Cell} {H H' : Heap} {p : Nat} (P : Cell → Prop)
    (hP : ∀ x v, P x → P { x with m_nextToDraw := v })
    (h : AbsCell.BreakUp_linkLast c H = some H')
    (hp : ∃ x, H[p]? = some x ∧ P x) : ∃ x, H'[p]? = some x ∧ P x := by
  unfold AbsCell.BreakUp_linkLast at h
  cases hl : c.m_last with
  | none => simp [hl] at h; subst h; exact hp
  | some l =>
    simp only [hl] at h
    exact Heap.update_keeps P h (fun x hx => hP x _ hx) hp

/-- Whatever `BreakUp` returns, the cell is broken afterwards. -/
theorem AbsCell.BreakUp_broken_after {E : CellEnv} {H H' : Heap} {p : Nat} {r : Bool}
    (h : AbsCell.BreakUp E H p = some (r, H')) :
    ∃ c', H'[p]? = some c' ∧ c'.m_isBrokenIntoLines = true := by
  cases hp : H[p]? with
  | none => simp [AbsCell.BreakUp, hp] at h
  | some c =>
    by_cases hb : c.m_isBrokenIntoLines = true
    · simp [AbsCell.BreakUp, hp, hb] at h
      obtain ⟨_, rfl⟩ := h
      exact ⟨c, hp, hb⟩
    · have hb' : c.m_isBrokenIntoLines = false := by simpa using hb
      obtain ⟨_, H1, o, H2, H3, cl, self, H4, H5, H6, i, H7, h1, _, h2, h3, _, _, h4, h5,
        h6, _, h7, h8⟩ := AbsCell.BreakUp_true_steps hp hb' h
      have e1 : ∃ x, H1[p]? = some x ∧ x.m_isBrokenIntoLines = true :=
        ⟨_, by rw [Heap.get_update_self h1, hp]; rfl, rfl⟩
      have e2 := Heap.update_keeps (fun x => x.m_isBrokenIntoLines = true) h2 (fun _ hx => hx) e1
      have e3 := AbsCell.BreakUp_linkLast_keeps (fun x => x.m_isBrokenIntoLines = true)
        (fun _ _ hx => hx) h3 e2
      have e4 := Heap.update_keeps (fun x => x.m_isBrokenIntoLines = true) h4 (fun _ hx => hx) e3
      have e5 := Heap.update_keeps (fun x => x.m_isBrokenIntoLines = true) h5 (fun _ hx => hx) e4
      have e6 := Heap.update_keeps (fun x => x.m_isBrokenIntoLines = true) h6 (fun _ hx => hx) e5
      have e7 := Heap.update_keeps (fun x => x.m_isBrokenIntoLines = true) h7 (fun _ hx => hx) e6
      exact Heap.update_keeps (fun x => x.m_isBrokenIntoLines = true) h8 (fun _ hx => hx) e7

/-- On a broken cell `BreakUp` returns false and hands back the heap it was given. -/
theorem AbsCell.BreakUp_of_broken (E : CellEnv) {H : Heap} {p : Nat} {c : Cell}
    (hp : H[p]? = some c) (hb : c.m_isBrokenIntoLines = true) :
    AbsCell.BreakUp E H p = some (false, H) := by
  simp [AbsCell.BreakUp, hp, hb]

/-- A write through a live pointer succeeds. -/
theorem Heap.update_of_lt (H : Heap) {q : Nat} (f : Cell → Cell) (h : q < H.length) :
    ∃ H1, H.update q f = some H1 := by
  have : H[q]? = some H[q] := List.getElem?_eq_getElem h
  exact ⟨_, Heap.update_of_get f this⟩

/-- On an unbroken well-formed `AbsCell` with an inner list `BreakUp` returns true. -/
theorem AbsCell.BreakUp_of_unbroken (E : CellEnv) {H : Heap} {p : Nat} {c : Cell}
    (hp : H[p]? = some c) (hwf : AbsCell.wellFormed H p = true)
    (hb : c.m_isBrokenIntoLines = false) (hi : c.m_innerCell ≠ none) :
    ∃ H', AbsCell.BreakUp E H p = some (true, H') := by
  simp only [AbsCell.wellFormed, hp, Bool.and_eq_true, Option.isSome_iff_exists] at hwf
  obtain ⟨⟨⟨⟨⟨⟨_, ⟨o, ho⟩⟩, ⟨cl, hcl⟩⟩, hol⟩, hcll⟩, _⟩, hll⟩ := hwf
  obtain ⟨i, hi'⟩ := Option.ne_none_iff_exists'.mp hi
  simp only [ho, hcl, Heap.live, decide_eq_true_eq] at hol hcll
  have hpl : p < H.length := by
    rcases Nat.lt_or_ge p H.length with h | h
    · exact h
    · rw [List.getElem?_eq_none h] at hp; cases hp
  obtain ⟨H1, h1⟩ := Heap.update_of_lt H (fun x => { x with m_isBrokenIntoLines := true }) hpl
  have l1 := Heap.update_length h1
  obtain ⟨H2, h2⟩ := Heap.update_of_lt H1 (fun x => { x with m_nextToDraw := some i })
    (l1 ▸ hol)
  have l2 := Heap.update_length h2
  have h3 : ∃ H3, AbsCell.BreakUp_linkLast c H2 = some H3 ∧ H3.length = H.length := by
    unfold AbsCell.BreakUp_linkLast
    cases hl : c.m_last with
    | none => exact ⟨H2, rfl, by omega⟩
    | some l =>
      simp only [hl, Heap.live, decide_eq_true_eq] at hll
      obtain ⟨H3, h3⟩ := Heap.update_of_lt H2 (fun x => { x with m_nextToDraw := c.m_close })
        (show l < H2.length by omega)
      exact ⟨H3, h3, by have := Heap.update_length h3; omega⟩
  obtain ⟨H3, h3, l3⟩ := h3
  have hs : H3[p]? = some H3[p] := List.getElem?_eq_getElem (by omega)
  obtain ⟨H4, h4⟩ := Heap.update_of_lt H3
    (fun x => { x with m_nextToDraw := (H3[p]).m_nextToDraw }) (show cl < H3.length by omega)
  have l4 := Heap.update_length h4
  obtain ⟨H5, h5⟩ := Heap.update_of_lt H4 (fun x => { x with m_nextToDraw := some o })
    (show p < H4.length by omega)
  have l5 := Heap.update_length h5
  obtain ⟨H6, h6⟩ := Heap.update_of_lt H5 (fun x => { x with base := E.ResetData x.base })
    (show p < H5.length by omega)
  have l6 := Heap.update_length h6
  obtain ⟨H7, h7⟩ := Heap.update_of_lt H6 (fun x => { x with
    m_height := max (E.GetMaxHeight H6 i) (E.GetMaxHeight H6 o) })
    (show p < H6.length by omega)
  have l7 := Heap.update_length h7
  obtain ⟨H8, h8⟩ := Heap.update_of_lt H7 (fun x => { x with
    m_center := max (E.GetMaxCenter H7 i) (E.GetMaxCenter H7 o) })
    (show p < H7.length by omega)
  refine ⟨H8, ?_⟩
  simp [AbsCell.BreakUp, hp, hb, h1, ho, h2, h3, hcl, hs, h4, h5, h6, hi', h7, h8]

/-- C1, as the code has it.  `AbsCell::BreakUp` is idempotent: on a well-formed
cell that is not broken into lines and has an inner list it returns true and the cell
is broken into lines afterwards; on a cell that is already broken it returns false and
hands back the heap as it was, so no field of any cell changes; and for every cell,
`BreakUp` followed by `BreakUp` leaves the same state as a single `BreakUp`. -/
theorem AbsCell.BreakUp_idempotent (E : CellEnv) (H : Heap) (p : Nat) :
    (∀ c, H[p]? = some c → AbsCell.wellFormed H p = true →
      c.m_isBrokenIntoLines = false → c.m_innerCell ≠ none →
      ∃ H' c', AbsCell.BreakUp E H p = some (true, H') ∧
        H'[p]? = some c' ∧ c'.m_isBrokenIntoLines = true) ∧
    (∀ c, H[p]? = some c → c.m_isBrokenIntoLines = true →
      AbsCell.BreakUp E H p = some (false, H)) ∧
    ((AbsCell.BreakUp E H p).bind (fun r => AbsCell.BreakUp E r.2 p)).map Prod.snd =
      (AbsCell.BreakUp E H p).map Prod.snd := by
  refine ⟨?_, ?_, ?_⟩
  · intro c hp hwf hb hi
    obtain ⟨H', h⟩ := AbsCell.BreakUp_of_unbroken E hp hwf hb hi
    obtain ⟨c', hc', hb'⟩ := AbsCell.BreakUp_broken_after h
    exact ⟨H', c', h, hc', hb'⟩
  · intro c hp hb
    exact AbsCell.BreakUp_of_broken E hp hb
  · cases h : AbsCell.BreakUp E H p with
    | none => rfl
    | some r =>
      obtain ⟨b, K⟩ := r
      obtain ⟨c', hc', hb'⟩ := AbsCell.BreakUp_broken_after h
      simp [AbsCell.BreakUp_of_broken E hc' hb']

/-- The theorem `AbsCell.BreakUp_idempotent` at the cell `abs(x)` of `demoAbs`. -/
theorem AbsCell.BreakUp_idempotent_witness :
    ∃ H' c', AbsCell.BreakUp demoEnv demoAbs 3 = some (true, H') ∧
      H'[3]? = some c' ∧ c'.m_isBrokenIntoLines = true :=
  (AbsCell.BreakUp_idempotent demoEnv demoAbs 3).1 _ rfl (by decide) rfl (by decide)

/-- C1, as stated, fails.  The `AbsCell` of `demoFresh` is freshly constructed: it
is well formed and not broken into lines, but `SetInner` was never called.  `BreakUp`
dereferences the null `m_innerCell` there and returns nothing, so it does not return
true. -/
theorem AbsCell.BreakUp_without_inner_fails :
    AbsCell.wellFormed demoFresh.1 3 = true ∧
      (demoFresh.1[3]?).map (fun c => c.m_isBrokenIntoLines) = some false ∧
      AbsCell.BreakUp demoEnv demoFresh.1 3 = none := by
  decide

/-! ## The draw order after `BreakUp` -/

theorem Heap.get_update {H H1 : Heap} {q : Nat} {f : Cell → Cell}
    (h : H.update q f = some H1) (q' : Nat) :
    H1[q']? = if q' = q then (H[q']?).map f else H[q']? := by
  by_cases e : q' = q
  · subst e; simp [Heap.get_update_self h]
  · simp [e, Heap.get_update_ne h (Ne.symm e)]

theorem Heap.nextToDraw_update {H H1 : Heap} {q : Nat} {f : Cell → Cell}
    (h : H.update q f = some H1) (q' : Nat) :
    H1.nextToDraw q' =
      if q' = q then (match H[q']? with
        | some c => (f c).m_nextToDraw
        | none => none)
      else H.nextToDraw q' := by
  unfold Heap.nextToDraw
  rw [Heap.get_update h q']
  by_cases e : q' = q
  · simp only [e, if_true]; cases H[q]? <;> rfl
  · simp [e]

theorem Heap.nextToDraw_update_keep {H H1 : Heap} {q : Nat} {f : Cell → Cell}
    (h : H.update q f = some H1) (hf : ∀ x, (f x).m_nextToDraw = x.m_nextToDraw) (q' : Nat) :
    H1.nextToDraw q' = H.nextToDraw q' := by
  rw [Heap.nextToDraw_update h q']
  by_cases e : q' = q
  · simp only [e, if_true, Heap.nextToDraw]; cases H[q]? <;> simp [hf]
  · simp [e]

theorem Heap.nextToDraw_update_set {H H1 : Heap} {q : Nat} {f : Cell → Cell} {v : Option Nat}
    (h : H.update q f = some H1) (hf : ∀ x, (f x).m_nextToDraw = v) (q' : Nat) :
    H1.nextToDraw q' = if q' = q then v else H.nextToDraw q' := by
  rw [Heap.nextToDraw_update h q']
  by_cases e : q' = q
  · obtain ⟨c, hc, _⟩ := Heap.update_eq_some h
    simp [e, hc, hf]
  · simp [e]

theorem Heap.next_update_keep {H H1 : Heap} {q : Nat} {f : Cell → Cell}
    (h : H.update q f = some H1) (hf : ∀ x, (f x).m_next = x.m_next) (q' : Nat) :
    H1.next q' = H.next q' := by
  unfold Heap.next
  rw [Heap.get_update h q']
  by_cases e : q' = q
  · simp only [e, if_true]; cases H[q]? <;> simp [hf]
  · simp [e]

theorem isLogicalChain_congr {H H1 : Heap} (hl : H1.length = H.length)
    (hn : ∀ q, H1.next q = H.next q) (s : Option Nat) (I : List Nat) :
    isLogicalChain H1 s I = isLogicalChain H s I := by
  induction I generalizing s with
  | nil => cases s <;> rfl
  | cons j rest ih =>
    cases s with
    | none => rfl
    | some q => simp only [isLogicalChain, hl, hn, ih]

theorem isLogicalChain_cons {H : Heap} {q j : Nat} {rest : List Nat}
    (h : isLogicalChain H (some q) (j :: rest) = true) :
    q = j ∧ q < H.length ∧ isLogicalChain H (H.next q) rest = true := by
  simpa [isLogicalChain, and_assoc] using h

theorem isLogicalChain_nil {H : Heap} {s : Option Nat}
    (h : isLogicalChain H s [] = true) : s = none := by
  cases s with
  | none => rfl
  | some q => simp [isLogicalChain] at h

theorem isLogicalChain_live {H : Heap} {s : Option Nat} {I : List Nat}
    (h : isLogicalChain H s I = true) : ∀ q ∈ I, q < H.length := by
  induction I generalizing s with
  | nil => intro q hq; cases hq
  | cons j rest ih =>
    cases s with
    | none => simp [isLogicalChain] at h
    | some q0 =>
      obtain ⟨rfl, hlt, hrest⟩ := isLogicalChain_cons h
      intro q hq
      rcases List.mem_cons.mp hq with rfl | hq
      · exact hlt
      · exact ih hrest q hq

/-- The loop of `SetInner` returns: with fuel for every cell of the chain it stops at
the last cell. -/
theorem AbsCell.SetInner_loop_last {H : Heap} {I : List Nat} {i fuel : Nat}
    (h : isLogicalChain H (some i) I = true) (hf : I.length ≤ fuel) :
    AbsCell.SetInner_loop H fuel i = I.getLast? := by
  induction I generalizing i fuel with
  | nil => simp [isLogicalChain] at h
  | cons j rest ih =>
    obtain ⟨rfl, hlt, hrest⟩ := isLogicalChain_cons h
    cases fuel with
    | zero => simp at hf
    | succ fuel =>
      have hget : H[i]? = some H[i] := List.getElem?_eq_getElem hlt
      have hnext : H.next i = (H[i]).m_next := by simp [Heap.next, hget]
      rw [hnext] at hrest
      cases rest with
      | nil =>
        have := isLogicalChain_nil hrest
        simp [AbsCell.SetInner_loop, hget, this]
      | cons j' rest' =>
        cases hn : (H[i]).m_next with
        | none => rw [hn] at hrest; simp [isLogicalChain] at hrest
        | some n =>
          rw [hn] at hrest
          have := ih hrest (by simpa using hf)
          simp [AbsCell.SetInner_loop, hget, hn, this, List.getLast?_cons_cons]

/-- Walking a logical chain whose draw links mirror the logical links, except that the
last cell is followed by `cl` in the draw order. -/
theorem drawWalk_chain {H0 H2 : Heap} {cl : Nat} (k : Nat) {I : List Nat} {i : Nat}
    (hchain : isLogicalChain H0 (some i) I = true) (hnd : I.Nodup)
    (hmid : ∀ q ∈ I, some q ≠ I.getLast? → H2.nextToDraw q = H0.next q)
    (hlast : ∀ q, I.getLast? = some q → H2.nextToDraw q = some cl) :
    drawWalk H2 (I.length + k) (some i) = I ++ drawWalk H2 k (some cl) := by
  induction I generalizing i with
  | nil => simp [isLogicalChain] at hchain
  | cons j rest ih =>
    obtain ⟨rfl, _, hrest⟩ := isLogicalChain_cons hchain
    cases rest with
    | nil =>
      have := hlast i rfl
      simp [drawWalk, Nat.add_comm 1 k, this]
    | cons j' rest' =>
      have hne : some i ≠ (i :: j' :: rest').getLast? := by
        rw [List.getLast?_cons_cons]
        intro e
        have hmem : i ∈ j' :: rest' := List.mem_of_getLast?_eq_some e.symm
        exact (List.nodup_cons.mp hnd).1 hmem
      have hi := hmid i (List.mem_cons_self _ _) hne
      cases hn : H0.next i with
      | none => rw [hn] at hrest; simp [isLogicalChain] at hrest
      | some n =>
        rw [hn] at hrest hi
        have ih' := ih (i := n) hrest (List.nodup_cons.mp hnd).2
          (fun q hq hql => hmid q (List.mem_cons_of_mem _ hq)
            (by rw [List.getLast?_cons_cons]; exact hql))
          (fun q hq => hlast q (by rw [List.getLast?_cons_cons]; exact hq))
        have hlen : (i :: j' :: rest').length + k = ((j' :: rest').length + k) + 1 := by
          simp only [List.length_cons]; omega
        rw [hlen, drawWalk, hi, ih']
        rfl

/-- The draw links after a successful `BreakUp` of an unbroken cell whose open cell,
close cell and last inner cell are distinct objects, different from the cell itself. -/
theorem AbsCell.BreakUp_nextToDraw {E : CellEnv} {H1 H2 : Heap} {p o cl i l : Nat} {c1 : Cell}
    {r : Bool} (hp : H1[p]? = some c1) (hb : c1.m_isBrokenIntoLines = false)
    (ho : c1.m_open = some o) (hcl : c1.m_close = some cl) (hi : c1.m_innerCell = some i)
    (hl : c1.m_last = some l) (hpo : p ≠ o) (hpl : p ≠ l)
    (h : AbsCell.BreakUp E H1 p = some (r, H2)) (q : Nat) :
    H2.nextToDraw q =
      if q = p then some o
      else if q = cl then c1.m_nextToDraw
      else if q = l then some cl
      else if q = o then some i
      else H1.nextToDraw q := by
  obtain ⟨_, Ha, o', Hb, Hc, cl', self, Hd, He, Hf, i', Hg, h1, ho', h2, h3, hcl', hs, h4, h5,
    h6, hi', h7, h8⟩ := AbsCell.BreakUp_true_steps hp hb h
  rw [ho] at ho'; rw [hcl] at hcl'; rw [hi] at hi'
  cases ho'; cases hcl'; cases hi'
  simp only [AbsCell.BreakUp_linkLast, hl] at h3
  have e1 : ∀ q, Ha.nextToDraw q = H1.nextToDraw q :=
    Heap.nextToDraw_update_keep h1 (fun _ => rfl)
  have e2 : ∀ q, Hb.nextToDraw q = if q = o then c1.m_innerCell else Ha.nextToDraw q :=
    Heap.nextToDraw_update_set h2 (fun _ => rfl)
  have e3 : ∀ q, Hc.nextToDraw q = if q = l then c1.m_close else Hb.nextToDraw q :=
    Heap.nextToDraw_update_set h3 (fun _ => rfl)
  have e4 : ∀ q, Hd.nextToDraw q = if q = cl then self.m_nextToDraw else Hc.nextToDraw q :=
    Heap.nextToDraw_update_set h4 (fun _ => rfl)
  have e5 : ∀ q, He.nextToDraw q = if q = p then some o else Hd.nextToDraw q :=
    Heap.nextToDraw_update_set h5 (fun _ => rfl)
  have e6 : ∀ q, Hf.nextToDraw q = He.nextToDraw q :=
    Heap.nextToDraw_update_keep h6 (fun _ => rfl)
  have e7 : ∀ q, Hg.nextToDraw q = Hf.nextToDraw q :=
    Heap.nextToDraw_update_keep h7 (fun _ => rfl)
  have e8 : ∀ q, H2.nextToDraw q = Hg.nextToDraw q :=
    Heap.nextToDraw_update_keep h8 (fun _ => rfl)
  have hself : self.m_nextToDraw = c1.m_nextToDraw := by
    have a : Hc.nextToDraw p = self.m_nextToDraw := by simp [Heap.nextToDraw, hs]
    have b : H1.nextToDraw p = c1.m_nextToDraw := by simp [Heap.nextToDraw, hp]
    rw [← a, e3, e2, e1, b]
    simp [hpl, hpo]
  rw [e8, e7, e6, e5, e4, e3, e2, e1, hself, hcl, hi]

/-- C2.  Take an unbroken well-formed `AbsCell` at `p` with open cell `o` and
close cell `cl`, and a logical chain `I` starting at `i` whose draw links mirror its
logical links; the cell, its open cell, its close cell and the cells of `I` are
distinct objects.  Then `SetInner(i)` returns (with fuel for the cells of `I`) and
leaves `m_innerCell = i` and `m_last` = the last cell of `I`; the following `BreakUp`
returns true; and afterwards the `m_nextToDraw` walk from the cell visits the cell,
the open cell, the cells of `I` in logical order, the close cell and then the former
`m_nextToDraw` of the cell, nothing else in between.  For a one-cell inner list the
three entries after the cell are open, inner, close. -/
theorem AbsCell.BreakUp_draw_order (E : CellEnv) (H : Heap) (p o cl i : Nat) (I : List Nat)
    (c : Cell) (fuel : Nat)
    (hp : H[p]? = some c) (hwf : AbsCell.wellFormed H p = true)
    (hb : c.m_isBrokenIntoLines = false)
    (ho : c.m_open = some o) (hcl : c.m_close = some cl)
    (hchain : isLogicalChain H (some i) I = true)
    (hmirror : drawMirrorsLogical H I = true)
    (hnd : (p :: o :: cl :: I).Nodup)
    (hfuel : I.length ≤ fuel) :
    ∃ H1 H2 c1, AbsCell.SetInner fuel H p (some i) = some H1 ∧
      H1[p]? = some c1 ∧ c1.m_innerCell = some i ∧ c1.m_last = I.getLast? ∧
      AbsCell.BreakUp E H1 p = some (true, H2) ∧
      drawWalk H2 (I.length + 4) (some p) = p :: o :: (I ++ cl :: c.m_nextToDraw.toList) ∧
      (I = [i] → drawWalk H2 3 (some o) = [o, i, cl]) := by
  -- the inner list is not empty and has a last cell
  obtain ⟨l, hl⟩ : ∃ l, I.getLast? = some l := by
    cases I with
    | nil => simp [isLogicalChain] at hchain
    | cons j rest => exact ⟨_, List.getLast?_eq_getLast _ (List.cons_ne_nil _ _)⟩
  have hlmem : l ∈ I := List.mem_of_getLast?_eq_some hl
  have hlive := isLogicalChain_live hchain
  have himem : i ∈ I := by
    cases I with
    | nil => cases hlmem
    | cons j rest => rw [(isLogicalChain_cons hchain).1]; exact List.mem_cons_self _ _
  -- distinctness
  have hnd' := hnd
  simp only [List.nodup_cons, List.mem_cons, not_or] at hnd'
  obtain ⟨⟨hpo, hpcl, hpI⟩, ⟨hocl, hoI⟩, hclI, hI⟩ := hnd'
  -- SetInner
  have hA := Heap.update_of_get (fun x => { x with m_innerCell := some i }) hp
  have hAp : (H.set p { c with m_innerCell := some i })[p]? = some { c with m_innerCell := some i } := by
    rw [Heap.get_update_self hA, hp]; rfl
  have hAchain : isLogicalChain (H.set p { c with m_innerCell := some i }) (some i) I = true := by
    rw [isLogicalChain_congr (Heap.update_length hA)
      (Heap.next_update_keep hA (fun _ => rfl))]
    exact hchain
  have hloop := AbsCell.SetInner_loop_last hAchain hfuel
  rw [hl] at hloop
  have hB := Heap.update_of_get (fun x => { x with m_last := some l }) hAp
  have hset : AbsCell.SetInner fuel H p (some i) =
      some ((H.set p { c with m_innerCell := some i }).set p
        { c with m_innerCell := some i, m_last := some l }) := by
    simp only [AbsCell.SetInner, hA, hloop]
    exact hB
  obtain ⟨H1, hH1⟩ : ∃ H1 : Heap, (H.set p { c with m_innerCell := some i }).set p
        { c with m_innerCell := some i, m_last := some l } = H1 := ⟨_, rfl⟩
  rw [hH1] at hB hset
  have hp1 : H1[p]? = some { c with m_innerCell := some i, m_last := some l } := by
    rw [Heap.get_update_self hB, hAp]; rfl
  have hlen1 : H1.length = H.length := by
    rw [Heap.update_length hB, Heap.update_length hA]
  have hntd1 : ∀ q, H1.nextToDraw q = H.nextToDraw q := fun q => by
    rw [Heap.nextToDraw_update_keep hB (fun _ => rfl),
      Heap.nextToDraw_update_keep hA (fun _ => rfl)]
  -- BreakUp
  have hwf1 : AbsCell.wellFormed H1 p = true := by
    simp only [AbsCell.wellFormed, hp, ho, hcl, Bool.and_eq_true, Heap.live,
      decide_eq_true_eq] at hwf
    simp only [AbsCell.wellFormed, hp1, ho, hcl, Bool.and_eq_true, Heap.live,
      decide_eq_true_eq, hlen1]
    exact ⟨⟨hwf.1.1, hlive i himem⟩, hlive l hlmem⟩
  obtain ⟨H2, hBU⟩ := AbsCell.BreakUp_of_unbroken E hp1 hwf1 hb (by simp)
  have hntd2 := AbsCell.BreakUp_nextToDraw (o := o) (i := i) (l := l)
    hp1 hb ho hcl rfl rfl hpo (fun e => hpI (e ▸ hlmem)) hBU
  -- the walk
  have hwalk : ∀ k, drawWalk H2 (I.length + k) (some i) = I ++ drawWalk H2 k (some cl) := by
    intro k
    refine drawWalk_chain k hchain hI ?_ ?_
    · intro q hq hql
      have h1 : q ≠ p := fun e => hpI (e ▸ hq)
      have h2 : q ≠ cl := fun e => hclI (e ▸ hq)
      have h3 : q ≠ o := fun e => hoI (e ▸ hq)
      have h4 : q ≠ l := fun e => hql (by rw [hl, e])
      rw [hntd2 q, hntd1 q]
      simp only [h1, h2, h3, h4, if_false]
      have := List.all_eq_true.mp hmirror q hq
      simpa using this
    · intro q hq
      rw [hl] at hq
      cases hq
      have h1 : l ≠ p := fun e => hpI (e ▸ hlmem)
      have h2 : l ≠ cl := fun e => hclI (e ▸ hlmem)
      rw [hntd2 l]
      simp [h1, h2]
  have hcl2 : H2.nextToDraw cl = c.m_nextToDraw := by
    rw [hntd2 cl]; simp [Ne.symm hpcl]
  have hp2 : H2.nextToDraw p = some o := by rw [hntd2 p]; simp
  have ho2 : H2.nextToDraw o = some i := by
    have h3 : o ≠ l := fun e => hoI (e ▸ hlmem)
    rw [hntd2 o]; simp [Ne.symm hpo, hocl, h3]
  have hone : ∀ x : Option Nat, drawWalk H2 1 x = x.toList := by
    intro x; cases x <;> simp [drawWalk]
  refine ⟨H1, H2, _, hset, hp1, rfl, hl.symm, hBU, ?_, ?_⟩
  · have e : I.length + 4 = (I.length + 2) + 1 + 1 := by omega
    rw [e, drawWalk, hp2, drawWalk, ho2, hwalk 2, drawWalk, hcl2, hone]
  · intro hI1
    have h1 := hwalk 1
    rw [hI1] at h1
    simp only [List.length_singleton] at h1
    rw [drawWalk, ho2, h1]
    simp [drawWalk]

/-- The theorem `AbsCell.BreakUp_draw_order` on the heap `demoTwo`: after `SetInner`
and `BreakUp` the draw order from the `AbsCell` 5 is open cell 3, inner cells 0 and 1,
close cell 4, and then the former successor 2.  And on the heap `demoFresh`, with the
one-cell inner list 0: the three entries after the `AbsCell` 3 are open cell 1, inner
cell 0, close cell 2. -/
theorem AbsCell.BreakUp_draw_order_witness :
    (∃ H1 H2, AbsCell.SetInner 2 demoTwo 5 (some 0) = some H1 ∧
      AbsCell.BreakUp demoEnv H1 5 = some (true, H2) ∧
      drawWalk H2 6 (some 5) = [5, 3, 0, 1, 4, 2]) ∧
    (∃ H1 H2, AbsCell.SetInner 1 demoFresh.1 3 (some 0) = some H1 ∧
      AbsCell.BreakUp demoEnv H1 3 = some (true, H2) ∧
      drawWalk H2 3 (some 1) = [1, 0, 2]) := by
  obtain ⟨H1, H2, _, h1, _, _, _, h5, h6, _⟩ :=
    AbsCell.BreakUp_draw_order demoEnv demoTwo 5 3 4 0 [0, 1] _ 2 rfl (by decide) rfl rfl rfl
      (by decide) (by decide) (by decide) (by decide)
  obtain ⟨K1, K2, _, k1, _, _, _, k5, _, k7⟩ :=
    AbsCell.BreakUp_draw_order demoEnv demoFresh.1 3 1 2 0 [0] _ 1 rfl (by decide) rfl rfl rfl
      (by decide) (by decide) (by decide) (by decide)
  exact ⟨⟨H1, H2, h1, h5, h6⟩, ⟨K1, K2, k1, k5, k7 rfl⟩⟩

/-! ## The exports -/

/-- C3.  On an `AbsCell` that is broken into lines, `ToString`, `ToTeX` and
`ToMatlab` return the empty string and leave the heap alone, whatever the inner list
is (it may even be missing). -/
theorem AbsCell.text_exports_of_broken (E : CellEnv) (H : Heap) (p : Nat) (c : Cell)
    (hp : H[p]? = some c) (hb : c.m_isBrokenIntoLines = true) :
    AbsCell.ToString E H p = some ("", H) ∧ AbsCell.ToTeX E H p = some ("", H) ∧
      AbsCell.ToMatlab E H p = some ("", H) := by
  simp [AbsCell.ToString, AbsCell.ToTeX, AbsCell.ToMatlab, hp, hb]

/-- The theorem `AbsCell.text_exports_of_broken` at the broken cell of `demoBroken`. -/
theorem AbsCell.text_exports_of_broken_witness :
    AbsCell.ToString demoEnv demoBroken 3 = some ("", demoBroken) ∧
      AbsCell.ToTeX demoEnv demoBroken 3 = some ("", demoBroken) ∧
      AbsCell.ToMatlab demoEnv demoBroken 3 = some ("", demoBroken) :=
  AbsCell.text_exports_of_broken demoEnv demoBroken 3 _ rfl rfl

/-- C4, as stated, fails.  The `AbsCell` 3 of `demoBroken` is `abs(x)` broken into
lines; `ToMathML`, `ToOMML` and `ToXML` still return the full markup, not the empty
string. -/
theorem AbsCell.markup_exports_of_broken_not_empty :
    (demoBroken[3]?).map (fun c => c.m_isBrokenIntoLines) = some true ∧
      (AbsCell.ToMathML demoEnv demoBroken 3).map Prod.fst =
        some "<row><mo>|</mo>x<mo>|</mo></row>\n" ∧
      (AbsCell.ToOMML demoEnv demoBroken 3).map Prod.fst =
        some "<m:d><m:dPr m:begChr=\"|\" m:endChr=\"|\"></m:dPr><m:e>x</m:e></m:d>" ∧
      (AbsCell.ToXML demoEnv demoBroken 3).map Prod.fst = some "<a>x</a>" := by
  decide

/-- A string that starts with a non-empty literal is not empty. -/
theorem string_append_ne_empty {a : String} (b : String) (h : a ≠ "") :
    a ++ b ≠ "" := by
  intro e
  apply h
  have := congrArg String.data e
  simp only [String.data_append, List.append_eq_nil] at this
  exact String.ext this.1

/-- C4, as the code has it.  `ToMathML`, `ToOMML` and `ToXML` do not consult
`m_isBrokenIntoLines`: for every `AbsCell` with an inner list, broken into lines or
not, they return the decorated markup of the inner list, which is never the empty
string, and leave the heap alone. -/
theorem AbsCell.markup_exports_ignore_broken (E : CellEnv) (H : Heap) (p i : Nat) (c : Cell)
    (hp : H[p]? = some c) (hi : c.m_innerCell = some i) :
    AbsCell.ToMathML E H p =
        some ("<row><mo>|</mo>" ++ E.ListToMathML H i ++ "<mo>|</mo></row>\n", H) ∧
      AbsCell.ToOMML E H p =
        some ("<m:d><m:dPr m:begChr=\"|\" m:endChr=\"|\"></m:dPr><m:e>" ++
          E.ListToOMML H i ++ "</m:e></m:d>", H) ∧
      AbsCell.ToXML E H p =
        some ("<a" ++ AbsCell.xmlFlags c ++ ">" ++ E.ListToXML H i ++ "</a>", H) ∧
      (∀ s H', AbsCell.ToMathML E H p = some (s, H') ∨ AbsCell.ToOMML E H p = some (s, H') ∨
        AbsCell.ToXML E H p = some (s, H') → s ≠ "") := by
  have h1 : AbsCell.ToMathML E H p =
      some ("<row><mo>|</mo>" ++ E.ListToMathML H i ++ "<mo>|</mo></row>\n", H) := by
    simp [AbsCell.ToMathML, hp, hi]
  have h2 : AbsCell.ToOMML E H p =
      some ("<m:d><m:dPr m:begChr=\"|\" m:endChr=\"|\"></m:dPr><m:e>" ++
        E.ListToOMML H i ++ "</m:e></m:d>", H) := by
    simp [AbsCell.ToOMML, hp, hi]
  have h3 : AbsCell.ToXML E H p =
      some ("<a" ++ AbsCell.xmlFlags c ++ ">" ++ E.ListToXML H i ++ "</a>", H) := by
    simp [AbsCell.ToXML, hp, hi]
  refine ⟨h1, h2, h3, ?_⟩
  intro s H' h
  rw [h1, h2, h3] at h
  simp only [Option.some.injEq, Prod.mk.injEq] at h
  rcases h with ⟨rfl, _⟩ | ⟨rfl, _⟩ | ⟨rfl, _⟩
  · rw [String.append_assoc]
    exact string_append_ne_empty _ (by decide)
  · rw [String.append_assoc]
    exact string_append_ne_empty _ (by decide)
  · rw [String.append_assoc, String.append_assoc, String.append_assoc]
    exact string_append_ne_empty _ (by decide)

/-- The theorem `AbsCell.markup_exports_ignore_broken` at the broken cell of
`demoBroken`. -/
theorem AbsCell.markup_exports_ignore_broken_witness :
    AbsCell.ToMathML demoEnv demoBroken 3 =
        some ("<row><mo>|</mo>" ++ demoEnv.ListToMathML demoBroken 0 ++ "<mo>|</mo></row>\n",
          demoBroken) ∧
      AbsCell.ToXML demoEnv demoBroken 3 =
        some ("<a" ++ "" ++ ">" ++ demoEnv.ListToXML demoBroken 0 ++ "</a>", demoBroken) :=
  have h := AbsCell.markup_exports_ignore_broken demoEnv demoBroken 3 0 _ rfl rfl
  ⟨h.1, h.2.2.1⟩

/-- C8.  On an unbroken `AbsCell` with inner list `i` every export wraps the list
export of the inner list of the same format in the decoration of the format, and hands
back the heap as it was. -/
theorem AbsCell.exports_of_unbroken (E : CellEnv) (H : Heap) (p i : Nat) (c : Cell)
    (hp : H[p]? = some c) (hb : c.m_isBrokenIntoLines = false)
    (hi : c.m_innerCell = some i) :
    AbsCell.ToString E H p = some ("abs(" ++ E.ListToString H i ++ ")", H) ∧
      AbsCell.ToMatlab E H p = some ("abs(" ++ E.ListToMatlab H i ++ ")", H) ∧
      AbsCell.ToTeX E H p = some ("\\left| " ++ E.ListToTeX H i ++ "\\right| ", H) ∧
      AbsCell.ToMathML E H p =
        some ("<row><mo>|</mo>" ++ E.ListToMathML H i ++ "<mo>|</mo></row>\n", H) ∧
      AbsCell.ToOMML E H p =
        some ("<m:d><m:dPr m:begChr=\"|\" m:endChr=\"|\"></m:dPr><m:e>" ++
          E.ListToOMML H i ++ "</m:e></m:d>", H) := by
  simp [AbsCell.ToString, AbsCell.ToMatlab, AbsCell.ToTeX, AbsCell.ToMathML, AbsCell.ToOMML,
    hp, hb, hi]

/-- The theorem `AbsCell.exports_of_unbroken` at the cell `abs(x)` of `demoAbs`. -/
theorem AbsCell.exports_of_unbroken_witness :
    AbsCell.ToString demoEnv demoAbs 3 = some ("abs(x)", demoAbs) ∧
      AbsCell.ToTeX demoEnv demoAbs 3 = some ("\\left| x\\right| ", demoAbs) :=
  have h := AbsCell.exports_of_unbroken demoEnv demoAbs 3 0 _ rfl rfl rfl
  ⟨h.1, h.2.2.1⟩

/-! ## `GetInnerCells` -/

/-- The cell that `AbsCell::AbsCell` leaves at the address it returns. -/
theorem AbsCell.AbsCell_get (E : CellEnv) (H0 : Heap) :
    (AbsCell.AbsCell E H0).2 = H0.length + 2 ∧
    (AbsCell.AbsCell E H0).1[H0.length + 2]? = some { E.newCell with
      kind := CellKind.AbsCell, m_open := some H0.length, m_close := some (H0.length + 1),
      m_last := none, m_innerCell := none } := by
  constructor
  · simp [AbsCell.AbsCell, TextCell.TextCell]
  · simp only [AbsCell.AbsCell, TextCell.TextCell]
    rw [List.getElem?_modify_ne _ _ (by omega), List.append_assoc, List.append_assoc,
      List.getElem?_append_right (by omega)]
    simp

/-- What a `SetInner` that returns leaves in the cell. -/
theorem AbsCell.SetInner_get {fuel : Nat} {H H1 : Heap} {p i : Nat} {c : Cell}
    (hp : H[p]? = some c) (h : AbsCell.SetInner fuel H p (some i) = some H1) :
    ∃ l, H1[p]? = some { c with m_innerCell := some i, m_last := some l } := by
  unfold AbsCell.SetInner at h
  have hA := Heap.update_of_get (fun x => { x with m_innerCell := some i }) hp
  simp only [hA] at h
  cases hl : AbsCell.SetInner_loop (H.set p { c with m_innerCell := some i }) fuel i with
  | none => simp [hl] at h
  | some l =>
    simp only [hl] at h
    refine ⟨l, ?_⟩
    rw [Heap.get_update_self h, Heap.get_update_self hA, hp]
    rfl

/-- C9.  `GetInnerCells` lists every owned slot: it returns the non-null ones among
`m_innerCell`, `m_open`, `m_close`, each slot once and in this order.  For an
`AbsCell` that the constructor has just built and on which `SetInner` was called with
the cell `i`, the result has exactly three elements: `i`, the open cell and the close
cell. -/
theorem AbsCell.GetInnerCells_slots (E : CellEnv) (H : Heap) (p : Nat) :
    (∀ c, H[p]? = some c → AbsCell.GetInnerCells H p =
      some (c.m_innerCell.toList ++ c.m_open.toList ++ c.m_close.toList)) ∧
    (∀ fuel i H1, AbsCell.SetInner fuel (AbsCell.AbsCell E H).1 (AbsCell.AbsCell E H).2
        (some i) = some H1 →
      AbsCell.GetInnerCells H1 (AbsCell.AbsCell E H).2 = some [i, H.length, H.length + 1] ∧
      ∀ r, AbsCell.GetInnerCells H1 (AbsCell.AbsCell E H).2 = some r → r.length = 3) := by
  constructor
  · intro c hp
    unfold AbsCell.GetInnerCells
    rw [hp]
    cases h1 : c.m_innerCell <;> cases h2 : c.m_open <;> cases h3 : c.m_close <;>
      simp [h1, h2, h3]
  · intro fuel i H1 h
    obtain ⟨h2, hget⟩ := AbsCell.AbsCell_get E H
    rw [h2] at h ⊢
    obtain ⟨l, hl⟩ := AbsCell.SetInner_get hget h
    have e : AbsCell.GetInnerCells H1 (H.length + 2) = some [i, H.length, H.length + 1] := by
      simp [AbsCell.GetInnerCells, hl]
    refine ⟨e, ?_⟩
    intro r hr
    rw [e] at hr
    cases hr
    rfl

/-- The theorem `AbsCell.GetInnerCells_slots` at `demoFresh`: after `SetInner` with
the cell 0 the `AbsCell` 3 lists the inner cell 0, the open cell 1 and the close
cell 2. -/
theorem AbsCell.GetInnerCells_slots_witness :
    AbsCell.GetInnerCells demoAbs 3 = some [0, 1, 2] :=
  ((AbsCell.GetInnerCells_slots demoEnv
    [{ kind := CellKind.TextCell, m_text := "x" }] 0).2 1 0 demoAbs rfl).1

/-! ## `ToXML` and the `breakline` attribute -/

/-- The flags string of a cell, by the value of `m_forceBreakLine`. -/
theorem AbsCell.xmlFlags_eq (c : Cell) :
    AbsCell.xmlFlags c = if c.m_forceBreakLine = true then " breakline=\"true\"" else "" := by
  unfold AbsCell.xmlFlags
  cases c.m_forceBreakLine <;> rfl

/-- The element `<a flags>xml</a>` determines its flags and its content. -/
theorem AbsCell.xml_element_inj (c1 c2 : Cell) (x1 x2 : String)
    (h : "<a" ++ AbsCell.xmlFlags c1 ++ ">" ++ x1 ++ "</a>" =
      "<a" ++ AbsCell.xmlFlags c2 ++ ">" ++ x2 ++ "</a>") :
    c1.m_forceBreakLine = c2.m_forceBreakLine ∧ x1 = x2 := by
  have h' := congrArg String.data h
  rw [AbsCell.xmlFlags_eq, AbsCell.xmlFlags_eq] at h'
  cases h1 : c1.m_forceBreakLine <;> cases h2 : c2.m_forceBreakLine <;>
    simp only [h1, h2, if_true, if_false, Bool.false_eq_true, String.data_append] at h' <;>
    simp only [List.append_assoc, List.cons_append, List.nil_append, List.cons.injEq,
      true_and] at h'
  · exact ⟨rfl, String.ext (List.append_cancel_right h')⟩
  · exact absurd h'.1 (by decide)
  · exact absurd h'.1 (by decide)
  · exact ⟨rfl, String.ext (List.append_cancel_right h')⟩

/-- C7.  `ToXML` encodes the `forceBreakLine` hint losslessly.  For an `AbsCell`
with an inner list the output is `<a` ++ flags ++ `>` ++ ListToXML(inner) ++ `</a>`,
where flags is ` breakline="true"` exactly when `m_forceBreakLine` is set and empty
otherwise; and two `AbsCell`s with the same `ToXML` output have the same
`m_forceBreakLine` and the same inner XML. -/
theorem AbsCell.ToXML_lossless (E : CellEnv) (H1 H2 : Heap) (p1 p2 i1 i2 : Nat) (c1 c2 : Cell)
    (hp1 : H1[p1]? = some c1) (hi1 : c1.m_innerCell = some i1)
    (hp2 : H2[p2]? = some c2) (hi2 : c2.m_innerCell = some i2) :
    AbsCell.ToXML E H1 p1 =
        some ("<a" ++ (if c1.m_forceBreakLine = true then " breakline=\"true\"" else "") ++
          ">" ++ E.ListToXML H1 i1 ++ "</a>", H1) ∧
      ((AbsCell.ToXML E H1 p1).map Prod.fst = (AbsCell.ToXML E H2 p2).map Prod.fst →
        c1.m_forceBreakLine = c2.m_forceBreakLine ∧ E.ListToXML H1 i1 = E.ListToXML H2 i2) := by
  have e1 : AbsCell.ToXML E H1 p1 =
      some ("<a" ++ AbsCell.xmlFlags c1 ++ ">" ++ E.ListToXML H1 i1 ++ "</a>", H1) := by
    simp [AbsCell.ToXML, hp1, hi1]
  have e2 : AbsCell.ToXML E H2 p2 =
      some ("<a" ++ AbsCell.xmlFlags c2 ++ ">" ++ E.ListToXML H2 i2 ++ "</a>", H2) := by
    simp [AbsCell.ToXML, hp2, hi2]
  constructor
  · rw [e1, AbsCell.xmlFlags_eq]
  · intro h
    rw [e1, e2] at h
    simp only [Option.map_some', Option.some.injEq] at h
    exact AbsCell.xml_element_inj c1 c2 _ _ h

/-- The theorem `AbsCell.ToXML_lossless` at the cell `abs(x)`, unbroken in `demoAbs`
and broken in `demoBroken`. -/
theorem AbsCell.ToXML_lossless_witness :
    AbsCell.ToXML demoEnv demoAbs 3 =
      some ("<a" ++ "" ++ ">" ++ demoEnv.ListToXML demoAbs 0 ++ "</a>", demoAbs) :=
  (AbsCell.ToXML_lossless demoEnv demoAbs demoBroken 3 3 0 0 _ _ rfl rfl rfl rfl).1

/-! ## `Emfout::BreakLines` -/

/-- C10, as the code has it.  One turn of the loop of `Emfout::BreakLines` on an
unbroken cell `tmp` of the draw order, reached with the accumulator `currentWidth`:
the turn returns and the loop goes on at `tmp->m_nextToDraw`; the cell is marked as
beginning a line, and the accumulator becomes the width of the cell, if and only if the
cell is forced to break or `currentWidth` plus the width of the cell is at least
`fullWidth` (greater or equal); otherwise the cell is left unmarked and the
accumulator grows by the width of the cell plus `MC_CELL_SKIP`.  No other cell
changes. -/
theorem Emfout.BreakLines_rule (E : CellEnv) (fullWidth : Int) (fuel : Nat) (H : Heap)
    (tmp : Nat) (currentWidth : Int) (c : Cell)
    (hc : H[tmp]? = some c) (hb : c.m_isBrokenIntoLines = false) :
    ∃ H' cw' c', Emfout.BreakLines_body E fullWidth H tmp currentWidth = some (H', cw') ∧
      Emfout.BreakLines_loop E fullWidth (fuel + 1) H (some tmp) currentWidth =
        Emfout.BreakLines_loop E fullWidth fuel H' c.m_nextToDraw cw' ∧
      H'[tmp]? = some c' ∧ (∀ q, q ≠ tmp → H'[q]? = H[q]?) ∧
      (c'.m_breakLine = true ↔
        (c.m_forceBreakLine = true ∨ currentWidth + c.m_width ≥ fullWidth)) ∧
      (c'.m_breakLine = true → cw' = c.m_width) ∧
      (c'.m_breakLine = false → cw' = currentWidth + (c.m_width + E.MC_CELL_SKIP)) := by
  have hlt : tmp < H.length := by
    rcases Nat.lt_or_ge tmp H.length with h | h
    · exact h
    · rw [List.getElem?_eq_none h] at hc; cases hc
  have h1 := Heap.update_of_get (MathCell.BreakLine false) hc
  have hc1 : (H.set tmp (MathCell.BreakLine false c))[tmp]? =
      some (MathCell.BreakLine false c) := by
    rw [Heap.get_update_self h1, hc]; rfl
  have h2 := Heap.update_of_get (MathCell.ResetData E) hc1
  have hc2 : ((H.set tmp (MathCell.BreakLine false c)).set tmp
      (MathCell.ResetData E (MathCell.BreakLine false c)))[tmp]? =
      some (MathCell.ResetData E (MathCell.BreakLine false c)) := by
    rw [Heap.get_update_self h2, hc1]; rfl
  have h3 := Heap.update_of_get (MathCell.BreakLine true) hc2
  have hne2 : ∀ q, q ≠ tmp → ((H.set tmp (MathCell.BreakLine false c)).set tmp
      (MathCell.ResetData E (MathCell.BreakLine false c)))[q]? = H[q]? := by
    intro q hq
    rw [Heap.get_update_ne h2 (Ne.symm hq), Heap.get_update_ne h1 (Ne.symm hq)]
  by_cases hcond : c.m_forceBreakLine = true ∨ currentWidth + c.m_width ≥ fullWidth
  · have hbody : Emfout.BreakLines_body E fullWidth H tmp currentWidth =
        some (((H.set tmp (MathCell.BreakLine false c)).set tmp
          (MathCell.ResetData E (MathCell.BreakLine false c))).set tmp
          (MathCell.BreakLine true (MathCell.ResetData E (MathCell.BreakLine false c))),
          c.m_width) := by
      have hd : (MathCell.BreakLineHere (MathCell.ResetData E (MathCell.BreakLine false c)) ||
          decide (currentWidth +
            MathCell.GetWidth (MathCell.ResetData E (MathCell.BreakLine false c)) ≥
              fullWidth)) = true := by
        simpa [MathCell.BreakLineHere, MathCell.ResetData, MathCell.BreakLine,
          MathCell.GetWidth] using hcond
      simp only [Emfout.BreakLines_body, hc, hb, Bool.not_false, if_true, h1,
        Option.some_bind, h2, hc2, hd, h3]
      rfl
    have hc3 : (((H.set tmp (MathCell.BreakLine false c)).set tmp
          (MathCell.ResetData E (MathCell.BreakLine false c))).set tmp
          (MathCell.BreakLine true (MathCell.ResetData E (MathCell.BreakLine false c))))[tmp]? =
        some (MathCell.BreakLine true (MathCell.ResetData E (MathCell.BreakLine false c))) := by
      rw [Heap.get_update_self h3, hc2]; rfl
    refine ⟨_, _, _, hbody, ?_, hc3, ?_, ?_, ?_, ?_⟩
    · simp only [Emfout.BreakLines_loop, hbody, hc3]
      rfl
    · intro q hq
      rw [Heap.get_update_ne h3 (Ne.symm hq)]
      exact hne2 q hq
    · simp [MathCell.BreakLine, hcond]
    · intro _; rfl
    · intro h; simp [MathCell.BreakLine] at h
  · have hbody : Emfout.BreakLines_body E fullWidth H tmp currentWidth =
        some ((H.set tmp (MathCell.BreakLine false c)).set tmp
          (MathCell.ResetData E (MathCell.BreakLine false c)),
          currentWidth + (c.m_width + E.MC_CELL_SKIP)) := by
      have hd : (MathCell.BreakLineHere (MathCell.ResetData E (MathCell.BreakLine false c)) ||
          decide (currentWidth +
            MathCell.GetWidth (MathCell.ResetData E (MathCell.BreakLine false c)) ≥
              fullWidth)) = false := by
        simpa [MathCell.BreakLineHere, MathCell.ResetData, MathCell.BreakLine,
          MathCell.GetWidth] using hcond
      simp only [Emfout.BreakLines_body, hc, hb, Bool.not_false, if_true, h1,
        Option.some_bind, h2, hc2, hd]
      rfl
    refine ⟨_, _, _, hbody, ?_, hc2, hne2, ?_, ?_, ?_⟩
    · simp only [Emfout.BreakLines_loop, hbody, hc2]
      rfl
    · simp [MathCell.BreakLine, MathCell.ResetData, hcond]
    · intro h; simp [MathCell.BreakLine, MathCell.ResetData] at h
    · intro _; rfl

/-- The theorem `Emfout.BreakLines_rule` at the second cell of `demoLine`, reached with
200 in the accumulator, for the target width 500: the cell is marked and the
accumulator becomes 300. -/
theorem Emfout.BreakLines_rule_witness :
    ∃ H' cw' c', Emfout.BreakLines_body demoEnv 500 demoLine 1 200 = some (H', cw') ∧
      H'[1]? = some c' ∧ c'.m_breakLine = true ∧ cw' = 300 := by
  obtain ⟨H', cw', c', h1, _, h3, _, h5, h6, _⟩ :=
    Emfout.BreakLines_rule demoEnv 500 0 demoLine 1 200 _ rfl rfl
  have hm : c'.m_breakLine = true := h5.mpr (Or.inr (by decide))
  exact ⟨H', cw', c', h1, h3, hm, h6 hm⟩

/-- C10, as stated, fails.  In `demoLine` with target width 500 and no gap, the
second cell is reached with 200 in the accumulator and is 300 wide: 200 + 300 is not
strictly greater than 500 and the cell is not forced to break, yet `Emfout::BreakLines`
marks it as beginning a line. -/
theorem Emfout.BreakLines_breaks_at_equality :
    ¬ ((200 : Int) + 300 > 500) ∧
      demoLine.map (fun c => (c.m_isBrokenIntoLines, c.m_forceBreakLine, c.m_width)) =
        [(false, false, 200), (false, false, 300)] ∧
      (Emfout.BreakLines_body demoEnv 500 demoLine 0 0).map Prod.snd = some 200 ∧
      (Emfout.BreakLines demoEnv 500 2 demoLine (some 0)).map
        (fun H' => H'.map (fun c => c.m_breakLine)) = some [false, true] := by
  decide

/-! ## `BreakUp` followed by `Unbreak` -/

theorem isDrawChain_cons {H : Heap} {q j : Nat} {rest : List Nat}
    (h : isDrawChain H (some q) (j :: rest) = true) :
    q = j ∧ q < H.length ∧ isDrawChain H (H.nextToDraw q) rest = true := by
  simpa [isDrawChain, and_assoc] using h

theorem isDrawChain_nil {H : Heap} {s : Option Nat}
    (h : isDrawChain H s [] = true) : s = none := by
  cases s with
  | none => rfl
  | some q => simp [isDrawChain] at h

theorem isDrawChain_none {H : Heap} {P : List Nat}
    (h : isDrawChain H none P = true) : P = [] := by
  cases P with
  | nil => rfl
  | cons j rest => simp [isDrawChain] at h

theorem Heap.cell_of_get {H : Heap} {q : Nat} {c : Cell} (h : H[q]? = some c) :
    H.cell q = c := by
  simp [Heap.cell, h]

theorem Heap.get_of_lt {H : Heap} {q : Nat} (h : q < H.length) :
    H[q]? = some (H.cell q) := by
  simp [Heap.cell, List.getElem?_eq_getElem h]

theorem Heap.nextToDraw_eq_cell (H : Heap) {q : Nat} (h : q < H.length) :
    H.nextToDraw q = (H.cell q).m_nextToDraw := by
  simp [Heap.nextToDraw, Heap.get_of_lt h]

/-- A line of `splitLines` is never empty, and the first line begins with the first
element. -/
theorem splitLines_head {α : Type} (starts : α → Bool) :
    ∀ (U : List α) (l : List α) (ls : List (List α)), splitLines starts U = l :: ls →
      ∃ d l' rest, l = d :: l' ∧ U = d :: rest := by
  intro U
  induction U with
  | nil => intro l ls h; simp [splitLines] at h
  | cons c rest ih =>
    intro l ls h
    unfold splitLines at h
    cases hr : splitLines starts rest with
    | nil =>
      simp only [hr] at h
      cases h
      exact ⟨c, [], rest, rfl, rfl⟩
    | cons l0 ls0 =>
      obtain ⟨d, l', rest', rfl, _⟩ := ih l0 ls0 hr
      simp only [hr] at h
      by_cases hs : starts d = true
      · simp only [hs, if_true] at h
        cases h
        exact ⟨c, [], rest, rfl, rfl⟩
      · simp only [hs, if_false] at h
        cases h
        exact ⟨c, d :: l', rest, rfl, rfl⟩

theorem splitLines_eq_nil {α : Type} (starts : α → Bool) (U : List α)
    (h : splitLines starts U = []) : U = [] := by
  cases U with
  | nil => rfl
  | cons c rest =>
    unfold splitLines at h
    cases hr : splitLines starts rest with
    | nil => simp [hr] at h
    | cons l0 ls0 =>
      obtain ⟨d, l', rest', rfl, _⟩ := splitLines_head starts rest l0 ls0 hr
      simp only [hr] at h
      by_cases hs : starts d = true
      · simp [hs] at h
      · simp [hs] at h

/-- How the height of the lines unfolds along the cells. -/
theorem Emfout.linesHeightFrom_cons (E : CellEnv) (H : Heap) (firstCell bigSkip : Bool)
    (q : Nat) (U : List Nat) :
    Emfout.linesHeightFrom E H firstCell bigSkip (q :: U) =
      if firstCell || MathCell.BreakLineHere (H.cell q) then
        E.GetMaxHeight H q + (if bigSkip then E.MC_LINE_SKIP else 0) +
          Emfout.linesHeightFrom E H false (H.cell q).m_bigSkip U
      else
        Emfout.linesHeightFrom E H false (H.cell q).m_bigSkip U := by
  cases hr : splitLines (fun q => MathCell.BreakLineHere (H.cell q)) U with
  | nil =>
    have hU := splitLines_eq_nil _ U hr
    subst hU
    by_cases hc : (firstCell || MathCell.BreakLineHere (H.cell q)) = true
    · simp [Emfout.linesHeightFrom, splitLines, hc, Emfout.linesHeight]
    · simp [Emfout.linesHeightFrom, splitLines, hc, Emfout.linesHeight]
  | cons l0 ls0 =>
    obtain ⟨d, l', rest', rfl, rfl⟩ := splitLines_head _ U l0 ls0 hr
    by_cases hs : MathCell.BreakLineHere (H.cell d) = true
    · have e : splitLines (fun q => MathCell.BreakLineHere (H.cell q)) (q :: d :: rest') =
          [q] :: (d :: l') :: ls0 := by
        rw [splitLines, hr]; simp [hs]
      by_cases hc : (firstCell || MathCell.BreakLineHere (H.cell q)) = true
      · simp [Emfout.linesHeightFrom, e, hr, hc, hs, Emfout.linesHeight]
      · simp [Emfout.linesHeightFrom, e, hr, hc, hs, Emfout.linesHeight]
    · have e : splitLines (fun q => MathCell.BreakLineHere (H.cell q)) (q :: d :: rest') =
          (q :: d :: l') :: ls0 := by
        rw [splitLines, hr]; simp [hs]
      by_cases hc : (firstCell || MathCell.BreakLineHere (H.cell q)) = true
      · simp [Emfout.linesHeightFrom, e, hr, hc, hs, Emfout.linesHeight,
          List.getLast?_cons_cons]
      · simp [Emfout.linesHeightFrom, e, hr, hc, hs, Emfout.linesHeight,
          List.getLast?_cons_cons]

/-- The loop of `GetMaxPoint` returns on a draw order that ends, and adds the height of
its lines to `currentHeight`. -/
theorem Emfout.GetMaxPoint_loop_height (E : CellEnv) (H : Heap) :
    ∀ (P : List Nat) (s : Option Nat) (fuel : Nat) (st : GetMaxPointState),
      isDrawChain H s P = true → P.length ≤ fuel → st.height = st.currentHeight →
      ∃ st', Emfout.GetMaxPoint_loop E H fuel s st = some st' ∧
        st'.height = st'.currentHeight ∧
        st'.currentHeight = st.currentHeight +
          Emfout.linesHeightFrom E H st.firstCell st.bigSkip (Emfout.unbrokenCells H P) := by
  intro P
  induction P with
  | nil =>
    intro s fuel st hchain _ hst
    have := isDrawChain_nil hchain
    subst this
    refine ⟨st, ?_, hst, ?_⟩
    · cases fuel <;> rfl
    · simp [Emfout.unbrokenCells, Emfout.linesHeightFrom]
  | cons q rest ih =>
    intro s fuel st hchain hfuel hst
    cases s with
    | none => simp [isDrawChain] at hchain
    | some q0 =>
      obtain ⟨rfl, hlt, hrest⟩ := isDrawChain_cons hchain
      cases fuel with
      | zero => simp at hfuel
      | succ fuel =>
        have hget := Heap.get_of_lt hlt
        rw [Heap.nextToDraw_eq_cell H hlt] at hrest
        have hstep : Emfout.GetMaxPoint_loop E H (fuel + 1) (some q0) st =
            Emfout.GetMaxPoint_loop E H fuel (H.cell q0).m_nextToDraw
              (Emfout.GetMaxPoint_body E H q0 (H.cell q0) st) := by
          simp [Emfout.GetMaxPoint_loop, hget]
        rw [hstep]
        by_cases hb : (H.cell q0).m_isBrokenIntoLines = true
        · have hbody : Emfout.GetMaxPoint_body E H q0 (H.cell q0) st = st := by
            simp [Emfout.GetMaxPoint_body, hb]
          have hU : Emfout.unbrokenCells H (q0 :: rest) = Emfout.unbrokenCells H rest := by
            simp [Emfout.unbrokenCells, List.filter_cons, hb]
          rw [hbody, hU]
          exact ih _ fuel st hrest (by simpa using hfuel) hst
        · have hb' : (H.cell q0).m_isBrokenIntoLines = false := by simpa using hb
          have hU : Emfout.unbrokenCells H (q0 :: rest) =
              q0 :: Emfout.unbrokenCells H rest := by
            simp [Emfout.unbrokenCells, List.filter_cons, hb']
          rw [hU, Emfout.linesHeightFrom_cons]
          by_cases hc : (MathCell.BreakLineHere (H.cell q0) || st.firstCell) = true
          · have hc' : (st.firstCell || MathCell.BreakLineHere (H.cell q0)) = true := by
              rw [Bool.or_comm]; exact hc
            obtain ⟨st', h1, h2, h3⟩ := ih _ fuel
              (Emfout.GetMaxPoint_body E H q0 (H.cell q0) st) hrest (by simpa using hfuel)
              (by simp [Emfout.GetMaxPoint_body, hb', hc])
            refine ⟨st', h1, h2, ?_⟩
            rw [h3]
            by_cases hbs : st.bigSkip = true
            · simp [Emfout.GetMaxPoint_body, hb', hc, hc', hbs]; ring
            · simp [Emfout.GetMaxPoint_body, hb', hc, hc', hbs]; ring
          · have hc' : ¬ (st.firstCell || MathCell.BreakLineHere (H.cell q0)) = true := by
              rw [Bool.or_comm]; exact hc
            obtain ⟨st', h1, h2, h3⟩ := ih _ fuel
              (Emfout.GetMaxPoint_body E H q0 (H.cell q0) st) hrest (by simpa using hfuel)
              (by simp [Emfout.GetMaxPoint_body, hb', hc, hst])
            have hf : st.firstCell = false := by
              cases hfc : st.firstCell with
              | false => rfl
              | true => simp [hfc] at hc
            have hbl : MathCell.BreakLineHere (H.cell q0) = false := by
              cases hx : MathCell.BreakLineHere (H.cell q0) with
              | false => rfl
              | true => simp [hx] at hc
            refine ⟨st', h1, h2, ?_⟩
            rw [h3]
            simp [Emfout.GetMaxPoint_body, hb', hf, hbl]

/-- C19, as the code has it.  On a draw order `P` that ends, `Emfout::GetMaxPoint`
returns, and the height it measures is the sum over the lines of the draw order of
`GetMaxHeight()` of the cell that begins the line, plus `MC_LINE_SKIP` before a line
whenever the last cell of the line before it has `m_bigSkip`; nothing is added before
the first line. -/
theorem Emfout.GetMaxPoint_height (E : CellEnv) (H : Heap) (m_tree : Option Nat)
    (P : List Nat) (fuel : Nat)
    (hchain : isDrawChain H m_tree P = true) (hfuel : P.length ≤ fuel) :
    ∃ w, Emfout.GetMaxPoint E fuel H m_tree =
      some (w, Emfout.linesHeight E H false (Emfout.lines H P)) := by
  obtain ⟨st', h1, h2, h3⟩ :=
    Emfout.GetMaxPoint_loop_height E H P m_tree fuel {} hchain hfuel rfl
  refine ⟨st'.width, ?_⟩
  have e : Emfout.linesHeightFrom E H true false (Emfout.unbrokenCells H P) =
      Emfout.linesHeight E H false (Emfout.lines H P) := by
    unfold Emfout.linesHeightFrom Emfout.lines
    cases hU : Emfout.unbrokenCells H P with
    | nil => simp [splitLines, Emfout.linesHeight]
    | cons d U' =>
      cases hr : splitLines (fun q => MathCell.BreakLineHere (H.cell q)) (d :: U') with
      | nil => simp [Emfout.linesHeight]
      | cons l ls => simp
  simp only [Emfout.GetMaxPoint, h1, Option.map_some', h2, h3, e]
  simp

/-- The theorem `Emfout.GetMaxPoint_height` on the draw order of `demoSkip`: the lines
are `a b` and `c`, and the measured height is 20. -/
theorem Emfout.GetMaxPoint_height_witness :
    Emfout.lines demoSkip [0, 1, 2] = [[0, 1], [2]] ∧
      ∃ w, Emfout.GetMaxPoint demoEnv 3 demoSkip (some 0) = some (w, 20) :=
  ⟨by decide, Emfout.GetMaxPoint_height demoEnv demoSkip (some 0) [0, 1, 2] 3
    (by decide) (by decide)⟩

/-- C19, as stated, fails.  In `demoSkip` the first line is `a b` and `a` has
`m_bigSkip`, but `b`, the last cell of the line, has not: `Emfout::GetMaxPoint` measures
the height 20 = 10 + 10 and adds no `MC_LINE_SKIP` (which is 2 here) before the second
line, while the sum with a skip after every line that has a member with `m_bigSkip`
is 22. -/
theorem Emfout.GetMaxPoint_skip_of_last_cell_only :
    Emfout.lines demoSkip [0, 1, 2] = [[0, 1], [2]] ∧
      (demoSkip.map fun c => c.m_bigSkip) = [true, false, false] ∧
      (Emfout.GetMaxPoint demoEnv 3 demoSkip (some 0)).map Prod.snd = some 20 ∧
      Emfout.linesHeightAny demoEnv demoSkip false (Emfout.lines demoSkip [0, 1, 2]) = 22 := by
  decide

/-! ## The cursor of `Emfout::Draw` -/

/-- The cursor rule does not look at `DrawThisCell`. -/
theorem Emfout.cursorRule_DrawThisCell (E : CellEnv) (H : Heap)
    (f : Heap → Nat → Int → Int → Bool) :
    ∀ (P : List Nat) (cur : DrawCursor),
      Emfout.cursorRule { E with DrawThisCell := f } H cur P = Emfout.cursorRule E H cur P := by
  intro P
  induction P with
  | nil => intro cur; rfl
  | cons q rest ih =>
    intro cur
    simp only [Emfout.cursorRule, ih]

/-- The loop of `Draw` on a draw order without broken cells that equals the logical
order: it returns, and its calls are placed by the cursor rule. -/
theorem Emfout.Draw_loop_cursorRule (E : CellEnv) (H : Heap) :
    ∀ (P : List Nat) (s : Option Nat) (fuel : Nat) (cur : DrawCursor),
      isDrawChain H s P = true → P.length ≤ fuel →
      (∀ q ∈ P, (H.cell q).m_isBrokenIntoLines = false) →
      (∀ q ∈ P, (H.cell q).m_next = (H.cell q).m_nextToDraw) →
      ∃ calls, Emfout.Draw_loop E H fuel s cur = some calls ∧
        calls.map DrawCall.position = Emfout.cursorRule E H cur P := by
  intro P
  induction P with
  | nil =>
    intro s fuel cur hchain _ _ _
    have := isDrawChain_nil hchain
    subst this
    exact ⟨[], by cases fuel <;> rfl, rfl⟩
  | cons q rest ih =>
    intro s fuel cur hchain hfuel hunb hord
    cases s with
    | none => simp [isDrawChain] at hchain
    | some q0 =>
      obtain ⟨rfl, hlt, hrest⟩ := isDrawChain_cons hchain
      cases fuel with
      | zero => simp at hfuel
      | succ fuel =>
        have hget := Heap.get_of_lt hlt
        rw [Heap.nextToDraw_eq_cell H hlt] at hrest
        have hb := hunb q0 (List.mem_cons_self _ _)
        have ho := hord q0 (List.mem_cons_self _ _)
        -- the cursor after the cell
        have key : ∃ cur1, Emfout.Draw_lineBreak E H (H.cell q0) cur
            { cur with x := cur.x + (MathCell.GetWidth (H.cell q0) + E.MC_CELL_SKIP) } =
              some cur1 ∧
            Emfout.cursorRule E H cur (q0 :: rest) =
              (q0, cur.x, cur.y) :: Emfout.cursorRule E H cur1 rest := by
          cases rest with
          | nil =>
            have hnone := isDrawChain_nil hrest
            refine ⟨{ cur with x := cur.x + (MathCell.GetWidth (H.cell q0) + E.MC_CELL_SKIP) },
              ?_, ?_⟩
            · simp only [Emfout.Draw_lineBreak, ho, hnone]
            · simp [Emfout.cursorRule]
          | cons n rest' =>
            cases hn : (H.cell q0).m_nextToDraw with
            | none => rw [hn] at hrest; simp [isDrawChain] at hrest
            | some n0 =>
              rw [hn] at hrest
              obtain ⟨rfl, hnlt, _⟩ := isDrawChain_cons hrest
              have hgetn := Heap.get_of_lt hnlt
              by_cases hbl : MathCell.BreakLineHere (H.cell n0) = true
              · refine ⟨{ x := 0
                          y := cur.y + (cur.drop + E.GetMaxCenter H n0) +
                            (if (H.cell q0).m_bigSkip then E.MC_LINE_SKIP else 0)
                          drop := E.GetMaxDrop H n0 }, ?_, ?_⟩
                · by_cases hbs : (H.cell q0).m_bigSkip = true
                  · simp [Emfout.Draw_lineBreak, ho, hn, hgetn, hbl, hbs]
                  · simp [Emfout.Draw_lineBreak, ho, hn, hgetn, hbl, hbs]
                · simp [Emfout.cursorRule, hbl]
              · refine ⟨{ cur with x := cur.x + ((H.cell q0).m_width + E.MC_CELL_SKIP) },
                  ?_, ?_⟩
                · simp [Emfout.Draw_lineBreak, ho, hn, hgetn, hbl, MathCell.GetWidth]
                · simp [Emfout.cursorRule, hbl]
        obtain ⟨cur1, hcur, hrule⟩ := key
        obtain ⟨calls, h1, h2⟩ := ih (H.cell q0).m_nextToDraw fuel cur1 hrest
          (by simpa using hfuel)
          (fun q hq => hunb q (List.mem_cons_of_mem _ hq))
          (fun q hq => hord q (List.mem_cons_of_mem _ hq))
        refine ⟨{ cell := q0, x := cur.x, y := cur.y,
                  painted := E.DrawThisCell H q0 cur.x cur.y } :: calls, ?_, ?_⟩
        · simp only [Emfout.Draw_loop, hget, hb, Bool.not_false, if_true, hcur,
            Option.some_bind, h1, Option.map_some']
        · rw [hrule, List.map_cons, h2]
          rfl

/-- C15.  On a draw order `P` that ends, has no broken cell and equals the logical
order, `Emfout::Draw` returns and places its calls by the cursor rule: the first cell
at `x = 0`, `y = ` its `GetMaxCenter()`, with the drop of the first line; after a cell
the cursor moves as `cursorRule` says.  The positions stay the same whatever
`DrawThisCell` answers, that is whether or not any cell painted. -/
theorem Emfout.Draw_cursor_rule (E : CellEnv) (H : Heap) (t : Nat) (P : List Nat) (fuel : Nat)
    (hchain : isDrawChain H (some t) P = true) (hfuel : P.length ≤ fuel)
    (hunb : ∀ q ∈ P, (H.cell q).m_isBrokenIntoLines = false)
    (hord : ∀ q ∈ P, (H.cell q).m_next = (H.cell q).m_nextToDraw) :
    ∃ calls, Emfout.Draw E fuel H (some t) = some calls ∧
      calls.map DrawCall.position =
        Emfout.cursorRule E H { x := 0, y := E.GetMaxCenter H t, drop := E.GetMaxDrop H t } P ∧
      ∀ f, (Emfout.Draw { E with DrawThisCell := f } fuel H (some t)).map
        (fun l => l.map DrawCall.position) = some (calls.map DrawCall.position) := by
  have hlt : t < H.length := by
    cases P with
    | nil => simp [isDrawChain] at hchain
    | cons j rest => exact (isDrawChain_cons hchain).2.1
  have hget := Heap.get_of_lt hlt
  obtain ⟨calls, h1, h2⟩ := Emfout.Draw_loop_cursorRule E H P (some t) fuel
    { x := 0, y := E.GetMaxCenter H t, drop := E.GetMaxDrop H t } hchain hfuel hunb hord
  refine ⟨calls, ?_, h2, ?_⟩
  · simp only [Emfout.Draw, hget, h1]
  · intro f
    obtain ⟨calls', h1', h2'⟩ := Emfout.Draw_loop_cursorRule { E with DrawThisCell := f } H P
      (some t) fuel { x := 0, y := E.GetMaxCenter H t, drop := E.GetMaxDrop H t }
      hchain hfuel hunb hord
    rw [Emfout.cursorRule_DrawThisCell] at h2'
    simp only [Emfout.Draw, hget]
    rw [h1']
    simp only [Option.map_some', h2', h2]

/-- The theorem `Emfout.Draw_cursor_rule` on the draw order of `demoSkip`: `a` is drawn
at (0, 6), `b` to its right at (10, 6), and `c`, which begins a line, at (0, 16). -/
theorem Emfout.Draw_cursor_rule_witness :
    ∃ calls, Emfout.Draw demoDrawEnv 3 demoSkip (some 0) = some calls ∧
      calls.map DrawCall.position = [(0, 0, 6), (1, 10, 6), (2, 0, 16)] := by
  obtain ⟨calls, h1, h2, _⟩ := Emfout.Draw_cursor_rule demoDrawEnv demoSkip 0 [0, 1, 2] 3
    (by decide) (by decide) (by decide) (by decide)
  exact ⟨calls, h1, h2⟩

/-- C20 on the code: the heaps `demoSkip` and `demoSkipCut` have the same draw links and
the same width, center, height, break, big skip and broken data in every cell, and differ
only in the logical link of `b`.  `Emfout::Draw` draws `c` at (0, 16) in the first and
at (20, 6) in the second: the line break after `b` is taken from `b->m_next`, not from
its successor in the draw order, which `GetMaxPoint` measures as the start of a second
line in both. -/
theorem Emfout.Draw_reads_logical_next :
    (demoSkip.map fun c => (c.m_nextToDraw, c.m_width, c.m_center, c.m_height, c.m_breakLine,
        c.m_forceBreakLine, c.m_bigSkip, c.m_isBrokenIntoLines)) =
      (demoSkipCut.map fun c => (c.m_nextToDraw, c.m_width, c.m_center, c.m_height,
        c.m_breakLine, c.m_forceBreakLine, c.m_bigSkip, c.m_isBrokenIntoLines)) ∧
      (Emfout.Draw demoDrawEnv 3 demoSkip (some 0)).map (fun l => l.map DrawCall.position) =
        some [(0, 0, 6), (1, 10, 6), (2, 0, 16)] ∧
      (Emfout.Draw demoDrawEnv 3 demoSkipCut (some 0)).map (fun l => l.map DrawCall.position) =
        some [(0, 0, 6), (1, 10, 6), (2, 20, 6)] ∧
      Emfout.GetMaxPoint demoDrawEnv 3 demoSkip (some 0) = some (20, 20) ∧
      Emfout.GetMaxPoint demoDrawEnv 3 demoSkipCut (some 0) = some (20, 20) :=
  ⟨rfl, by decide, by decide, by decide, by decide⟩

/-! ## The width bound of `Emfout::BreakLines` -/

theorem isDrawChain_congr {H H1 : Heap} (hl : H1.length = H.length)
    (hn : ∀ q, H1.nextToDraw q = H.nextToDraw q) (s : Option Nat) (P : List Nat) :
    isDrawChain H1 s P = isDrawChain H s P := by
  induction P generalizing s with
  | nil => cases s <;> rfl
  | cons j rest ih =>
    cases s with
    | none => rfl
    | some q => simp only [isDrawChain, hl, hn, ih]

/-- The draw order from a cell is determined by the heap. -/
theorem isDrawChain_unique {H : Heap} :
    ∀ (P P' : List Nat) (s : Option Nat), isDrawChain H s P = true →
      isDrawChain H s P' = true → P = P' := by
  intro P
  induction P with
  | nil =>
    intro P' s h h'
    have := isDrawChain_nil h
    subst this
    exact (isDrawChain_none h').symm
  | cons j rest ih =>
    intro P' s h h'
    cases s with
    | none => simp [isDrawChain] at h
    | some q =>
      cases P' with
      | nil => simp [isDrawChain] at h'
      | cons j' rest' =>
        obtain ⟨rfl, _, hr⟩ := isDrawChain_cons h
        obtain ⟨rfl, _, hr'⟩ := isDrawChain_cons h'
        rw [ih rest' _ hr hr']

theorem isDrawChain_suffix {H : Heap} :
    ∀ (pre : List Nat) (s : Option Nat) (q : Nat) (rest : List Nat),
      isDrawChain H s (pre ++ q :: rest) = true → isDrawChain H (some q) (q :: rest) = true := by
  intro pre
  induction pre with
  | nil =>
    intro s q rest h
    cases s with
    | none => simp [isDrawChain] at h
    | some q0 =>
      obtain ⟨rfl, _, _⟩ := isDrawChain_cons h
      exact h
  | cons a pre ih =>
    intro s q rest h
    cases s with
    | none => simp [isDrawChain] at h
    | some q0 =>
      obtain ⟨_, _, hr⟩ := isDrawChain_cons h
      exact ih _ q rest hr

/-- A draw order that ends at the null link visits no cell twice. -/
theorem isDrawChain_nodup {H : Heap} :
    ∀ (P : List Nat) (s : Option Nat), isDrawChain H s P = true → P.Nodup := by
  intro P
  induction P with
  | nil => intro _ _; exact List.nodup_nil
  | cons j rest ih =>
    intro s h
    cases s with
    | none => simp [isDrawChain] at h
    | some q =>
      obtain ⟨rfl, _, hr⟩ := isDrawChain_cons h
      refine List.nodup_cons.mpr ⟨?_, ih _ hr⟩
      intro hmem
      obtain ⟨pre, post, hsplit⟩ := List.append_of_mem hmem
      rw [hsplit] at hr
      have h2 := isDrawChain_suffix pre _ q post hr
      have h3 : isDrawChain H (some q) (q :: (pre ++ q :: post)) = true := by
        rw [← hsplit] at hr ⊢
        exact h
      have e := isDrawChain_unique _ _ _ h2 h3
      have := congrArg List.length e
      simp at this
      omega

theorem Emfout.BreakLines_cell_nextToDraw (E : CellEnv) (W : Int) (c : Cell) (cw : Int) :
    (Emfout.BreakLines_cell E W c cw).1.m_nextToDraw = c.m_nextToDraw := by
  unfold Emfout.BreakLines_cell
  split
  · simp only []
    split <;> rfl
  · rfl

/-- One turn of the loop of `BreakLines` on the heap, by `BreakLines_cell`. -/
theorem Emfout.BreakLines_body_spec (E : CellEnv) (W : Int) {H : Heap} {q : Nat} {c : Cell}
    (cw : Int) (hc : H[q]? = some c) :
    ∃ H1, Emfout.BreakLines_body E W H q cw = some (H1, (Emfout.BreakLines_cell E W c cw).2) ∧
      H1[q]? = some (Emfout.BreakLines_cell E W c cw).1 ∧
      (∀ q', q' ≠ q → H1[q']? = H[q']?) ∧ H1.length = H.length := by
  by_cases hb : c.m_isBrokenIntoLines = true
  · refine ⟨H, ?_, ?_, fun _ _ => rfl, rfl⟩
    · simp [Emfout.BreakLines_body, Emfout.BreakLines_cell, hc, hb]
    · simp [Emfout.BreakLines_cell, hb, hc]
  · have hb' : c.m_isBrokenIntoLines = false := by simpa using hb
    have h1 := Heap.update_of_get (MathCell.BreakLine false) hc
    have hc1 : (H.set q (MathCell.BreakLine false c))[q]? =
        some (MathCell.BreakLine false c) := by
      rw [Heap.get_update_self h1, hc]; rfl
    have h2 := Heap.update_of_get (MathCell.ResetData E) hc1
    have hc2 : ((H.set q (MathCell.BreakLine false c)).set q
        (MathCell.ResetData E (MathCell.BreakLine false c)))[q]? =
        some (MathCell.ResetData E (MathCell.BreakLine false c)) := by
      rw [Heap.get_update_self h2, hc1]; rfl
    have h3 := Heap.update_of_get (MathCell.BreakLine true) hc2
    have hne2 : ∀ q', q' ≠ q → ((H.set q (MathCell.BreakLine false c)).set q
        (MathCell.ResetData E (MathCell.BreakLine false c)))[q']? = H[q']? := by
      intro q' hq
      rw [Heap.get_update_ne h2 (Ne.symm hq), Heap.get_update_ne h1 (Ne.symm hq)]
    by_cases hd : (MathCell.BreakLineHere (MathCell.ResetData E (MathCell.BreakLine false c)) ||
        decide (cw + MathCell.GetWidth (MathCell.ResetData E (MathCell.BreakLine false c)) ≥
          W)) = true
    · refine ⟨((H.set q (MathCell.BreakLine false c)).set q
          (MathCell.ResetData E (MathCell.BreakLine false c))).set q
          (MathCell.BreakLine true (MathCell.ResetData E (MathCell.BreakLine false c))),
          ?_, ?_, ?_, ?_⟩
      · simp only [Emfout.BreakLines_body, hc, hb', Bool.not_false, if_true, h1,
          Option.some_bind, h2, hc2, hd, h3, Emfout.BreakLines_cell]
      · simp only [Emfout.BreakLines_cell, hb', Bool.not_false, if_true, hd]
        rw [Heap.get_update_self h3, hc2]; rfl
      · intro q' hq
        rw [Heap.get_update_ne h3 (Ne.symm hq)]
        exact hne2 q' hq
      · rw [Heap.update_length h3, Heap.update_length h2, Heap.update_length h1]
    · refine ⟨(H.set q (MathCell.BreakLine false c)).set q
          (MathCell.ResetData E (MathCell.BreakLine false c)), ?_, ?_, hne2, ?_⟩
      · simp only [Emfout.BreakLines_body, hc, hb', Bool.not_false, if_true, h1,
          Option.some_bind, h2, hc2, hd, Emfout.BreakLines_cell]
        rfl
      · simp only [Emfout.BreakLines_cell, hb', Bool.not_false, if_true, hd]
        exact hc2
      · rw [Heap.update_length h2, Heap.update_length h1]

/-- The loop of `BreakLines` returns on a draw order that ends, keeps the draw links and
leaves the cells of the draw order as `BreakLines_cells` says. -/
theorem Emfout.BreakLines_loop_spec (E : CellEnv) (W : Int) :
    ∀ (P : List Nat) (s : Option Nat) (fuel : Nat) (H : Heap) (cw : Int),
      isDrawChain H s P = true → P.Nodup → P.length ≤ fuel →
      ∃ H', Emfout.BreakLines_loop E W fuel H s cw = some H' ∧ H'.length = H.length ∧
        (∀ q, q ∉ P → H'[q]? = H[q]?) ∧
        (∀ q, H'.nextToDraw q = H.nextToDraw q) ∧
        P.map H'.cell = Emfout.BreakLines_cells E W cw (P.map H.cell) := by
  intro P
  induction P with
  | nil =>
    intro s fuel H cw hchain _ _
    have := isDrawChain_nil hchain
    subst this
    exact ⟨H, by cases fuel <;> rfl, rfl, fun _ _ => rfl, fun _ => rfl, rfl⟩
  | cons q rest ih =>
    intro s fuel H cw hchain hnd hfuel
    cases s with
    | none => simp [isDrawChain] at hchain
    | some q0 =>
      obtain ⟨rfl, hlt, hrest⟩ := isDrawChain_cons hchain
      cases fuel with
      | zero => simp at hfuel
      | succ fuel =>
        have hget := Heap.get_of_lt hlt
        obtain ⟨H1, hbody, hq1, hne1, hlen1⟩ := Emfout.BreakLines_body_spec E W cw hget
        have hntd1 : ∀ q', H1.nextToDraw q' = H.nextToDraw q' := by
          intro q'
          by_cases e : q' = q0
          · subst e
            simp [Heap.nextToDraw, hq1, hget, Emfout.BreakLines_cell_nextToDraw]
          · simp [Heap.nextToDraw, hne1 q' e]
        have hchain1 : isDrawChain H1
            (Emfout.BreakLines_cell E W (H.cell q0) cw).1.m_nextToDraw rest = true := by
          rw [isDrawChain_congr hlen1 hntd1, Emfout.BreakLines_cell_nextToDraw,
            ← Heap.nextToDraw_eq_cell H hlt]
          exact hrest
        obtain ⟨hq0, hnd'⟩ := List.nodup_cons.mp hnd
        obtain ⟨H', hloop, hlen', hne', hntd', hcells⟩ :=
          ih _ fuel H1 (Emfout.BreakLines_cell E W (H.cell q0) cw).2 hchain1 hnd'
            (by simpa using hfuel)
        refine ⟨H', ?_, by rw [hlen', hlen1], ?_, fun q' => by rw [hntd', hntd1], ?_⟩
        · simp only [Emfout.BreakLines_loop, hbody, hq1, hloop]
        · intro q' hq'
          have h1 : q' ≠ q0 := fun e => hq' (e ▸ List.mem_cons_self _ _)
          have h2 : q' ∉ rest := fun e => hq' (List.mem_cons_of_mem _ e)
          rw [hne' q' h2, hne1 q' h1]
        · have e1 : H'.cell q0 = (Emfout.BreakLines_cell E W (H.cell q0) cw).1 := by
            apply Heap.cell_of_get
            rw [hne' q0 hq0, hq1]
          have e2 : rest.map H1.cell = rest.map H.cell := by
            apply List.map_congr_left
            intro q' hq'
            have h1 : q' ≠ q0 := fun e => hq0 (e ▸ hq')
            simp [Heap.cell, hne1 q' h1]
          rw [List.map_cons, List.map_cons, e1, hcells, e2]
          rfl

/-- The width of a line of at least two cells. -/
theorem Emfout.lineWidth_cons_cons (gap : Int) (c d : Cell) (l : List Cell) :
    Emfout.lineWidth gap (c :: d :: l) = c.m_width + gap + Emfout.lineWidth gap (d :: l) := by
  simp [Emfout.lineWidth]

theorem Emfout.BreakLines_cell_unbroken (E : CellEnv) (W : Int) (c : Cell) (cw : Int) :
    (Emfout.BreakLines_cell E W c cw).1.m_isBrokenIntoLines = c.m_isBrokenIntoLines := by
  unfold Emfout.BreakLines_cell
  split
  · simp only []
    split <;> rfl
  · rfl

/-- The invariant behind the width bound, on the cell objects: after `BreakLines` went
over `cells` with the accumulator at `cw`, every line but the first is within the
bound, and so is the first if it begins at a marked cell; a first line that continues
the line before it fits behind the accumulator. -/
theorem Emfout.BreakLines_cells_bound (E : CellEnv) (W : Int) :
    ∀ (cells : List Cell) (cw : Int) (l : List Cell) (ls : List (List Cell)),
      Emfout.cellLines (Emfout.BreakLines_cells E W cw cells) = l :: ls →
      (∀ l' ∈ ls, Emfout.lineWidth E.MC_CELL_SKIP l' < W + E.MC_CELL_SKIP ∨ ∃ c, l' = [c]) ∧
      ∀ d l0, l = d :: l0 →
        (MathCell.BreakLineHere d = true →
          Emfout.lineWidth E.MC_CELL_SKIP l < W + E.MC_CELL_SKIP ∨ ∃ c, l = [c]) ∧
        (MathCell.BreakLineHere d = false → cw + Emfout.lineWidth E.MC_CELL_SKIP l < W) := by
  intro cells
  induction cells with
  | nil => intro cw l ls h; simp [Emfout.BreakLines_cells, Emfout.cellLines, splitLines] at h
  | cons c rest ih =>
    intro cw l ls h
    by_cases hb : c.m_isBrokenIntoLines = true
    · have e : Emfout.cellLines (Emfout.BreakLines_cells E W cw (c :: rest)) =
          Emfout.cellLines (Emfout.BreakLines_cells E W cw rest) := by
        simp [Emfout.BreakLines_cells, Emfout.cellLines, Emfout.BreakLines_cell, hb,
          List.filter_cons]
      rw [e] at h
      exact ih cw l ls h
    · have hb' : c.m_isBrokenIntoLines = false := by simpa using hb
      -- the cell after the turn and the condition of the turn
      obtain ⟨c', cw', hstep⟩ : ∃ c' cw', Emfout.BreakLines_cell E W c cw = (c', cw') :=
        ⟨_, _, rfl⟩
      have hub : c'.m_isBrokenIntoLines = false := by
        have := Emfout.BreakLines_cell_unbroken E W c cw
        rw [hstep] at this
        rw [this, hb']
      have hlines : Emfout.cellLines (Emfout.BreakLines_cells E W cw (c :: rest)) =
          splitLines MathCell.BreakLineHere
            (c' :: (Emfout.BreakLines_cells E W cw' rest).filter
              (fun c => !c.m_isBrokenIntoLines)) := by
        simp [Emfout.BreakLines_cells, Emfout.cellLines, hstep, List.filter_cons, hub]
      rw [hlines] at h
      have hfacts : (MathCell.BreakLineHere c' = true ∧ cw' = c'.m_width) ∨
          (MathCell.BreakLineHere c' = false ∧ cw + c'.m_width < W ∧
            cw' = cw + (c'.m_width + E.MC_CELL_SKIP)) := by
        unfold Emfout.BreakLines_cell at hstep
        simp only [hb', Bool.not_false, if_true] at hstep
        by_cases hd : (MathCell.BreakLineHere (MathCell.ResetData E (MathCell.BreakLine false c)) ||
            decide (cw + MathCell.GetWidth (MathCell.ResetData E (MathCell.BreakLine false c)) ≥
              W)) = true
        · simp only [hd, if_true, Prod.mk.injEq] at hstep
          obtain ⟨rfl, rfl⟩ := hstep
          left
          simp [MathCell.BreakLineHere, MathCell.BreakLine, MathCell.ResetData,
            MathCell.GetWidth]
        · simp only [hd, Bool.false_eq_true, if_false, Prod.mk.injEq] at hstep
          obtain ⟨rfl, rfl⟩ := hstep
          right
          simp only [Bool.or_eq_true, decide_eq_true_eq, not_or, not_le] at hd
          refine ⟨by simpa using hd.1, ?_, rfl⟩
          simpa [MathCell.GetWidth, MathCell.ResetData, MathCell.BreakLine] using hd.2
      -- the lines of the rest
      unfold splitLines at h
      cases hr : splitLines MathCell.BreakLineHere
          ((Emfout.BreakLines_cells E W cw' rest).filter (fun c => !c.m_isBrokenIntoLines)) with
      | nil =>
        simp only [hr] at h
        obtain ⟨rfl, rfl⟩ := List.cons.inj h
        refine ⟨by simp, ?_⟩
        intro d l0 hd
        obtain ⟨rfl, rfl⟩ := List.cons.inj hd
        refine ⟨fun _ => Or.inr ⟨_, rfl⟩, ?_⟩
        intro hm
        rcases hfacts with ⟨hm', _⟩ | ⟨_, hlt, _⟩
        · rw [hm] at hm'; cases hm'
        · simpa [Emfout.lineWidth] using hlt
      | cons l1 ls1 =>
        obtain ⟨d1, l1', rest1, rfl, _⟩ := splitLines_head _ _ l1 ls1 hr
        obtain ⟨ihls, ihl⟩ := ih cw' (d1 :: l1') ls1 hr
        obtain ⟨ihm, ihu⟩ := ihl d1 l1' rfl
        simp only [hr] at h
        by_cases hs : MathCell.BreakLineHere d1 = true
        · simp only [hs, if_true] at h
          obtain ⟨rfl, rfl⟩ := List.cons.inj h
          refine ⟨?_, ?_⟩
          · intro l' hl'
            rcases List.mem_cons.mp hl' with rfl | hl'
            · exact ihm hs
            · exact ihls l' hl'
          · intro d l0 hd
            obtain ⟨rfl, rfl⟩ := List.cons.inj hd
            refine ⟨fun _ => Or.inr ⟨_, rfl⟩, ?_⟩
            intro hm
            rcases hfacts with ⟨hm', _⟩ | ⟨_, hlt, _⟩
            · rw [hm] at hm'; cases hm'
            · simpa [Emfout.lineWidth] using hlt
        · have hs' : MathCell.BreakLineHere d1 = false := by simpa using hs
          simp only [hs, if_false] at h
          obtain ⟨rfl, rfl⟩ := List.cons.inj h
          refine ⟨ihls, ?_⟩
          intro d l0 hd
          obtain ⟨rfl, rfl⟩ := List.cons.inj hd
          have hu := ihu hs'
          rw [Emfout.lineWidth_cons_cons]
          constructor
          · intro hm
            rcases hfacts with ⟨_, hcw⟩ | ⟨hm', _, _⟩
            · left
              rw [hcw] at hu
              omega
            · rw [hm] at hm'; cases hm'
          · intro hm
            rcases hfacts with ⟨hm', _⟩ | ⟨_, _, hcw⟩
            · rw [hm] at hm'; cases hm'
            · rw [hcw] at hu
              omega

/-- Lines commute with reading the cell objects of the pointers. -/
theorem splitLines_map {α β : Type} (f : α → β) (starts : β → Bool) :
    ∀ U : List α, (splitLines (fun a => starts (f a)) U).map (List.map f) =
      splitLines starts (U.map f) := by
  intro U
  induction U with
  | nil => rfl
  | cons a rest ih =>
    rw [List.map_cons, splitLines, splitLines, ← ih]
    cases hr : splitLines (fun a => starts (f a)) rest with
    | nil => simp
    | cons l ls =>
      cases l with
      | nil => simp
      | cons d l' =>
        by_cases hs : starts (f d) = true
        · simp [hs]
        · simp [hs]

theorem Emfout.lines_map_cell (H : Heap) (P : List Nat) :
    (Emfout.lines H P).map (List.map H.cell) = Emfout.cellLines (P.map H.cell) := by
  unfold Emfout.lines Emfout.cellLines Emfout.unbrokenCells
  rw [splitLines_map H.cell MathCell.BreakLineHere, List.filter_map]
  rfl

/-- C11, as the code has it.  On a draw order `P` that ends and for a non-negative
inter-cell gap `MC_CELL_SKIP`, `Emfout::BreakLines` with target width `W` returns and
keeps the draw order, and afterwards every line has the sum of the widths of its cells
plus the gaps between them less than `W + MC_CELL_SKIP`, except for lines that consist
of a single cell.  When the gap is 0, every line is at most `W` wide, except for lines
that consist of a single cell wider than `W`. -/
theorem Emfout.BreakLines_width_bound (E : CellEnv) (W : Int) (fuel : Nat) (H : Heap)
    (m_tree : Option Nat) (P : List Nat)
    (hchain : isDrawChain H m_tree P = true) (hfuel : P.length ≤ fuel)
    (hgap : 0 ≤ E.MC_CELL_SKIP) :
    ∃ H', Emfout.BreakLines E W fuel H m_tree = some H' ∧ isDrawChain H' m_tree P = true ∧
      ∀ line ∈ Emfout.lines H' P,
        (Emfout.lineWidth E.MC_CELL_SKIP (line.map H'.cell) < W + E.MC_CELL_SKIP ∨
          ∃ q, line = [q]) ∧
        (E.MC_CELL_SKIP = 0 →
          Emfout.lineWidth 0 (line.map H'.cell) ≤ W ∨
            ∃ q, line = [q] ∧ W < (H'.cell q).m_width) := by
  obtain ⟨H', hloop, hlen, _, hntd, hcells⟩ :=
    Emfout.BreakLines_loop_spec E W P m_tree fuel H 0 hchain (isDrawChain_nodup P _ hchain) hfuel
  refine ⟨H', hloop, ?_, ?_⟩
  · rw [isDrawChain_congr hlen hntd]; exact hchain
  · have hmain : ∀ line ∈ Emfout.lines H' P,
        Emfout.lineWidth E.MC_CELL_SKIP (line.map H'.cell) < W + E.MC_CELL_SKIP ∨
          ∃ q, line = [q] := by
      intro line hline
      have hmem : line.map H'.cell ∈ Emfout.cellLines (P.map H'.cell) := by
        rw [← Emfout.lines_map_cell]
        exact List.mem_map_of_mem _ hline
      rw [hcells] at hmem
      cases hcl : Emfout.cellLines (Emfout.BreakLines_cells E W 0 (P.map H.cell)) with
      | nil => rw [hcl] at hmem; cases hmem
      | cons l ls =>
        rw [hcl] at hmem
        obtain ⟨hls, hl⟩ := Emfout.BreakLines_cells_bound E W _ 0 l ls hcl
        have hgood : Emfout.lineWidth E.MC_CELL_SKIP (line.map H'.cell) < W + E.MC_CELL_SKIP ∨
            ∃ c, line.map H'.cell = [c] := by
          rcases List.mem_cons.mp hmem with e | hin
          · rw [e]
            obtain ⟨d, l0, _, hd, _⟩ := splitLines_head _ _ l ls hcl
            obtain ⟨hm, hu⟩ := hl d l0 hd
            cases hs : MathCell.BreakLineHere d with
            | true => exact hm hs
            | false =>
              left
              have := hu hs
              omega
          · exact hls _ hin
        rcases hgood with h | ⟨c, hc⟩
        · exact Or.inl h
        · right
          cases line with
          | nil => simp at hc
          | cons q line' =>
            cases line' with
            | nil => exact ⟨q, rfl⟩
            | cons q' line'' => simp at hc
    intro line hline
    refine ⟨hmain line hline, ?_⟩
    intro h0
    rcases hmain line hline with h | ⟨q, rfl⟩
    · left
      rw [h0] at h
      omega
    · by_cases hw : W < (H'.cell q).m_width
      · exact Or.inr ⟨q, rfl, hw⟩
      · left
        simp only [List.map_cons, List.map_nil, Emfout.lineWidth]
        omega

/-- The theorem `Emfout.BreakLines_width_bound` on the draw order of `demoLine` with
target width 500 and gap 0: the two cells of widths 200 and 300 end on two lines. -/
theorem Emfout.BreakLines_width_bound_witness :
    ∃ H', Emfout.BreakLines demoEnv 500 2 demoLine (some 0) = some H' ∧
      ∀ line ∈ Emfout.lines H' [0, 1],
        Emfout.lineWidth 0 (line.map H'.cell) ≤ 500 ∨
          ∃ q, line = [q] ∧ 500 < (H'.cell q).m_width := by
  obtain ⟨H', h1, _, h3⟩ := Emfout.BreakLines_width_bound demoEnv 500 2 demoLine (some 0)
    [0, 1] (by decide) (by decide) (by decide)
  exact ⟨H', h1, fun line hline => (h3 line hline).2 rfl⟩

/-- C11, as stated, fails.  With the gap 10 and the target width 500, the draw order of
`demoGap` (widths 300, 300, 195) is broken into the lines `a` and `b c`: `b` begins a
line with 300 in the accumulator, `c` is appended because 300 + 195 is less than 500,
and the line `b c` is 300 + 10 + 195 = 505 wide, more than 500, although it has two
cells. -/
theorem Emfout.BreakLines_gap_overflows :
    Emfout.BreakLines demoGapEnv 500 3 demoGap (some 0) = some demoGapBroken ∧
      Emfout.lines demoGapBroken [0, 1, 2] = [[0], [1, 2]] ∧
      Emfout.lineWidth demoGapEnv.MC_CELL_SKIP ([1, 2].map demoGapBroken.cell) = 505 ∧
      (0 : Int) ≤ demoGapEnv.MC_CELL_SKIP := by
  decide

/-! ## The completions start with the typed text -/

theorem AutoComplete.CompleteSymbol_words_mem (typed : String) :
    ∀ (words completions : List String) (s : String),
      s ∈ AutoComplete.CompleteSymbol_words typed words completions →
      s ∈ completions ∨ wxString.StartsWith s typed = true := by
  intro words
  induction words with
  | nil => intro completions s h; exact Or.inl h
  | cons w rest ih =>
    intro completions s h
    simp only [AutoComplete.CompleteSymbol_words, List.foldl_cons] at h
    by_cases hw : (wxString.StartsWith w typed && !completions.contains w) = true
    · simp only [hw, if_true] at h
      rcases ih _ s h with h1 | h1
      · rcases List.mem_append.mp h1 with h2 | h2
        · exact Or.inl h2
        · right
          have : s = w := by simpa using h2
          rw [this]
          simp only [Bool.and_eq_true] at hw
          exact hw.1
      · exact Or.inr h1
    · simp only [hw, Bool.false_eq_true, if_false] at h
      exact ih _ s h

theorem AutoComplete.CompleteSymbol_templates_mem (typed : String) (words : List String) :
    (∀ s ∈ (AutoComplete.CompleteSymbol_templates typed words).1,
      wxString.StartsWith s typed = true) ∧
    (∀ s ∈ (AutoComplete.CompleteSymbol_templates typed words).2,
      wxString.StartsWith s typed = true) := by
  unfold AutoComplete.CompleteSymbol_templates
  have key : ∀ (ws : List String) (acc : List String × List String),
      (∀ s ∈ acc.1, wxString.StartsWith s typed = true) →
      (∀ s ∈ acc.2, wxString.StartsWith s typed = true) →
      (∀ s ∈ (ws.foldl (fun (acc : List String × List String) templ =>
          if wxString.StartsWith templ typed then
            let completions :=
              if !acc.1.contains templ then acc.1 ++ [templ] else acc.1
            let perfectCompletions :=
              if wxString.SubString templ 0 (wxString.Find templ '(' - 1) == typed &&
                  !acc.2.contains templ then acc.2 ++ [templ] else acc.2
            (completions, perfectCompletions)
          else acc) acc).1, wxString.StartsWith s typed = true) ∧
      (∀ s ∈ (ws.foldl (fun (acc : List String × List String) templ =>
          if wxString.StartsWith templ typed then
            let completions :=
              if !acc.1.contains templ then acc.1 ++ [templ] else acc.1
            let perfectCompletions :=
              if wxString.SubString templ 0 (wxString.Find templ '(' - 1) == typed &&
                  !acc.2.contains templ then acc.2 ++ [templ] else acc.2
            (completions, perfectCompletions)
          else acc) acc).2, wxString.StartsWith s typed = true) := by
    intro ws
    induction ws with
    | nil => intro acc h1 h2; exact ⟨h1, h2⟩
    | cons w rest ih =>
      intro acc h1 h2
      simp only [List.foldl_cons]
      apply ih
      · by_cases hw : wxString.StartsWith w typed = true
        · simp only [hw, if_true]
          intro s hs
          split at hs
          · rcases List.mem_append.mp hs with h | h
            · exact h1 s h
            · have : s = w := by simpa using h
              rw [this]; exact hw
          · exact h1 s hs
        · simp only [hw, Bool.false_eq_true, if_false]
          exact h1
      · by_cases hw : wxString.StartsWith w typed = true
        · simp only [hw, if_true]
          intro s hs
          split at hs
          · rcases List.mem_append.mp hs with h | h
            · exact h2 s h
            · have : s = w := by simpa using h
              rw [this]; exact hw
          · exact h2 s hs
        · simp only [hw, Bool.false_eq_true, if_false]
          exact h2
  exact key words ([], []) (fun _ h => by cases h) (fun _ h => by cases h)

/-- C17, as the code has it.  Every string that `CompleteSymbol` returns starts with the
text that it matches against: the typed text, without its final double quote when the
type is `demofile` or `loadfile` and the typed text ends in one.  So for the other
types, and for a typed text that does not end in a double quote, every completion
starts with the typed text itself. -/
theorem AutoComplete.CompleteSymbol_startsWith (A : AutoComplete) (typed : String)
    (type : autoCompletionType) (s : String) (hs : s ∈ A.CompleteSymbol typed type) :
    wxString.StartsWith s (AutoComplete.CompleteSymbol_typed typed type) = true ∧
    (((type ≠ autoCompletionType.demofile ∧ type ≠ autoCompletionType.loadfile) ∨
        wxString.EndsWith typed "\"" = false) → wxString.StartsWith s typed = true) := by
  have main : wxString.StartsWith s (AutoComplete.CompleteSymbol_typed typed type) = true := by
    have hr : ∀ r : List String × List String,
        r = (if (type != autoCompletionType.tmplte) = true then
            ((AutoComplete.CompleteSymbol_words (AutoComplete.CompleteSymbol_typed typed type)
              (A.m_wordList type) [], []) : List String × List String)
          else AutoComplete.CompleteSymbol_templates
            (AutoComplete.CompleteSymbol_typed typed type) (A.m_wordList type)) →
        (∀ x ∈ r.1,
          wxString.StartsWith x (AutoComplete.CompleteSymbol_typed typed type) = true) ∧
        (∀ x ∈ r.2,
          wxString.StartsWith x (AutoComplete.CompleteSymbol_typed typed type) = true) := by
      intro r hr
      by_cases ht : (type != autoCompletionType.tmplte) = true
      · rw [if_pos ht] at hr
        subst hr
        refine ⟨?_, fun x hx => by cases hx⟩
        intro x hx
        rcases AutoComplete.CompleteSymbol_words_mem _ _ _ x hx with h | h
        · cases h
        · exact h
      · rw [if_neg ht] at hr
        subst hr
        exact AutoComplete.CompleteSymbol_templates_mem _ _
    obtain ⟨r, hrdef⟩ : ∃ r : List String × List String,
        r = (if (type != autoCompletionType.tmplte) = true then
            ((AutoComplete.CompleteSymbol_words (AutoComplete.CompleteSymbol_typed typed type)
              (A.m_wordList type) [], []) : List String × List String)
          else AutoComplete.CompleteSymbol_templates
            (AutoComplete.CompleteSymbol_typed typed type) (A.m_wordList type)) := ⟨_, rfl⟩
    obtain ⟨hr1, hr2⟩ := hr r hrdef
    have hs2 : s ∈ (if r.2.length > 0 then r.2 else
        (if (type == autoCompletionType.command) = true then
          AutoComplete.CompleteSymbol_words (AutoComplete.CompleteSymbol_typed typed type)
            A.m_worksheetWords r.1
        else r.1).insertionSort (fun a b => wxString.le a b)) := by
      rw [hrdef]
      exact hs
    by_cases hlen : r.2.length > 0
    · rw [if_pos hlen] at hs2
      exact hr2 s hs2
    · rw [if_neg hlen] at hs2
      have hs3 := (List.perm_insertionSort _ _).mem_iff.mp hs2
      by_cases hc : (type == autoCompletionType.command) = true
      · rw [if_pos hc] at hs3
        rcases AutoComplete.CompleteSymbol_words_mem _ _ _ s hs3 with h | h
        · exact hr1 s h
        · exact h
      · rw [if_neg hc] at hs3
        exact hr1 s hs3
  refine ⟨main, ?_⟩
  intro hcond
  have e : AutoComplete.CompleteSymbol_typed typed type = typed := by
    unfold AutoComplete.CompleteSymbol_typed
    rcases hcond with ⟨h1, h2⟩ | h
    · simp [h1, h2]
    · simp [h]
  rw [e] at main
  exact main

/-- The theorem `AutoComplete.CompleteSymbol_startsWith` at the completion `sine` of the
typed text `si` among the commands and worksheet words of `demoAutoComplete`. -/
theorem AutoComplete.CompleteSymbol_startsWith_witness :
    demoAutoComplete.CompleteSymbol "si" autoCompletionType.command = ["sin", "sine", "sinh"] ∧
      wxString.StartsWith "sine" "si" = true :=
  ⟨by decide, (AutoComplete.CompleteSymbol_startsWith demoAutoComplete "si"
    autoCompletionType.command "sine" (by decide)).2 (Or.inl ⟨by decide, by decide⟩)⟩

/-- C17, as stated, fails.  For the type `loadfile` and the typed text `foo"`,
`CompleteSymbol` drops the double quote and returns the load file `foobar`, which does
not start with `foo"`. -/
theorem AutoComplete.CompleteSymbol_drops_quote :
    demoAutoComplete.CompleteSymbol "foo\"" autoCompletionType.loadfile = ["foobar"] ∧
      wxString.StartsWith "foobar" "foo\"" = false := by
  decide


/-! ## An `AbsCell` without inner list -/

/-- A chain of statements that ends in a failure fails. -/
theorem Option.bind_fails {α β : Type} (x : Option α) : x.bind (fun _ => (none : Option β)) = none := by
  cases x <;> rfl

/-- C13, as the code has it.  For an `AbsCell` whose `m_innerCell` is null (`SetInner`
was never called, or was called with `NULL`, which leaves the heap as it was), only
the methods that do not reach the inner list go through: `GetInnerCells` lists the open
and the close cell alone, the text exports of a cell that is broken into lines return
the empty string, the recalculations of a cell that needs none hand the heap back, and
`BreakUp` on a cell that is broken returns false.  Everywhere else the null
`m_innerCell` is dereferenced: `ToMathML`, `ToOMML` and `ToXML` fail, and on a cell
that is not broken into lines so do `ToString`, `ToTeX`, `ToMatlab`, `BreakUp` and, when
the cell needs recalculation, `RecalculateWidths` and `RecalculateHeight`. -/
theorem AbsCell.missing_inner (E : CellEnv) (fontsize : Int) (fuel : Nat) (H : Heap) (p : Nat)
    (c : Cell) (hp : H[p]? = some c) (hi : c.m_innerCell = none) :
    AbsCell.SetInner fuel H p none = some H ∧
    AbsCell.GetInnerCells H p = some (c.m_open.toList ++ c.m_close.toList) ∧
    AbsCell.ToMathML E H p = none ∧ AbsCell.ToOMML E H p = none ∧
    AbsCell.ToXML E H p = none ∧
    (c.m_isBrokenIntoLines = true →
      AbsCell.ToString E H p = some ("", H) ∧ AbsCell.ToTeX E H p = some ("", H) ∧
      AbsCell.ToMatlab E H p = some ("", H) ∧ AbsCell.BreakUp E H p = some (false, H)) ∧
    (E.NeedsRecalculation H p = false →
      AbsCell.RecalculateWidths E fontsize H p = some H ∧
      AbsCell.RecalculateHeight E fontsize H p = some H) ∧
    (c.m_isBrokenIntoLines = false →
      AbsCell.ToString E H p = none ∧ AbsCell.ToTeX E H p = none ∧
      AbsCell.ToMatlab E H p = none ∧ AbsCell.BreakUp E H p = none ∧
      (E.NeedsRecalculation H p = true →
        AbsCell.RecalculateWidths E fontsize H p = none ∧
        AbsCell.RecalculateHeight E fontsize H p = none)) := by
  have hlt : p < H.length := by
    rcases Nat.lt_or_ge p H.length with h | h
    · exact h
    · rw [List.getElem?_eq_none h] at hp
      cases hp
  refine ⟨by simp [AbsCell.SetInner, hlt], ?_, by simp [AbsCell.ToMathML, hp, hi],
    by simp [AbsCell.ToOMML, hp, hi], by simp [AbsCell.ToXML, hp, hi], ?_, ?_, ?_⟩
  · unfold AbsCell.GetInnerCells
    rw [hp]
    cases h2 : c.m_open <;> cases h3 : c.m_close <;> simp [hi, h2, h3]
  · intro hb
    simp [AbsCell.ToString, AbsCell.ToTeX, AbsCell.ToMatlab, AbsCell.BreakUp, hp, hb]
  · intro hn
    simp [AbsCell.RecalculateWidths, AbsCell.RecalculateHeight, hp, hn]
  · intro hb
    refine ⟨by simp [AbsCell.ToString, hp, hi, hb], by simp [AbsCell.ToTeX, hp, hi, hb],
      by simp [AbsCell.ToMatlab, hp, hi, hb], ?_, ?_⟩
    · simp only [AbsCell.BreakUp, hp, hb, hi, Bool.not_false, if_true, Option.none_bind,
        Option.bind_fails]
    · intro hn
      constructor
      · simp [AbsCell.RecalculateWidths, AbsCell.RecalculateWidths_unbroken, hp, hn, hb, hi]
      · obtain ⟨d, hd, hbd, hid⟩ : ∃ d : Cell,
            d = { c with base := E.Cell_RecalculateHeight fontsize c.base } ∧
            d.m_isBrokenIntoLines = false ∧ d.m_innerCell = none := ⟨_, rfl, hb, hi⟩
        have hA : H.update p
            (fun x => { x with base := E.Cell_RecalculateHeight fontsize x.base }) =
            some (H.set p d) := by
          rw [hd]
          exact Heap.update_of_get _ hp
        have hg : (H.set p d)[p]? = some d := List.getElem?_set_self hlt
        unfold AbsCell.RecalculateHeight
        simp only [hp, hn, Bool.not_true, Bool.false_eq_true, if_false, hA, Option.some_bind,
          hg, hbd, Bool.not_false, if_true]
        unfold AbsCell.RecalculateHeight_unbroken
        simp only [hg, Option.some_bind, hid, Option.none_bind]

/-- The theorem `AbsCell.missing_inner` at the freshly constructed `AbsCell` of
`demoFresh`: `GetInnerCells` lists the open cell 1 and the close cell 2. -/
theorem AbsCell.missing_inner_witness :
    AbsCell.GetInnerCells demoFresh.1 3 = some [1, 2] :=
  (AbsCell.missing_inner demoEnv 12 1 demoFresh.1 3 _ rfl (by decide)).2.1

/-- C13, as stated, fails.  On the freshly constructed `AbsCell` of `demoFresh`, on
which `SetInner` was never called, a `SetInner` with `NULL` changes nothing, and then
each of the six exports and `BreakUp` dereferences the null `m_innerCell`, and so do
`RecalculateWidths` and `RecalculateHeight` when the cell needs recalculation: none of
them completes, and `ToString` does not return `abs()`. -/
theorem AbsCell.missing_inner_not_tolerated :
    AbsCell.SetInner 1 demoFresh.1 3 none = some demoFresh.1 ∧
      AbsCell.ToString demoEnv demoFresh.1 3 = none ∧
      AbsCell.ToTeX demoEnv demoFresh.1 3 = none ∧
      AbsCell.ToMatlab demoEnv demoFresh.1 3 = none ∧
      AbsCell.ToMathML demoEnv demoFresh.1 3 = none ∧
      AbsCell.ToOMML demoEnv demoFresh.1 3 = none ∧
      AbsCell.ToXML demoEnv demoFresh.1 3 = none ∧
      AbsCell.BreakUp demoEnv demoFresh.1 3 = none ∧
      demoDirtyEnv.NeedsRecalculation demoFresh.1 3 = true ∧
      AbsCell.RecalculateWidths demoDirtyEnv 12 demoFresh.1 3 = none ∧
      AbsCell.RecalculateHeight demoDirtyEnv 12 demoFresh.1 3 = none := by
  decide

/-! ## `Emfout::BreakUpCells` -/

/-- A cell that is not wider than the target is left alone. -/
theorem Emfout.BreakUpCells_body_small (E : CellEnv) (W fontsize mfontsize : Int) {H : Heap}
    {tmp : Nat} {c : Cell} (hc : H[tmp]? = some c) (hw : c.m_width ≤ W) :
    Emfout.BreakUpCells_body E W fontsize mfontsize H tmp = some (H, []) := by
  simp [Emfout.BreakUpCells_body, hc, MathCell.GetWidth, not_lt.mpr hw]

/-- The write to the last inner cell keeps the number of cells. -/
theorem AbsCell.BreakUp_linkLast_length {c : Cell} {H H' : Heap}
    (h : AbsCell.BreakUp_linkLast c H = some H') : H'.length = H.length := by
  unfold AbsCell.BreakUp_linkLast at h
  cases hl : c.m_last with
  | none => simp [hl] at h; subst h; rfl
  | some l =>
    simp only [hl] at h
    exact Heap.update_length h

/-- A successful `BreakUp` keeps the number of cells. -/
theorem AbsCell.BreakUp_length {E : CellEnv} {H H' : Heap} {p : Nat} {r : Bool}
    (h : AbsCell.BreakUp E H p = some (r, H')) : H'.length = H.length := by
  cases hp : H[p]? with
  | none => simp [AbsCell.BreakUp, hp] at h
  | some c =>
    by_cases hb : c.m_isBrokenIntoLines = true
    · simp [AbsCell.BreakUp, hp, hb] at h
      rw [h.2]
    · have hb' : c.m_isBrokenIntoLines = false := by simpa using hb
      obtain ⟨_, H1, o, H2, H3, cl, self, H4, H5, H6, i, H7, h1, _, h2, h3, _, _, h4, h5,
        h6, _, h7, h8⟩ := AbsCell.BreakUp_true_steps hp hb' h
      rw [Heap.update_length h8, Heap.update_length h7, Heap.update_length h6,
        Heap.update_length h5, Heap.update_length h4, AbsCell.BreakUp_linkLast_length h3,
        Heap.update_length h2, Heap.update_length h1]

/-- A successful `BreakUp` of an unbroken cell writes, in the other cells, the draw
link only. -/
theorem AbsCell.BreakUp_frame {E : CellEnv} {H1 H2 : Heap} {p : Nat} {c1 : Cell} {r : Bool}
    (hp : H1[p]? = some c1) (hb : c1.m_isBrokenIntoLines = false)
    (h : AbsCell.BreakUp E H1 p = some (r, H2)) {q : Nat} (hq : q ≠ p) {x : Cell}
    (hx : H1[q]? = some x) :
    ∃ y, H2[q]? = some y ∧ y.withoutDrawLink = x.withoutDrawLink := by
  obtain ⟨_, Ha, o, Hb, Hc, cl, self, Hd, He, Hf, i, Hg, h1, _, h2, h3, _, _, h4, h5,
    h6, _, h7, h8⟩ := AbsCell.BreakUp_true_steps hp hb h
  have hpq : p ≠ q := Ne.symm hq
  have e1 : ∃ y, Ha[q]? = some y ∧ y.withoutDrawLink = x.withoutDrawLink :=
    ⟨x, by rw [Heap.get_update_ne h1 hpq, hx], rfl⟩
  have e2 := Heap.update_keeps (fun y => y.withoutDrawLink = x.withoutDrawLink) h2
    (fun _ hy => hy) e1
  have e3 := AbsCell.BreakUp_linkLast_keeps (fun y => y.withoutDrawLink = x.withoutDrawLink)
    (fun _ _ hy => hy) h3 e2
  have e4 := Heap.update_keeps (fun y => y.withoutDrawLink = x.withoutDrawLink) h4
    (fun _ hy => hy) e3
  obtain ⟨y, hy, hP⟩ := e4
  refine ⟨y, ?_, hP⟩
  rw [Heap.get_update_ne h8 hpq, Heap.get_update_ne h7 hpq, Heap.get_update_ne h6 hpq,
    Heap.get_update_ne h5 hpq, hy]

/-- A successful `BreakUp` keeps the class of every cell. -/
theorem AbsCell.BreakUp_kind {E : CellEnv} {H1 H2 : Heap} {p : Nat} {r : Bool}
    (h : AbsCell.BreakUp E H1 p = some (r, H2)) {q : Nat} {x : Cell}
    (hx : H1[q]? = some x) : ∃ y, H2[q]? = some y ∧ y.kind = x.kind := by
  cases hp : H1[p]? with
  | none => simp [AbsCell.BreakUp, hp] at h
  | some c =>
    by_cases hb : c.m_isBrokenIntoLines = true
    · simp [AbsCell.BreakUp, hp, hb] at h
      rw [← h.2]
      exact ⟨x, hx, rfl⟩
    · have hb' : c.m_isBrokenIntoLines = false := by simpa using hb
      obtain ⟨_, Ha, o, Hb, Hc, cl, self, Hd, He, Hf, i, Hg, h1, _, h2, h3, _, _, h4, h5,
        h6, _, h7, h8⟩ := AbsCell.BreakUp_true_steps hp hb' h
      have e0 : ∃ y, H1[q]? = some y ∧ y.kind = x.kind := ⟨x, hx, rfl⟩
      have e1 := Heap.update_keeps (fun y => y.kind = x.kind) h1 (fun _ hy => hy) e0
      have e2 := Heap.update_keeps (fun y => y.kind = x.kind) h2 (fun _ hy => hy) e1
      have e3 := AbsCell.BreakUp_linkLast_keeps (fun y => y.kind = x.kind)
        (fun _ _ hy => hy) h3 e2
      have e4 := Heap.update_keeps (fun y => y.kind = x.kind) h4 (fun _ hy => hy) e3
      have e5 := Heap.update_keeps (fun y => y.kind = x.kind) h5 (fun _ hy => hy) e4
      have e6 := Heap.update_keeps (fun y => y.kind = x.kind) h6 (fun _ hy => hy) e5
      have e7 := Heap.update_keeps (fun y => y.kind = x.kind) h7 (fun _ hy => hy) e6
      exact Heap.update_keeps (fun y => y.kind = x.kind) h8 (fun _ hy => hy) e7

/-- On a cell that is broken into lines `RecalculateWidths` returns; it writes the cell
itself only, and neither its class, its flag nor its draw link. -/
theorem AbsCell.RecalculateWidths_of_broken (E : CellEnv) (fontsize : Int) {H : Heap} {p : Nat}
    {c : Cell} (hp : H[p]? = some c) (hb : c.m_isBrokenIntoLines = true) :
    ∃ H' c', AbsCell.RecalculateWidths E fontsize H p = some H' ∧ H'[p]? = some c' ∧
      c'.m_isBrokenIntoLines = true ∧ c'.m_nextToDraw = c.m_nextToDraw ∧ c'.kind = c.kind ∧
      H'.length = H.length ∧ ∀ q, q ≠ p → H'[q]? = H[q]? := by
  have hlt : p < H.length := by
    rcases Nat.lt_or_ge p H.length with h | h
    · exact h
    · rw [List.getElem?_eq_none h] at hp
      cases hp
  by_cases hn : E.NeedsRecalculation H p = true
  · obtain ⟨d, hd, hbd, hnd, hkd⟩ : ∃ d : Cell, d = { c with m_width := 0, m_height := 0 } ∧
        d.m_isBrokenIntoLines = true ∧ d.m_nextToDraw = c.m_nextToDraw ∧ d.kind = c.kind :=
      ⟨_, rfl, hb, rfl, rfl⟩
    have hA : H.update p (fun x => { x with m_width := 0, m_height := 0 }) =
        some (H.set p d) := by
      rw [hd]
      exact Heap.update_of_get _ hp
    have hg : (H.set p d)[p]? = some d := List.getElem?_set_self hlt
    have hB := Heap.update_of_get
      (fun x => { x with base := E.Cell_RecalculateWidths fontsize x.base }) hg
    refine ⟨(H.set p d).set p { d with base := E.Cell_RecalculateWidths fontsize d.base },
      { d with base := E.Cell_RecalculateWidths fontsize d.base }, ?_, ?_, hbd, hnd,
      hkd, ?_, ?_⟩
    · unfold AbsCell.RecalculateWidths
      simp only [hp, hn, Bool.not_true, Bool.false_eq_true, if_false, hb, if_true, hA,
        Option.some_bind]
      exact hB
    · rw [List.getElem?_set_self (by simpa using hlt)]
    · simp
    · intro q hq
      rw [List.getElem?_set_ne (Ne.symm hq), List.getElem?_set_ne (Ne.symm hq)]
  · have hn' : E.NeedsRecalculation H p = false := by simpa using hn
    refine ⟨H, c, ?_, hp, hb, rfl, rfl, rfl, fun _ _ => rfl⟩
    simp [AbsCell.RecalculateWidths, hp, hn']

/-- On a cell that is broken into lines `RecalculateHeight` returns; it writes the cell
itself only, and neither its class, its flag nor its draw link. -/
theorem AbsCell.RecalculateHeight_of_broken (E : CellEnv) (fontsize : Int) {H : Heap} {p : Nat}
    {c : Cell} (hp : H[p]? = some c) (hb : c.m_isBrokenIntoLines = true) :
    ∃ H' c', AbsCell.RecalculateHeight E fontsize H p = some H' ∧ H'[p]? = some c' ∧
      c'.m_isBrokenIntoLines = true ∧ c'.m_nextToDraw = c.m_nextToDraw ∧ c'.kind = c.kind ∧
      H'.length = H.length ∧ ∀ q, q ≠ p → H'[q]? = H[q]? := by
  have hlt : p < H.length := by
    rcases Nat.lt_or_ge p H.length with h | h
    · exact h
    · rw [List.getElem?_eq_none h] at hp
      cases hp
  by_cases hn : E.NeedsRecalculation H p = true
  · obtain ⟨d, hd, hbd, hnd, hkd⟩ : ∃ d : Cell,
        d = { c with base := E.Cell_RecalculateHeight fontsize c.base } ∧
        d.m_isBrokenIntoLines = true ∧ d.m_nextToDraw = c.m_nextToDraw ∧ d.kind = c.kind :=
      ⟨_, rfl, hb, rfl, rfl⟩
    have hA : H.update p
        (fun x => { x with base := E.Cell_RecalculateHeight fontsize x.base }) =
        some (H.set p d) := by
      rw [hd]
      exact Heap.update_of_get _ hp
    have hg : (H.set p d)[p]? = some d := List.getElem?_set_self hlt
    refine ⟨H.set p d, d, ?_, hg, hbd, hnd, hkd, by simp, ?_⟩
    · unfold AbsCell.RecalculateHeight
      simp only [hp, hn, Bool.not_true, Bool.false_eq_true, if_false, hA, Option.some_bind,
        hg, hbd]
    · intro q hq
      rw [List.getElem?_set_ne (Ne.symm hq)]
  · have hn' : E.NeedsRecalculation H p = false := by simpa using hn
    refine ⟨H, c, ?_, hp, hb, rfl, rfl, rfl, fun _ _ => rfl⟩
    simp [AbsCell.RecalculateHeight, hp, hn']

/-- Heaps that agree outside `p` and on the draw link of `p` have the same draw links. -/
theorem Heap.nextToDraw_of_frame {H H' : Heap} {p : Nat} {c c' : Cell}
    (hp : H[p]? = some c) (hp' : H'[p]? = some c') (hn : c'.m_nextToDraw = c.m_nextToDraw)
    (hf : ∀ q, q ≠ p → H'[q]? = H[q]?) (q : Nat) : H'.nextToDraw q = H.nextToDraw q := by
  by_cases e : q = p
  · subst e
    simp [Heap.nextToDraw, hp, hp', hn]
  · simp [Heap.nextToDraw, hf q e]

/-- What `AbsCell.hasInner` says, fact by fact. -/
theorem AbsCell.hasInner_spec {H : Heap} {p o cl i : Nat} {I : List Nat}
    (h : AbsCell.hasInner H p o cl i I = true) :
    ∃ c l, H[p]? = some c ∧ c.kind = CellKind.AbsCell ∧ AbsCell.wellFormed H p = true ∧
      c.m_isBrokenIntoLines = false ∧ c.m_open = some o ∧ c.m_close = some cl ∧
      c.m_innerCell = some i ∧ c.m_last = some l ∧ I.getLast? = some l ∧
      isLogicalChain H (some i) I = true ∧ drawMirrorsLogical H I = true ∧
      (p :: o :: cl :: I).Nodup := by
  unfold AbsCell.hasInner at h
  cases hp : H[p]? with
  | none => simp [hp] at h
  | some c =>
    simp only [hp, Bool.and_eq_true, Bool.not_eq_true', beq_iff_eq, decide_eq_true_eq] at h
    obtain ⟨⟨⟨⟨hwf, ⟨⟨⟨⟨hb, ho⟩, hcl⟩, hi⟩, hl⟩⟩, hchain⟩, hmirror⟩, hnd⟩ := h
    obtain ⟨l, hl'⟩ : ∃ l, I.getLast? = some l := by
      cases I with
      | nil => simp [isLogicalChain] at hchain
      | cons j rest => exact ⟨_, List.getLast?_eq_getLast _ (List.cons_ne_nil _ _)⟩
    have hk : c.kind = CellKind.AbsCell := by
      have := hwf
      simp only [AbsCell.wellFormed, hp, Bool.and_eq_true, beq_iff_eq] at this
      exact this.1.1.1.1.1.1
    exact ⟨c, l, rfl, hk, hwf, hb, ho, hcl, hi, hl.trans hl', hl', hchain, hmirror, hnd⟩

/-- The round of the loop of `Emfout::BreakUpCells` on an unbroken `AbsCell` with an
inner list that is wider than the target: `BreakUp` returns true, the two
recalculations follow, and the draw links are those that `BreakUp` wrote. -/
theorem Emfout.BreakUpCells_body_AbsCell (E : CellEnv) (W fontsize mfontsize : Int) {H : Heap}
    {p o cl i l : Nat} {c : Cell}
    (hp : H[p]? = some c) (hk : c.kind = CellKind.AbsCell)
    (hwf : AbsCell.wellFormed H p = true) (hb : c.m_isBrokenIntoLines = false)
    (ho : c.m_open = some o) (hcl : c.m_close = some cl) (hi : c.m_innerCell = some i)
    (hl : c.m_last = some l) (hpo : p ≠ o) (hpl : p ≠ l) (hw : c.m_width > W) :
    ∃ H3 c3 f1 f2, Emfout.BreakUpCells_body E W fontsize mfontsize H p =
        some (H3, [MethodCall.BreakUp p true, MethodCall.RecalculateWidths p f1,
          MethodCall.RecalculateHeight p f2]) ∧
      H3.length = H.length ∧ H3[p]? = some c3 ∧ c3.m_isBrokenIntoLines = true ∧
      (∀ q, H3.nextToDraw q =
        if q = p then some o
        else if q = cl then c.m_nextToDraw
        else if q = l then some cl
        else if q = o then some i
        else H.nextToDraw q) ∧
      (∀ q x, q ≠ p → H[q]? = some x →
        ∃ y, H3[q]? = some y ∧ y.withoutDrawLink = x.withoutDrawLink) := by
  obtain ⟨H1, hBU⟩ := AbsCell.BreakUp_of_unbroken E hp hwf hb (by simp [hi])
  obtain ⟨c1, hc1, hb1⟩ := AbsCell.BreakUp_broken_after hBU
  obtain ⟨c1', hc1', hk1⟩ := AbsCell.BreakUp_kind hBU hp
  rw [hc1] at hc1'
  cases hc1'
  rw [hk] at hk1
  obtain ⟨H2, c2, hRW, hc2, hb2, hn2, hk2, hlen2, hf2⟩ :=
    AbsCell.RecalculateWidths_of_broken E (Emfout.fontsizeOf E fontsize mfontsize c1) hc1 hb1
  obtain ⟨H3, c3, hRH, hc3, hb3, hn3, hk3, hlen3, hf3⟩ :=
    AbsCell.RecalculateHeight_of_broken E (Emfout.fontsizeOf E fontsize mfontsize c2) hc2 hb2
  rw [hk1] at hk2
  refine ⟨H3, c3, Emfout.fontsizeOf E fontsize mfontsize c1,
    Emfout.fontsizeOf E fontsize mfontsize c2, ?_, ?_, hc3, hb3, ?_, ?_⟩
  · simp only [Emfout.BreakUpCells_body, hp, Option.some_bind, MathCell.GetWidth, hw, if_true,
      MathCell.BreakUp, hk, hBU, Emfout.BreakUpCells_recalculate, hc1,
      MathCell.RecalculateWidths, hk1, hRW, hc2, MathCell.RecalculateHeight, hk2, hRH]
  · rw [hlen3, hlen2, AbsCell.BreakUp_length hBU]
  · intro q
    rw [Heap.nextToDraw_of_frame hc2 hc3 hn3 hf3 q, Heap.nextToDraw_of_frame hc1 hc2 hn2 hf2 q]
    exact AbsCell.BreakUp_nextToDraw hp hb ho hcl hi hl hpo hpl hBU q
  · intro q x hq hx
    obtain ⟨y, hy, hP⟩ := AbsCell.BreakUp_frame hp hb hBU hq hx
    exact ⟨y, by rw [hf3 q hq, hf2 q hq, hy], hP⟩

/-- The draw order along a logical chain whose draw links mirror the logical links,
except that the last cell is followed by `cl` in the draw order. -/
theorem isDrawChain_of_logical {H0 H2 : Heap} {cl : Nat} {rest : List Nat}
    (hlen : H2.length = H0.length) :
    ∀ (I : List Nat) (i : Nat), isLogicalChain H0 (some i) I = true → I.Nodup →
      (∀ q ∈ I, some q ≠ I.getLast? → H2.nextToDraw q = H0.next q) →
      (∀ q, I.getLast? = some q → H2.nextToDraw q = some cl) →
      isDrawChain H2 (some cl) rest = true →
      isDrawChain H2 (some i) (I ++ rest) = true := by
  intro I
  induction I with
  | nil => intro i hchain; simp [isLogicalChain] at hchain
  | cons j rest' ih =>
    intro i hchain hnd hmid hlast hrest
    obtain ⟨rfl, hlt, hr⟩ := isLogicalChain_cons hchain
    cases rest' with
    | nil =>
      have := hlast i rfl
      simp [isDrawChain, this, hlen, hlt, hrest]
    | cons j' rest'' =>
      have hne : some i ≠ (i :: j' :: rest'').getLast? := by
        rw [List.getLast?_cons_cons]
        intro e
        have hmem : i ∈ j' :: rest'' := List.mem_of_getLast?_eq_some e.symm
        exact (List.nodup_cons.mp hnd).1 hmem
      have hi := hmid i (List.mem_cons_self _ _) hne
      cases hn : H0.next i with
      | none => rw [hn] at hr; simp [isLogicalChain] at hr
      | some n =>
        rw [hn] at hr hi
        have ih' := ih n hr (List.nodup_cons.mp hnd).2
          (fun q hq hql => hmid q (List.mem_cons_of_mem _ hq)
            (by rw [List.getLast?_cons_cons]; exact hql))
          (fun q hq => hlast q (by rw [List.getLast?_cons_cons]; exact hq)) hrest
        have e : isDrawChain H2 (some i) (i :: j' :: rest'' ++ rest) =
            (i == i && decide (i < H2.length) &&
              isDrawChain H2 (H2.nextToDraw i) (j' :: rest'' ++ rest)) := rfl
        rw [e, hi, ih', hlen]
        simp [hlt]

/-- The loop of `Emfout::BreakUpCells` along a draw order of cells that are not wider
than the target or cannot be broken up: the heap stays as it is, and `BreakUp` is
called on the cells that are wider than the target. -/
theorem Emfout.BreakUpCells_loop_inert (E : CellEnv) (W fontsize mfontsize : Int) (H : Heap) :
    ∀ (P : List Nat) (t : Option Nat) (fuel : Nat), isDrawChain H t P = true →
      P.length ≤ fuel →
      (∀ q ∈ P, (H.cell q).m_width ≤ W ∨
        ((H.cell q).kind ≠ CellKind.AbsCell ∧ E.BreakUp_other H q = some (false, H))) →
      Emfout.BreakUpCells_loop E W fontsize mfontsize fuel H t =
        some (H, P.map (Emfout.inertVisit W H)) := by
  intro P
  induction P with
  | nil =>
    intro t fuel h _ _
    have := isDrawChain_nil h
    subst this
    cases fuel <;> rfl
  | cons j rest ih =>
    intro t fuel h hfuel hin
    cases t with
    | none => simp [isDrawChain] at h
    | some q =>
      obtain ⟨rfl, hlt, hr⟩ := isDrawChain_cons h
      cases fuel with
      | zero => simp at hfuel
      | succ fuel =>
        have hget := Heap.get_of_lt hlt
        have hbody : Emfout.BreakUpCells_body E W fontsize mfontsize H q =
            some (H, if (H.cell q).m_width > W then [MethodCall.BreakUp q false] else []) := by
          rcases hin q (List.mem_cons_self _ _) with hw | ⟨hk, hB⟩
          · rw [Emfout.BreakUpCells_body_small E W fontsize mfontsize hget hw]
            simp [not_lt.mpr hw]
          · by_cases hw : (H.cell q).m_width > W
            · simp [Emfout.BreakUpCells_body, hget, MathCell.GetWidth, hw, MathCell.BreakUp, hk,
                hB]
            · rw [Emfout.BreakUpCells_body_small E W fontsize mfontsize hget (not_lt.mp hw)]
              simp [hw]
        rw [Heap.nextToDraw_eq_cell H hlt] at hr
        have := ih _ fuel hr (by simpa using hfuel)
          (fun q' hq' => hin q' (List.mem_cons_of_mem _ hq'))
        simp [Emfout.BreakUpCells_loop, hget, hbody, this, MathCell.GetWidth, Emfout.inertVisit]

/-- The run of `Emfout::BreakUpCells` on a tree that is one unbroken `AbsCell` wider than
the target, whose open cell, inner cells and close cell cannot be broken up: the loop
returns, having visited the cell and then its fragments in draw order. -/
theorem Emfout.BreakUpCells_AbsCell_run (E : CellEnv) (W fontsize mfontsize : Int) {H : Heap}
    {p o cl i : Nat} {I : List Nat} {c : Cell}
    (hI : AbsCell.hasInner H p o cl i I = true) (hp : H[p]? = some c)
    (hw : c.m_width > W) (hlastp : c.m_nextToDraw = none)
    (hinert : ∀ q ∈ o :: (I ++ [cl]), (H.cell q).kind ≠ CellKind.AbsCell ∧
      ∀ K, E.BreakUp_other K q = some (false, K))
    (fuel : Nat) (hfuel : I.length + 3 ≤ fuel) :
    ∃ H3 c3 f1 f2, Emfout.BreakUpCells E W fontsize mfontsize fuel H (some p) =
        some (H3, Emfout.brokenUpVisit p c.m_width f1 f2 ::
          (o :: (I ++ [cl])).map (Emfout.inertVisit W H)) ∧
      H3.length = H.length ∧ H3[p]? = some c3 ∧ c3.m_isBrokenIntoLines = true ∧
      c3.m_nextToDraw = some o ∧
      isDrawChain H3 (some o) (o :: (I ++ [cl])) = true ∧
      (∀ q, q ≠ p → q < H.length →
        (H3.cell q).withoutDrawLink = (H.cell q).withoutDrawLink) := by
  obtain ⟨c', l, hp', hk, hwf, hb, ho, hcl, hi, hl, hlast, hchain, hmirror, hnd⟩ :=
    AbsCell.hasInner_spec hI
  rw [hp] at hp'
  cases hp'
  have hlmem : l ∈ I := List.mem_of_getLast?_eq_some hlast
  have hlive := isLogicalChain_live hchain
  simp only [List.nodup_cons, List.mem_cons, not_or] at hnd
  obtain ⟨⟨hpo, hpcl, hpI⟩, ⟨hocl, hoI⟩, hclI, hInd⟩ := hnd
  have hwf' := hwf
  simp only [AbsCell.wellFormed, hp, ho, hcl, Bool.and_eq_true, Heap.live,
    decide_eq_true_eq] at hwf'
  have holt : o < H.length := hwf'.1.1.1.2
  have hcllt : cl < H.length := hwf'.1.1.2
  obtain ⟨H3, c3, f1, f2, hbody, hlen, hc3, hb3, hntd, hframe⟩ :=
    Emfout.BreakUpCells_body_AbsCell E W fontsize mfontsize hp hk hwf hb ho hcl hi hl hpo
      (fun e => hpI (e ▸ hlmem)) hw
  have hcell : ∀ q, q ≠ p → q < H.length →
      (H3.cell q).withoutDrawLink = (H.cell q).withoutDrawLink := by
    intro q hq hlt
    obtain ⟨y, hy, hP⟩ := hframe q _ hq (Heap.get_of_lt hlt)
    rw [Heap.cell_of_get hy]
    exact hP
  have hn3 : c3.m_nextToDraw = some o := by
    have := hntd p
    simpa [Heap.nextToDraw, hc3] using this
  -- the draw order of the fragments
  have hchcl : isDrawChain H3 (some cl) [cl] = true := by
    have e : H3.nextToDraw cl = none := by
      rw [hntd cl]
      simp [Ne.symm hpcl, hlastp]
    simp [isDrawChain, e, hlen, hcllt]
  have hchI : isDrawChain H3 (some i) (I ++ [cl]) = true := by
    refine isDrawChain_of_logical hlen I i hchain hInd ?_ ?_ hchcl
    · intro q hq hql
      have h1 : q ≠ p := fun e => hpI (e ▸ hq)
      have h2 : q ≠ cl := fun e => hclI (e ▸ hq)
      have h3 : q ≠ o := fun e => hoI (e ▸ hq)
      have h4 : q ≠ l := fun e => hql (by rw [hlast, e])
      rw [hntd q]
      simp only [h1, h2, h3, h4, if_false]
      have := List.all_eq_true.mp hmirror q hq
      simpa using this
    · intro q hq
      rw [hlast] at hq
      cases hq
      have h1 : l ≠ p := fun e => hpI (e ▸ hlmem)
      have h2 : l ≠ cl := fun e => hclI (e ▸ hlmem)
      rw [hntd l]
      simp [h1, h2]
  have hcho : isDrawChain H3 (some o) (o :: (I ++ [cl])) = true := by
    have e : H3.nextToDraw o = some i := by
      have h3 : o ≠ l := fun e => hoI (e ▸ hlmem)
      rw [hntd o]
      simp [Ne.symm hpo, hocl, h3]
    simp [isDrawChain, e, hlen, holt, hchI]
  -- the fragments are what they were, but for the draw link
  have hfrag : ∀ q ∈ o :: (I ++ [cl]), q ≠ p ∧ q < H.length := by
    intro q hq
    simp only [List.mem_cons, List.mem_append, List.mem_singleton, List.not_mem_nil,
      or_false] at hq
    rcases hq with rfl | hq | rfl
    · exact ⟨Ne.symm hpo, holt⟩
    · exact ⟨fun e => hpI (e ▸ hq), hlive q hq⟩
    · exact ⟨Ne.symm hpcl, hcllt⟩
  have hvis : (o :: (I ++ [cl])).map (Emfout.inertVisit W H3) =
      (o :: (I ++ [cl])).map (Emfout.inertVisit W H) := by
    apply List.map_congr_left
    intro q hq
    have := congrArg Cell.m_width (hcell q (hfrag q hq).1 (hfrag q hq).2)
    simp only [Cell.withoutDrawLink] at this
    simp only [Emfout.inertVisit, this]
  have hin : ∀ q ∈ o :: (I ++ [cl]), (H3.cell q).m_width ≤ W ∨
      ((H3.cell q).kind ≠ CellKind.AbsCell ∧ E.BreakUp_other H3 q = some (false, H3)) := by
    intro q hq
    right
    have := congrArg Cell.kind (hcell q (hfrag q hq).1 (hfrag q hq).2)
    simp only [Cell.withoutDrawLink] at this
    rw [this]
    exact ⟨(hinert q hq).1, (hinert q hq).2 H3⟩
  have hlenP : (o :: (I ++ [cl])).length ≤ fuel - 1 := by
    simp only [List.length_cons, List.length_append, List.length_nil]
    omega
  have hrun := Emfout.BreakUpCells_loop_inert E W fontsize mfontsize H3 (o :: (I ++ [cl]))
    (some o) (fuel - 1) hcho hlenP hin
  refine ⟨H3, c3, f1, f2, ?_, hlen, hc3, hb3, hn3, hcho, hcell⟩
  obtain ⟨fuel', rfl⟩ : ∃ fuel', fuel = fuel' + 1 := ⟨fuel - 1, by omega⟩
  simp only [Nat.add_sub_cancel] at hrun
  simp only [Emfout.BreakUpCells, Emfout.BreakUpCells_loop, hp, Option.some_bind, hbody, hc3,
    hn3, hrun, hvis, Option.map_some', MathCell.GetWidth, Emfout.brokenUpVisit]

/-- The three cells of a draw order `o`, `i`, `cl`. -/
theorem isDrawChain_three {H : Heap} {o i cl : Nat}
    (h : isDrawChain H (some o) [o, i, cl] = true) :
    (H[o]? = some (H.cell o) ∧ (H.cell o).m_nextToDraw = some i) ∧
    (H[i]? = some (H.cell i) ∧ (H.cell i).m_nextToDraw = some cl) ∧
    (H[cl]? = some (H.cell cl) ∧ (H.cell cl).m_nextToDraw = none) := by
  obtain ⟨_, h1, r1⟩ := isDrawChain_cons h
  rw [Heap.nextToDraw_eq_cell H h1] at r1
  cases e1 : (H.cell o).m_nextToDraw with
  | none => rw [e1] at r1; simp [isDrawChain] at r1
  | some a =>
    rw [e1] at r1
    obtain ⟨rfl, h2, r2⟩ := isDrawChain_cons r1
    rw [Heap.nextToDraw_eq_cell H h2] at r2
    cases e2 : (H.cell a).m_nextToDraw with
    | none => rw [e2] at r2; simp [isDrawChain] at r2
    | some b =>
      rw [e2] at r2
      obtain ⟨rfl, h3, r3⟩ := isDrawChain_cons r2
      rw [Heap.nextToDraw_eq_cell H h3] at r3
      have e3 := isDrawChain_nil r3
      exact ⟨⟨Heap.get_of_lt h1, rfl⟩, ⟨Heap.get_of_lt h2, rfl⟩, ⟨Heap.get_of_lt h3, e3⟩⟩

/-- C12 (amended).  Take a tree that is one unbroken `AbsCell` with the one-cell inner
list `i`, wider than the target `W`; its open cell `o`, inner cell `i` and close cell
`cl` are cells that cannot be broken up, are not broken into lines, have non-negative
widths, and neither `i` nor `cl` begins a line.  Then `Emfout::BreakUpCells` returns
(with fuel for four cells); afterwards the `AbsCell` is broken into lines, the draw
order from it is the cell, `o`, `i`, `cl`, the fragments have the widths they had, and
the width that `Emfout::GetMaxPoint` measures is the sum of the widths of `o`, `i` and
`cl` plus one `MC_CELL_SKIP`: with `MC_CELL_SKIP` = 0 it is the sum of the three
widths. -/
theorem Emfout.BreakUpCells_GetMaxPoint (E : CellEnv) (W fontsize mfontsize : Int) (H : Heap)
    (p o cl i : Nat) (c : Cell) (fuel : Nat)
    (hI : AbsCell.hasInner H p o cl i [i] = true) (hp : H[p]? = some c)
    (hw : c.m_width > W) (hlastp : c.m_nextToDraw = none)
    (hinert : ∀ q ∈ [o, i, cl], (H.cell q).kind ≠ CellKind.AbsCell ∧
      (H.cell q).m_isBrokenIntoLines = false ∧ 0 ≤ (H.cell q).m_width ∧
      ∀ K, E.BreakUp_other K q = some (false, K))
    (hline : MathCell.BreakLineHere (H.cell i) = false ∧
      MathCell.BreakLineHere (H.cell cl) = false)
    (hgap : 0 ≤ E.MC_CELL_SKIP) (hfuel : 4 ≤ fuel) :
    ∃ H' visits c' height, Emfout.BreakUpCells E W fontsize mfontsize fuel H (some p) =
        some (H', visits) ∧
      H'[p]? = some c' ∧ c'.m_isBrokenIntoLines = true ∧
      isDrawChain H' (some p) [p, o, i, cl] = true ∧
      (H'.cell o).m_width = (H.cell o).m_width ∧ (H'.cell i).m_width = (H.cell i).m_width ∧
      (H'.cell cl).m_width = (H.cell cl).m_width ∧
      Emfout.GetMaxPoint E fuel H' (some p) =
        some ((H'.cell o).m_width + (H'.cell i).m_width + (H'.cell cl).m_width +
          E.MC_CELL_SKIP, height) ∧
      (E.MC_CELL_SKIP = 0 → Emfout.GetMaxPoint E fuel H' (some p) =
        some ((H'.cell o).m_width + (H'.cell i).m_width + (H'.cell cl).m_width, height)) := by
  have hinert' : ∀ q ∈ o :: ([i] ++ [cl]), (H.cell q).kind ≠ CellKind.AbsCell ∧
      ∀ K, E.BreakUp_other K q = some (false, K) :=
    fun q hq => ⟨(hinert q hq).1, (hinert q hq).2.2.2⟩
  obtain ⟨H3, c3, f1, f2, hrun, hlen, hc3, hb3, hn3, hch, hcell⟩ :=
    Emfout.BreakUpCells_AbsCell_run E W fontsize mfontsize hI hp hw hlastp hinert' fuel
      (by simpa using hfuel)
  obtain ⟨_, _, _, _, _, _, _, _, _, _, _, _, _, hnd⟩ := AbsCell.hasInner_spec hI
  simp only [List.nodup_cons, List.mem_cons, List.mem_singleton, List.not_mem_nil, not_or,
    or_false] at hnd
  obtain ⟨⟨hpo, hpcl, hpi⟩, ⟨hocl, hoi⟩, hcli, _⟩ := hnd
  have hch' : isDrawChain H3 (some o) [o, i, cl] = true := hch
  obtain ⟨⟨hgo, hno⟩, ⟨hgi, hni⟩, ⟨hgcl, hncl⟩⟩ := isDrawChain_three hch'
  have hplt : p < H3.length := by
    rcases Nat.lt_or_ge p H3.length with h | h
    · exact h
    · rw [List.getElem?_eq_none h] at hc3
      cases hc3
  have hlt : ∀ q, H3[q]? = some (H3.cell q) → q < H.length := by
    intro q hq
    rcases Nat.lt_or_ge q H3.length with h | h
    · rw [← hlen]
      exact h
    · rw [List.getElem?_eq_none h] at hq
      cases hq
  have ho := hcell o (Ne.symm hpo) (hlt o hgo)
  have hi := hcell i (Ne.symm hpi) (hlt i hgi)
  have hc := hcell cl (Ne.symm hpcl) (hlt cl hgcl)
  have hwo := congrArg Cell.m_width ho
  have hwi := congrArg Cell.m_width hi
  have hwc := congrArg Cell.m_width hc
  have hbo := congrArg Cell.m_isBrokenIntoLines ho
  have hbi := congrArg Cell.m_isBrokenIntoLines hi
  have hbc := congrArg Cell.m_isBrokenIntoLines hc
  have hli := congrArg MathCell.BreakLineHere hi
  have hlc := congrArg MathCell.BreakLineHere hc
  simp only [Cell.withoutDrawLink] at hwo hwi hwc hbo hbi hbc
  simp only [Cell.withoutDrawLink, MathCell.BreakLineHere] at hli hlc
  have hio := hinert o (by simp)
  have hii := hinert i (by simp)
  have hic := hinert cl (by simp)
  rw [← hbo, ← hwo] at hio
  rw [← hbi, ← hwi] at hii
  rw [← hbc, ← hwc] at hic
  have hl1 : MathCell.BreakLineHere (H3.cell i) = false := by
    rw [← hline.1]
    simpa [MathCell.BreakLineHere] using hli
  have hl2 : MathCell.BreakLineHere (H3.cell cl) = false := by
    rw [← hline.2]
    simpa [MathCell.BreakLineHere] using hlc
  have hchp : isDrawChain H3 (some p) [p, o, i, cl] = true := by
    have e : H3.nextToDraw p = some o := by simp [Heap.nextToDraw, hc3, hn3]
    have e' : isDrawChain H3 (some p) [p, o, i, cl] =
        (p == p && decide (p < H3.length) && isDrawChain H3 (H3.nextToDraw p) [o, i, cl]) := rfl
    rw [e', e, hch']
    simp [hplt]
  obtain ⟨k, rfl⟩ : ∃ k, fuel = k + 4 := ⟨fuel - 4, by omega⟩
  have hmeasure : Emfout.GetMaxPoint E (k + 4) H3 (some p) =
      some ((H3.cell o).m_width + (H3.cell i).m_width + (H3.cell cl).m_width +
        E.MC_CELL_SKIP, E.GetMaxHeight H3 o) := by
    have hfin : ∀ st, Emfout.GetMaxPoint_loop E H3 k none st = some st := by
      intro st
      cases k <;> rfl
    simp only [Emfout.GetMaxPoint, Emfout.GetMaxPoint_loop, hc3, hn3, hgo, hno, hgi, hni, hgcl,
      hncl, hfin, Emfout.GetMaxPoint_body, hb3, hio.2.1, hii.2.1, hic.2.1, hl1, hl2,
      Bool.not_true, Bool.not_false, Bool.false_eq_true, if_false, if_true, Bool.or_true,
      Bool.or_false, Option.map_some', MathCell.GetWidth, Option.some.injEq, Prod.mk.injEq]
    constructor
    · have h1 := hio.2.2.1
      have h2 := hii.2.2.1
      have h3 := hic.2.2.1
      omega
    · omega
  refine ⟨H3, _, c3, E.GetMaxHeight H3 o, hrun, hc3, hb3, hchp, hwo, hwi, hwc, hmeasure, ?_⟩
  intro h0
  rw [hmeasure, h0, add_zero]

/-- The theorem `Emfout.BreakUpCells_GetMaxPoint` on the tree `abs(x)` of `demoNested`
(cell 3, 620 wide, target 500): after `Emfout::BreakUpCells` the open cell (10 wide), the
inner cell (600 wide) and the close cell (10 wide) are measured as 620 wide with
`MC_CELL_SKIP` = 0, and as 630 wide with `MC_CELL_SKIP` = 10. -/
theorem Emfout.BreakUpCells_GetMaxPoint_witness :
    (∃ H' height, (Emfout.BreakUpCells demoEnv 500 12 12 4 demoNested (some 3)).map Prod.fst =
        some H' ∧
      Emfout.GetMaxPoint demoEnv 4 H' (some 3) = some (620, height)) ∧
    (∃ H' height,
      (Emfout.BreakUpCells demoGapEnv 500 12 12 4 demoNested (some 3)).map Prod.fst =
        some H' ∧
      Emfout.GetMaxPoint demoGapEnv 4 H' (some 3) = some (630, height)) := by
  constructor
  · obtain ⟨H', visits, c', height, hrun, _, _, _, hwo, hwi, hwc, _, h0⟩ :=
      Emfout.BreakUpCells_GetMaxPoint demoEnv 500 12 12 demoNested 3 1 2 0 _ 4 (by decide) rfl
        (by decide) rfl
        (fun q hq => by
          simp only [List.mem_cons, List.mem_singleton, List.not_mem_nil, or_false] at hq
          rcases hq with rfl | rfl | rfl <;>
            exact ⟨by decide, by decide, by decide, fun _ => rfl⟩)
        (by decide) (by decide) (by decide)
    refine ⟨H', height, by rw [hrun]; rfl, ?_⟩
    rw [h0 rfl, hwo, hwi, hwc]
    rfl
  · obtain ⟨H', visits, c', height, hrun, _, _, _, hwo, hwi, hwc, hm, _⟩ :=
      Emfout.BreakUpCells_GetMaxPoint demoGapEnv 500 12 12 demoNested 3 1 2 0 _ 4 (by decide)
        rfl (by decide) rfl
        (fun q hq => by
          simp only [List.mem_cons, List.mem_singleton, List.not_mem_nil, or_false] at hq
          rcases hq with rfl | rfl | rfl <;>
            exact ⟨by decide, by decide, by decide, fun _ => rfl⟩)
        (by decide) (by decide) (by decide)
    refine ⟨H', height, by rw [hrun]; rfl, ?_⟩
    rw [hm, hwo, hwi, hwc]
    rfl

/-- C12, the claim as it is written fails when the gap `MC_CELL_SKIP` is not 0.  On the
tree `abs(x)` of `demoNested` (cell 3, 620 wide, target 500) with `MC_CELL_SKIP` = 10,
`Emfout::BreakUpCells` leaves the `AbsCell` broken into lines, its open cell 1, inner
cell 0 and close cell 2 are 10, 600 and 10 wide, none of them begins a line, and
`Emfout::GetMaxPoint` measures the width 630, which is not the sum 620 of the three
widths: every cell behind the first adds `MC_CELL_SKIP` to the line, and one
`MC_CELL_SKIP` is taken off again. -/
theorem Emfout.GetMaxPoint_counts_one_gap :
    (Emfout.BreakUpCells demoGapEnv 500 12 12 4 demoNested (some 3)).map
        (fun r => (r.1.take 4).map
          (fun c => (c.m_isBrokenIntoLines, MathCell.BreakLineHere c, c.m_width))) =
      some [(false, false, 600), (false, false, 10), (false, false, 10), (true, false, 620)] ∧
    ((Emfout.BreakUpCells demoGapEnv 500 12 12 4 demoNested (some 3)).bind
        (fun r => Emfout.GetMaxPoint demoGapEnv 4 r.1 (some 3))).map Prod.fst = some 630 ∧
    (10 : Int) + 600 + 10 = 620 := by
  decide

/-! ## The result of `Emfout::SetData` -/

/-- The closing bracket of an opening bracket is a closing bracket, and no opening
bracket. -/
theorem closerOf_isCloser {o k : Char} (h : closerOf o = some k) :
    closerOf k = none ∧ isCloser k = true := by
  unfold closerOf at h
  split at h
  · cases h; exact ⟨by decide, by decide⟩
  · split at h
    · cases h; exact ⟨by decide, by decide⟩
    · split at h
      · cases h; exact ⟨by decide, by decide⟩
      · cases h

/-- An opening bracket is no closing bracket, double quote, backslash or slash. -/
theorem closerOf_opener {o k : Char} (h : closerOf o = some k) :
    (o = '(' ∧ k = ')') ∨ (o = '[' ∧ k = ']') ∨ (o = '{' ∧ k = '}') := by
  unfold closerOf at h
  split at h
  · rename_i e; cases h; exact Or.inl ⟨by simpa using e, rfl⟩
  · split at h
    · rename_i e; cases h; exact Or.inr (Or.inl ⟨by simpa using e, rfl⟩)
    · split at h
      · rename_i e; cases h; exact Or.inr (Or.inr ⟨by simpa using e, rfl⟩)
      · cases h

/-- On a text without double quote, backslash and slash the loop of
`GetUnmatchedParenthesisState` is `bracketRun` on the rest of the text. -/
theorem GetUnmatchedParenthesisState_loop_eq (text : List Char)
    (hr : ∀ c ∈ text, c ≠ '"' ∧ c ≠ '\\' ∧ c ≠ '/') :
    ∀ (fuel index : Nat) (delimiters : List Char), index ≤ text.length →
      text.length < fuel + index →
      GetUnmatchedParenthesisState_loop text fuel index delimiters =
        bracketRun (text.drop index) delimiters := by
  intro fuel
  induction fuel with
  | zero => intro index st h1 h2; omega
  | succ fuel ih =>
    intro index st h1 h2
    rcases Nat.lt_or_ge index text.length with hlt | hge
    · have hget : text[index]? = some text[index] := List.getElem?_eq_getElem hlt
      have hdrop : text.drop index = text[index] :: text.drop (index + 1) :=
        List.drop_eq_getElem_cons hlt
      obtain ⟨hq, hb, hs⟩ := hr text[index] (List.getElem_mem hlt)
      have hrec := fun st' => ih (index + 1) st' hlt (by omega)
      rw [hdrop]
      generalize text[index] = c at hget hq hb hs
      unfold GetUnmatchedParenthesisState_loop
      simp only [hget]
      by_cases h1 : c = '('
      · subst h1
        simp [bracketRun, closerOf, hrec]
      by_cases h2 : c = '['
      · subst h2
        simp [bracketRun, closerOf, hrec]
      by_cases h3 : c = '{'
      · subst h3
        simp [bracketRun, closerOf, hrec]
      have hc : closerOf c = none := by simp [closerOf, h1, h2, h3]
      by_cases h4 : isCloser c = true
      · have h4' : (c == ')' || c == ']' || c == '}') = true := h4
        cases st with
        | nil => simp [bracketRun, hc, h4, h1, h2, h3, h4']
        | cons d rest => simp [bracketRun, hc, h4, h1, h2, h3, h4', hrec]
      · have h4' : (c == ')' || c == ']' || c == '}') = false := by
          simpa [isCloser] using h4
        have h4'' : isCloser c = false := by simpa using h4
        simp [bracketRun, hc, h4'', h1, h2, h3, h4', hq, hb, hs, hrec]
    · have hget : text[index]? = none := List.getElem?_eq_none hge
      have hdrop : text.drop index = [] := List.drop_eq_nil_of_le hge
      rw [hdrop]
      unfold GetUnmatchedParenthesisState_loop
      simp only [hget, bracketRun]

/-- The method on a text without double quote, backslash and slash. -/
theorem GetUnmatchedParenthesisState_eq (text : String)
    (hr : ∀ c ∈ text.data, c ≠ '"' ∧ c ≠ '\\' ∧ c ≠ '/') :
    GetUnmatchedParenthesisState text = bracketRun text.data [] := by
  have hlen : text.length = text.data.length := rfl
  have := GetUnmatchedParenthesisState_loop_eq text.data hr (text.length + 1) 0 []
    (Nat.zero_le _) (by omega)
  rw [List.drop_zero] at this
  exact this

/-- After a part of the text that leaves opening brackets pending, `bracketRun` goes on
with the rest of the text and those brackets. -/
theorem bracketRun_append :
    ∀ (pre s pending pending' : List Char), pendingClosers pre pending = some pending' →
      bracketRun (pre ++ s) pending = bracketRun s pending' := by
  intro pre
  induction pre with
  | nil =>
    intro s pending pending' h
    simp only [pendingClosers, Option.some.injEq] at h
    subst h
    rfl
  | cons c pre ih =>
    intro s pending pending' h
    simp only [List.cons_append, bracketRun]
    simp only [pendingClosers] at h
    cases hc : closerOf c with
    | some k =>
      simp only [hc] at h ⊢
      exact ih _ _ _ h
    | none =>
      simp only [hc] at h ⊢
      by_cases h4 : isCloser c = true
      · simp only [h4, if_true] at h ⊢
        cases pending with
        | nil => simp at h
        | cons d rest =>
          simp only [] at h ⊢
          by_cases e : c = d
          · subst e
            simp only [beq_self_eq_true, if_true] at h
            simp only [bne_self_eq_false, Bool.false_eq_true, if_false]
            exact ih _ _ _ h
          · simp [e] at h
      · simp only [h4, Bool.false_eq_true, if_false] at h ⊢
        exact ih _ _ _ h

/-- A properly nested text leaves the pending brackets as they were. -/
theorem bracketRun_balanced {s : List Char} (h : Balanced s) :
    ∀ (rest pending : List Char), bracketRun (s ++ rest) pending = bracketRun rest pending := by
  induction h with
  | nil => intro rest pending; rfl
  | plain c s hc hcl _ ih =>
    intro rest pending
    simp only [List.cons_append, bracketRun, hc, hcl, Bool.false_eq_true, if_false]
    exact ih rest pending
  | wrap o k s t hok _ _ ihs iht =>
    intro rest pending
    obtain ⟨hk1, hk2⟩ := closerOf_isCloser hok
    have e : (o :: (s ++ k :: t)) ++ rest = o :: (s ++ (k :: (t ++ rest))) := by simp
    rw [e]
    simp only [bracketRun, hok]
    rw [ihs (k :: (t ++ rest)) (k :: pending)]
    simp only [bracketRun, hk1, hk2, if_true, bne_self_eq_false, Bool.false_eq_true, if_false]
    exact iht rest pending

/-- Properly nested texts, one after the other, are a properly nested text. -/
theorem Balanced.append {s t : List Char} (hs : Balanced s) (ht : Balanced t) :
    Balanced (s ++ t) := by
  induction hs with
  | nil => exact ht
  | plain c s hc hcl _ ih => exact Balanced.plain c _ hc hcl ih
  | wrap o k s u hok hs' _ _ ihu =>
    have e : (o :: (s ++ k :: u)) ++ t = o :: (s ++ k :: (u ++ t)) := by simp
    rw [e]
    exact Balanced.wrap o k s _ hok hs' ihu

/-- A properly nested text in front does not change what is closed. -/
theorem ClosesPending.prepend {w : List Char} (hw : Balanced w) :
    ∀ (pending t : List Char), ClosesPending pending t → ClosesPending pending (w ++ t) := by
  intro pending t h
  cases pending with
  | nil => exact Balanced.append hw h
  | cons k rest =>
    obtain ⟨b, u, hb, e, hu⟩ := h
    exact ⟨w ++ b, u, Balanced.append hw hb, by rw [e, List.append_assoc], hu⟩

/-- A text on which `bracketRun` returns the empty string closes the pending brackets. -/
theorem bracketRun_closes :
    ∀ (s pending : List Char), bracketRun s pending = ParenthesisOutcome.returns "" →
      ClosesPending pending s := by
  intro s
  induction s with
  | nil =>
    intro pending h
    cases pending with
    | nil => exact Balanced.nil
    | cons k rest => simp [bracketRun] at h
  | cons c s ih =>
    intro pending h
    simp only [bracketRun] at h
    cases hc : closerOf c with
    | some k =>
      simp only [hc] at h
      obtain ⟨b, t, hb, e, ht⟩ := ih _ h
      have hw : Balanced (c :: (b ++ k :: [])) := Balanced.wrap c k b [] hc hb Balanced.nil
      have := ClosesPending.prepend hw pending t ht
      have e2 : c :: s = (c :: (b ++ k :: [])) ++ t := by rw [e]; simp
      rw [e2]
      exact this
    | none =>
      simp only [hc] at h
      by_cases h4 : isCloser c = true
      · simp only [h4, if_true] at h
        cases pending with
        | nil => simp at h
        | cons d rest =>
          simp only [] at h
          by_cases e : c = d
          · subst e
            simp only [bne_self_eq_false, Bool.false_eq_true, if_false] at h
            exact ⟨[], s, Balanced.nil, rfl, ih _ h⟩
          · simp [e] at h
      · have h4' : isCloser c = false := by simpa using h4
        simp only [h4', Bool.false_eq_true, if_false] at h
        have hw : Balanced [c] := Balanced.plain c [] hc h4' Balanced.nil
        exact ClosesPending.prepend hw pending s (ih _ h)
/-- A closing bracket is no opening bracket. -/
theorem closerOf_of_isCloser {c : Char} (h : isCloser c = true) : closerOf c = none := by
  simp only [isCloser, Bool.or_eq_true, beq_iff_eq] at h
  rcases h with (rfl | rfl) | rfl <;> decide

/-- The loop over a string literal does not move `index` backwards. -/
theorem GetUnmatchedParenthesisState_string_le (text : List Char) :
    ∀ (fuel index : Nat) (c : Char),
      index ≤ (GetUnmatchedParenthesisState_string text fuel index c).1 := by
  intro fuel
  induction fuel with
  | zero => intro index c; exact Nat.le_refl _
  | succ fuel ih =>
    intro index c
    unfold GetUnmatchedParenthesisState_string
    cases text[index]? with
    | none => exact Nat.le_refl _
    | some d =>
      simp only []
      split
      · have := ih ((if (d == '\\') = true then index + 1 else index) + 1) d
        have h2 : index ≤ (if (d == '\\') = true then index + 1 else index) := by
          split <;> omega
        omega
      · exact Nat.le_refl _

/-- An occurrence that `charsFind` finds is not before the position it starts at. -/
theorem charsFind_le (pat : List Char) :
    ∀ (s : List Char) (pos found : Nat), charsFind pat s pos = some found → pos ≤ found := by
  intro s
  induction s with
  | nil =>
    intro pos found h
    simp only [charsFind] at h
    split at h
    · cases h; exact Nat.le_refl _
    · cases h
  | cons c s ih =>
    intro pos found h
    simp only [charsFind] at h
    split at h
    · cases h; exact Nat.le_refl _
    · have := ih _ _ h
      omega

/-- The fuel `len + 1` is enough: every round of the loop moves `index` forward. -/
theorem GetUnmatchedParenthesisState_loop_fuel (text : List Char) :
    ∀ (fuel index : Nat) (delimiters : List Char), 0 < fuel → text.length < fuel + index →
      GetUnmatchedParenthesisState_loop text fuel index delimiters ≠
        ParenthesisOutcome.outOfFuel := by
  intro fuel
  induction fuel with
  | zero => intro index st h; omega
  | succ fuel ih =>
    intro index st _ h2
    rcases Nat.lt_or_ge index text.length with hlt | hge
    · have hget : text[index]? = some text[index] := List.getElem?_eq_getElem hlt
      have hrec : ∀ index' st', index < index' →
          GetUnmatchedParenthesisState_loop text fuel index' st' ≠
            ParenthesisOutcome.outOfFuel :=
        fun index' st' hi => ih index' st' (by omega) (by omega)
      generalize text[index] = c at hget
      unfold GetUnmatchedParenthesisState_loop
      simp only [hget]
      split
      · exact hrec _ _ (by omega)
      split
      · exact hrec _ _ (by omega)
      split
      · exact hrec _ _ (by omega)
      split
      · cases st with
        | nil => simp
        | cons d rest =>
          simp only []
          split
          · simp
          · exact hrec _ _ (by omega)
      split
      · exact hrec _ _ (by omega)
      split
      · split
        · simp
        · have := GetUnmatchedParenthesisState_string_le text (text.length + 1) (index + 1) c
          exact hrec _ _ (by omega)
      split
      · split
        · cases hf : wxString.find text "*/".data index with
          | none => simp
          | some found =>
            simp only []
            have := charsFind_le _ _ _ _ hf
            exact hrec _ _ (by omega)
        · exact hrec _ _ (by omega)
      · exact hrec _ _ (by omega)
    · have hget : text[index]? = none := List.getElem?_eq_none hge
      unfold GetUnmatchedParenthesisState_loop
      simp only [hget]
      split <;> simp

/-- The method `GetUnmatchedParenthesisState` never runs out of the fuel of the model. -/
theorem GetUnmatchedParenthesisState_fuel (text : String) :
    GetUnmatchedParenthesisState text ≠ ParenthesisOutcome.outOfFuel := by
  have hlen : text.length = text.data.length := rfl
  exact GetUnmatchedParenthesisState_loop_fuel text.data (text.length + 1) 0 []
    (by omega) (by omega)

/-- C23.  For every text without double quote, backslash and slash,
`GetUnmatchedParenthesisState` returns the empty string if and only if the round, square
and curly brackets of the text are properly nested and matched.  When a closing
bracket meets a pending opening bracket of another kind (the most recently opened one
that is not closed yet), it returns `Mismatched parenthesis`; when the text ends while
an opening bracket is pending, it returns `Un-closed parenthesis`. -/
theorem GetUnmatchedParenthesisState_brackets (text : String)
    (hr : ∀ c ∈ text.data, c ≠ '"' ∧ c ≠ '\\' ∧ c ≠ '/') :
    (GetUnmatchedParenthesisState text = ParenthesisOutcome.returns "" ↔
      Balanced text.data) ∧
    (∀ pre c post k pending, text.data = pre ++ c :: post →
      pendingClosers pre [] = some (k :: pending) → isCloser c = true → c ≠ k →
      GetUnmatchedParenthesisState text =
        ParenthesisOutcome.returns "Mismatched parenthesis") ∧
    (∀ k pending, pendingClosers text.data [] = some (k :: pending) →
      GetUnmatchedParenthesisState text =
        ParenthesisOutcome.returns "Un-closed parenthesis") := by
  rw [GetUnmatchedParenthesisState_eq text hr]
  refine ⟨⟨fun h => bracketRun_closes _ _ h, fun h => ?_⟩, ?_, ?_⟩
  · have := bracketRun_balanced h [] []
    rw [List.append_nil] at this
    rw [this]
    rfl
  · intro pre c post k pending hsplit hpend hc hne
    rw [hsplit, bracketRun_append pre (c :: post) [] (k :: pending) hpend]
    simp [bracketRun, closerOf_of_isCloser hc, hc, hne]
  · intro k pending hpend
    have := bracketRun_append text.data [] [] (k :: pending) hpend
    rw [List.append_nil] at this
    rw [this]
    rfl

/-- The theorem `GetUnmatchedParenthesisState_brackets` at three texts: `f(x[1])` is
properly nested and gives the empty string; in `f(x[1)]` the bracket `)` meets the
pending `[`; `f(x` ends with `(` pending. -/
theorem GetUnmatchedParenthesisState_brackets_witness :
    GetUnmatchedParenthesisState "f(x[1])" = ParenthesisOutcome.returns "" ∧
    GetUnmatchedParenthesisState "f(x[1)]" =
      ParenthesisOutcome.returns "Mismatched parenthesis" ∧
    GetUnmatchedParenthesisState "f(x" = ParenthesisOutcome.returns "Un-closed parenthesis" :=
  ⟨(GetUnmatchedParenthesisState_brackets "f(x[1])" (by decide)).1.mpr
      (Balanced.plain 'f' _ (by decide) (by decide)
        (Balanced.wrap '(' ')' ['x', '[', '1', ']'] [] (by decide)
          (Balanced.plain 'x' _ (by decide) (by decide)
            (Balanced.wrap '[' ']' ['1'] [] (by decide)
              (Balanced.plain '1' _ (by decide) (by decide) Balanced.nil) Balanced.nil))
          Balanced.nil)),
    (GetUnmatchedParenthesisState_brackets "f(x[1)]" (by decide)).2.1
      ['f', '(', 'x', '[', '1'] ')' [']'] ']' [')'] rfl (by decide) (by decide) (by decide),
    (GetUnmatchedParenthesisState_brackets "f(x" (by decide)).2.2 ')' [] (by decide)⟩

/-- C24: the code reads the back of the empty list.  In every text without double quote,
backslash and slash in which a closing bracket is reached while no opening bracket is
pending, `GetUnmatchedParenthesisState` evaluates `delimiters.back()` on the empty list
`delimiters`: the access is not guarded, and the call has no defined result instead of
returning `Mismatched parenthesis`. -/
theorem GetUnmatchedParenthesisState_back_of_empty (text : String)
    (hr : ∀ c ∈ text.data, c ≠ '"' ∧ c ≠ '\\' ∧ c ≠ '/')
    (pre : List Char) (c : Char) (post : List Char) (hsplit : text.data = pre ++ c :: post)
    (hpend : pendingClosers pre [] = some []) (hc : isCloser c = true) :
    GetUnmatchedParenthesisState text = ParenthesisOutcome.backOfEmpty := by
  rw [GetUnmatchedParenthesisState_eq text hr, hsplit,
    bracketRun_append pre (c :: post) [] [] hpend]
  simp [bracketRun, closerOf_of_isCloser hc, hc]

/-- The theorem `GetUnmatchedParenthesisState_back_of_empty` at the texts `)` and
`f(x)]`. -/
theorem GetUnmatchedParenthesisState_back_of_empty_witness :
    GetUnmatchedParenthesisState ")" = ParenthesisOutcome.backOfEmpty ∧
    GetUnmatchedParenthesisState "f(x)]" = ParenthesisOutcome.backOfEmpty :=
  ⟨GetUnmatchedParenthesisState_back_of_empty ")" (by decide) [] ')' [] rfl rfl rfl,
    GetUnmatchedParenthesisState_back_of_empty "f(x)]" (by decide)
      ['f', '(', 'x', ')'] ']' [] rfl (by decide) rfl⟩

/-- C25: the code misses a string that opens at the end of the text.  For the text that
is one double quote `GetUnmatchedParenthesisState` returns the empty string, and for
`print("` it returns `Un-closed parenthesis`: the variable `c` still holds the opening
double quote when the loop over the string ends at once, so the test `c!='"'` passes.
The texts `"a` and `print("a` are reported as `Unterminated string.`. -/
theorem GetUnmatchedParenthesisState_quote_at_end :
    GetUnmatchedParenthesisState "\"" = ParenthesisOutcome.returns "" ∧
    GetUnmatchedParenthesisState "print(\"" =
      ParenthesisOutcome.returns "Un-closed parenthesis" ∧
    GetUnmatchedParenthesisState "\"a" = ParenthesisOutcome.returns "Unterminated string." ∧
    GetUnmatchedParenthesisState "print(\"a" =
      ParenthesisOutcome.returns "Unterminated string." := by
  decide

/-- C26: the code reports a comment that is closed.  In `a/* c */*b` the only comment is
closed, and `GetUnmatchedParenthesisState` returns `Unterminated comment.`: after
`text.find` the index is at the `*` of the closing `*/`, the next round reads its `/`, and
the `*` that follows is taken for the opening of a comment.  With a blank between the
comment and the `*` the result is the empty string, and a bracket after the closed
comment is checked. -/
theorem GetUnmatchedParenthesisState_closed_comment :
    GetUnmatchedParenthesisState "a/* c */*b" =
      ParenthesisOutcome.returns "Unterminated comment." ∧
    GetUnmatchedParenthesisState "a/* c */ *b" = ParenthesisOutcome.returns "" ∧
    GetUnmatchedParenthesisState "a/* c */(b" =
      ParenthesisOutcome.returns "Un-closed parenthesis" := by
  decide

/-! ## `wxMaxima::StripComments`: theorems -/

/-- C22: the code removes a statement that is not blank.  In `a;/*c*/b;/*d*/;` the
statement `/*c*/b` has the character `b` outside every comment, and `StripComments`
returns `a;`: the `.*` of the comment part of `m_blankStatementRegEx` runs from the first
`/*` to the last `*/`, over `b;`, so `;/*c*/b;/*d*/;` is replaced by `;` as one blank
statement.  The same happens at the beginning of the text, where `/*c*/b;/*d*/;` becomes
`;`.  When the comments are in separate blank statements only these are removed. -/
theorem StripComments_removes_statement :
    wxMaxima.StripComments "a;/*c*/b;/*d*/;" = some "a;" ∧
    wxMaxima.StripComments "/*c*/b;/*d*/;" = some ";" ∧
    wxMaxima.StripComments "a; /* c */ ;b;" = some "a;b;" :=
  ⟨by decide, by decide, by decide⟩

/-! ## `AutoComplete::AddSymbol_nowait`: theorems -/

/-- The index that `indexOf?` finds is the length of the text before the character. -/
theorem indexOf?_eq_takeWhile (ch : Char) :
    ∀ l : List Char, ch ∈ l →
      l.indexOf? ch = some (l.takeWhile (fun c => c != ch)).length := by
  intro l
  induction l with
  | nil => intro h; cases h
  | cons a l ih =>
    intro h
    by_cases ha : a = ch
    · subst ha
      simp [List.indexOf?, List.findIdx?_cons, List.takeWhile]
    · have hl : ch ∈ l := by
        rcases List.mem_cons.mp h with h | h
        · exact absurd h.symm ha
        · exact h
      have := ih hl
      simp only [List.indexOf?] at this ⊢
      rw [List.findIdx?_cons]
      have hne : (a == ch) = false := by simpa using ha
      have hne2 : (a != ch) = true := by simpa using ha
      simp only [hne, List.takeWhile, hne2, List.length_cons]
      rw [List.findIdx?_succ, this]
      rfl

/-- The text up to and including the first occurrence of the character. -/
theorem take_takeWhile_succ (ch : Char) :
    ∀ l : List Char, ch ∈ l →
      l.take ((l.takeWhile (fun c => c != ch)).length + 1) =
        l.takeWhile (fun c => c != ch) ++ [ch] := by
  intro l
  induction l with
  | nil => intro h; cases h
  | cons a l ih =>
    intro h
    by_cases ha : a = ch
    · subst ha
      simp [List.takeWhile]
    · have hl : ch ∈ l := by
        rcases List.mem_cons.mp h with h | h
        · exact absurd h.symm ha
        · exact h
      have hne2 : (a != ch) = true := by simpa using ha
      simp only [List.takeWhile, hne2, List.length_cons, List.take_succ_cons, List.cons_append,
        ih hl]

/-- The length of the text before the first occurrence is less than the length. -/
theorem takeWhile_length_lt (ch : Char) :
    ∀ l : List Char, ch ∈ l → (l.takeWhile (fun c => c != ch)).length < l.length := by
  intro l
  induction l with
  | nil => intro h; cases h
  | cons a l ih =>
    intro h
    by_cases ha : a = ch
    · subst ha
      simp [List.takeWhile]
    · have hl : ch ∈ l := by
        rcases List.mem_cons.mp h with h | h
        · exact absurd h.symm ha
        · exact h
      have hne2 : (a != ch) = true := by simpa using ha
      simp only [List.takeWhile, hne2, List.length_cons]
      have := ih hl
      omega

/-- For a template with a `(`, shorter than `2 ^ 64 - 1` characters, the text `funName`
of `AddSymbol_nowait` is the function name followed by `(`. -/
theorem funName_eq (g : String) (hp : '(' ∈ g.data) (hlen : g.length < 2 ^ 64 - 1) :
    wxString.SubString g 0 (wxString.Find g '(') =
      ⟨(templateName g).data ++ ['(']⟩ := by
  have hlen2 : g.data.length < 2 ^ 64 - 1 := hlen
  have h1 := indexOf?_eq_takeWhile '(' g.data hp
  have h2 := takeWhile_length_lt '(' g.data hp
  have h3 := take_takeWhile_succ '(' g.data hp
  generalize hn : (g.data.takeWhile (fun c => c != '(')).length = n at h1 h2 h3
  have hcount : (((n : Int) - 0 + 1) % 2 ^ 64).toNat = n + 1 := by
    have : ((n : Int) - 0 + 1) % 2 ^ 64 = (n : Int) + 1 := by
      rw [Int.sub_zero]
      apply Int.emod_eq_of_lt <;> omega
    rw [this]
    omega
  have hne : n + 1 ≠ wxString.npos := by
    simp only [wxString.npos]
    omega
  simp only [wxString.SubString, wxString.Find, h1, hcount, wxString.Mid, hne, if_false,
    templateName]
  simp [h3]

/-- A text begins with a name without `(` followed by `(` exactly when it has a `(` and
that name before it. -/
theorem charsStartWith_name :
    ∀ (n t : List Char), (∀ c ∈ n, c ≠ '(') →
      (charsStartWith t (n ++ ['(']) = true ↔
        ('(' ∈ t ∧ t.takeWhile (fun c => c != '(') = n)) := by
  intro n
  induction n with
  | nil =>
    intro t _
    cases t with
    | nil => simp [charsStartWith]
    | cons a t =>
      by_cases ha : a = '('
      · subst ha
        simp [charsStartWith, List.takeWhile]
      · have hne2 : (a != '(') = true := by simpa using ha
        simp [charsStartWith, List.takeWhile, hne2, ha]
  | cons b n ih =>
    intro t hn
    have hb : b ≠ '(' := hn b (List.mem_cons_self _ _)
    have hn2 : ∀ c ∈ n, c ≠ '(' := fun c hc => hn c (List.mem_cons_of_mem _ hc)
    cases t with
    | nil => simp [charsStartWith]
    | cons a t =>
      by_cases hab : a = b
      · subst hab
        have hne2 : (a != '(') = true := by simpa using hb
        have e : charsStartWith (a :: t) (a :: n ++ ['(']) = charsStartWith t (n ++ ['(']) := by
          simp [charsStartWith]
        rw [e, ih t hn2]
        simp only [List.mem_cons, List.takeWhile, hne2, List.cons.injEq, true_and]
        constructor
        · rintro ⟨h1, h2⟩
          exact ⟨Or.inr h1, h2⟩
        · rintro ⟨h1 | h1, h2⟩
          · exact absurd h1.symm hb
          · exact ⟨h1, h2⟩
      · have hab2 : (a == b) = false := by simpa using hab
        simp only [List.cons_append, charsStartWith, hab2, Bool.false_and, Bool.false_eq_true,
          false_iff, not_and]
        intro _ h
        by_cases ha : a = '('
        · subst ha
          simp [List.takeWhile] at h
        · have hne2 : (a != '(') = true := by simpa using ha
          simp only [List.takeWhile, hne2, List.cons.injEq] at h
          exact hab h.1

/-- The text before the first `(` has no `(`. -/
theorem templateName_no_paren (g : String) : ∀ c ∈ (templateName g).data, c ≠ '(' := by
  intro c hc
  have := List.mem_takeWhile_imp hc
  simpa using this

/-- For a template `g` with a `(`, shorter than `2 ^ 64 - 1` characters, the test of the
loop of `AddSymbol_nowait` holds for an entry `t` exactly when `t` has a `(`, the
function name of `g` and the argument count of `g`. -/
theorem sameTemplate_iff (g t : String) (hp : '(' ∈ g.data) (hlen : g.length < 2 ^ 64 - 1) :
    AutoComplete.sameTemplate g t = true ↔
      ('(' ∈ t.data ∧ templateName t = templateName g ∧
        wxString.Freq t '<' = wxString.Freq g '<') := by
  simp only [AutoComplete.sameTemplate, funName_eq g hp hlen, wxString.StartsWith,
    Bool.and_eq_true, beq_iff_eq,
    charsStartWith_name _ t.data (templateName_no_paren g)]
  constructor
  · rintro ⟨⟨h1, h2⟩, h3⟩
    refine ⟨h1, ?_, h3⟩
    simp only [templateName] at h2 ⊢
    rw [h2]
  · rintro ⟨h1, h2, h3⟩
    refine ⟨⟨h1, ?_⟩, h3⟩
    have := congrArg String.data h2
    simpa [templateName] using this

/-- One call of `AddSymbol_nowait` leaves the template list as it is or appends one
template that the test of the loop holds for with no entry. -/
theorem AddSymbol_nowait_templates (A : AutoComplete) (fun_ : String)
    (type : autoCompletionType) :
    (AutoComplete.AddSymbol_nowait A fun_ type).m_wordList autoCompletionType.tmplte =
        A.m_wordList autoCompletionType.tmplte ∨
      ∃ g, (AutoComplete.AddSymbol_nowait A fun_ type).m_wordList autoCompletionType.tmplte =
          A.m_wordList autoCompletionType.tmplte ++ [g] ∧
        ∀ t ∈ A.m_wordList autoCompletionType.tmplte, AutoComplete.sameTemplate g t = false := by
  unfold AutoComplete.AddSymbol_nowait
  generalize AutoComplete.AddSymbol_kind fun_ type = k
  by_cases hk : k.2 = autoCompletionType.tmplte
  · simp only [hk, ne_eq, not_true_eq_false, false_and, if_false, if_true]
    split
    · rename_i hi
      right
      exact ⟨_, by simp [AutoComplete.Add], List.findIdx_eq_length.mp hi⟩
    · left; rfl
  · simp only [hk, if_false]
    left
    split
    · simp only [AutoComplete.Add]
      rw [if_neg (fun h => hk h.symm)]
    · rfl

/-- The test of the loop of `AddSymbol_nowait` holds for no two entries of the template
list, the later one taken as the new template, after any sequence of calls that starts
with a template list for which that is so. -/
theorem AddSymbols_pairwise (calls : List (String × autoCompletionType)) :
    ∀ A : AutoComplete,
      (A.m_wordList autoCompletionType.tmplte).Pairwise
        (fun t g => AutoComplete.sameTemplate g t = false) →
      ((AutoComplete.AddSymbols A calls).m_wordList autoCompletionType.tmplte).Pairwise
        (fun t g => AutoComplete.sameTemplate g t = false) := by
  induction calls with
  | nil => intro A h; exact h
  | cons c calls ih =>
    intro A h
    simp only [AutoComplete.AddSymbols, List.foldl_cons]
    apply ih
    rcases AddSymbol_nowait_templates A c.1 c.2 with he | ⟨g, he, hg⟩
    · rw [he]; exact h
    · rw [he, List.pairwise_append]
      refine ⟨h, List.pairwise_singleton _ _, ?_⟩
      intro t ht g2 hg2
      rw [List.mem_singleton] at hg2
      subst hg2
      exact hg t ht
/-- The template list after a call of `AddSymbol_nowait` for a template: the template is
appended after `FixTemplate` when the test of the loop holds for no entry, and the list
is unchanged otherwise. -/
theorem AddSymbol_nowait_template_eq (A : AutoComplete) (fun_ : String)
    (type : autoCompletionType)
    (hk : (AutoComplete.AddSymbol_kind fun_ type).2 = autoCompletionType.tmplte) :
    (AutoComplete.AddSymbol_nowait A fun_ type).m_wordList autoCompletionType.tmplte =
      if ∀ t ∈ A.m_wordList autoCompletionType.tmplte,
          AutoComplete.sameTemplate
            (AutoComplete.FixTemplate (AutoComplete.AddSymbol_kind fun_ type).1) t = false
      then A.m_wordList autoCompletionType.tmplte ++
        [AutoComplete.FixTemplate (AutoComplete.AddSymbol_kind fun_ type).1]
      else A.m_wordList autoCompletionType.tmplte := by
  unfold AutoComplete.AddSymbol_nowait
  generalize AutoComplete.AddSymbol_kind fun_ type = k at hk ⊢
  simp only [hk, ne_eq, not_true_eq_false, false_and, if_false, if_true]
  by_cases h : ∀ t ∈ A.m_wordList autoCompletionType.tmplte,
      AutoComplete.sameTemplate (AutoComplete.FixTemplate k.1) t = false
  · rw [if_pos h, if_pos (List.findIdx_eq_length.mpr h)]
    simp [AutoComplete.Add]
  · rw [if_neg h, if_neg (fun h2 => h (List.findIdx_eq_length.mp h2))]

/-- No index is found for a character that does not occur. -/
theorem indexOf?_eq_none (ch : Char) :
    ∀ l : List Char, ch ∉ l → l.indexOf? ch = none := by
  intro l h
  simp only [List.indexOf?, List.findIdx?_eq_none_iff]
  intro x hx
  have : x ≠ ch := fun e => h (e ▸ hx)
  simpa using this

/-- For a template without `(` the text `funName` of `AddSymbol_nowait` is empty, and
the test of the loop compares the argument counts only. -/
theorem sameTemplate_no_paren (g t : String) (hp : '(' ∉ g.data) :
    AutoComplete.sameTemplate g t = (wxString.Freq t '<' == wxString.Freq g '<') := by
  have h1 := indexOf?_eq_none '(' g.data hp
  have e : wxString.SubString g 0 (wxString.Find g '(') = "" := by
    simp only [wxString.SubString, wxString.Find, h1]
    rfl
  rw [AutoComplete.sameTemplate, e, wxString.StartsWith]
  have e2 : charsStartWith t.data "".data = true := by
    cases t.data <;> rfl
  rw [e2, Bool.true_and]

/-- C21 (amended).  Templates with a `(`, shorter than `2 ^ 64 - 1` characters: from an
empty template list on, after any sequence of calls of `AddSymbol_nowait` no two entries
of the template list that have a `(` have the same function name (the text before the
first `(`) and the same argument count (the number of `<`); and a template with a `(`
whose function name and argument count match no entry of the list is appended to it,
in the form that `FixTemplate` gives it.  A template without `(` is appended exactly
when no entry has its argument count, whatever the names are. -/
theorem AddSymbol_nowait_templates_unique :
    (∀ (A : AutoComplete) (calls : List (String × autoCompletionType)) (i j : Nat)
        (t g : String),
      A.m_wordList autoCompletionType.tmplte = [] → i < j →
      ((AutoComplete.AddSymbols A calls).m_wordList autoCompletionType.tmplte)[i]? = some t →
      ((AutoComplete.AddSymbols A calls).m_wordList autoCompletionType.tmplte)[j]? = some g →
      '(' ∈ t.data → '(' ∈ g.data → g.length < 2 ^ 64 - 1 →
      ¬ (templateName t = templateName g ∧ wxString.Freq t '<' = wxString.Freq g '<')) ∧
    (∀ (A : AutoComplete) (fun_ : String) (type : autoCompletionType) (g : String),
      (AutoComplete.AddSymbol_kind fun_ type).2 = autoCompletionType.tmplte →
      g = AutoComplete.FixTemplate (AutoComplete.AddSymbol_kind fun_ type).1 →
      '(' ∈ g.data → g.length < 2 ^ 64 - 1 →
      (∀ t ∈ A.m_wordList autoCompletionType.tmplte,
        ¬ (templateName t = templateName g ∧
          wxString.Freq t '<' = wxString.Freq g '<')) →
      (AutoComplete.AddSymbol_nowait A fun_ type).m_wordList autoCompletionType.tmplte =
        A.m_wordList autoCompletionType.tmplte ++ [g]) ∧
    (∀ (A : AutoComplete) (fun_ : String) (type : autoCompletionType) (g : String),
      (AutoComplete.AddSymbol_kind fun_ type).2 = autoCompletionType.tmplte →
      g = AutoComplete.FixTemplate (AutoComplete.AddSymbol_kind fun_ type).1 →
      '(' ∉ g.data →
      ((AutoComplete.AddSymbol_nowait A fun_ type).m_wordList autoCompletionType.tmplte =
          A.m_wordList autoCompletionType.tmplte ++ [g] ↔
        ∀ t ∈ A.m_wordList autoCompletionType.tmplte,
          wxString.Freq t '<' ≠ wxString.Freq g '<')) := by
  refine ⟨?_, ?_, ?_⟩
  · intro A calls i j t g hA hij hi hj ht hg hlen hsame
    have hpw := AddSymbols_pairwise calls A (by rw [hA]; exact List.Pairwise.nil)
    rw [List.pairwise_iff_getElem] at hpw
    obtain ⟨hi1, hi2⟩ := List.getElem?_eq_some.mp hi
    obtain ⟨hj1, hj2⟩ := List.getElem?_eq_some.mp hj
    have := hpw i j hi1 hj1 hij
    rw [hi2, hj2] at this
    have h2 := (sameTemplate_iff g t hg hlen).mpr ⟨ht, hsame.1, hsame.2⟩
    rw [this] at h2
    cases h2
  · intro A fun_ type g hk hgdef hg hlen hno
    rw [AddSymbol_nowait_template_eq A fun_ type hk, ← hgdef, if_pos]
    intro t ht
    cases hs : AutoComplete.sameTemplate g t with
    | false => rfl
    | true =>
      have := (sameTemplate_iff g t hg hlen).mp hs
      exact absurd ⟨this.2.1, this.2.2⟩ (hno t ht)
  · intro A fun_ type g hk hgdef hg
    rw [AddSymbol_nowait_template_eq A fun_ type hk, ← hgdef]
    have e : (∀ t ∈ A.m_wordList autoCompletionType.tmplte,
          AutoComplete.sameTemplate g t = false) ↔
        ∀ t ∈ A.m_wordList autoCompletionType.tmplte,
          wxString.Freq t '<' ≠ wxString.Freq g '<' := by
      constructor
      · intro h t ht
        have := h t ht
        rw [sameTemplate_no_paren g t hg] at this
        simpa using this
      · intro h t ht
        rw [sameTemplate_no_paren g t hg]
        simpa using h t ht
    rw [← e]
    split
    · rename_i h
      exact ⟨fun _ => h, fun _ => rfl⟩
    · rename_i h
      constructor
      · intro h2
        have := congrArg List.length h2
        simp at this
      · intro h2
        exact absurd h2 h

/-- The theorem `AddSymbol_nowait_templates_unique` at the calls `demoTemplateCalls`,
which leave the templates `foo(<x>)` and `foo(<x>,<y>)`; at the call for `bar([<x>])`
after them; and at the call for `baz<u>`. -/
theorem AddSymbol_nowait_templates_unique_witness :
    (AutoComplete.AddSymbols AutoComplete.blank demoTemplateCalls).m_wordList
        autoCompletionType.tmplte = ["foo(<x>)", "foo(<x>,<y>)"] ∧
    ¬ (templateName "foo(<x>)" = templateName "foo(<x>,<y>)" ∧
      wxString.Freq "foo(<x>)" '<' = wxString.Freq "foo(<x>,<y>)" '<') ∧
    (AutoComplete.AddSymbol_nowait
        (AutoComplete.AddSymbols AutoComplete.blank demoTemplateCalls) "TEMPLATE: bar([<x>])"
        autoCompletionType.command).m_wordList autoCompletionType.tmplte =
      ["foo(<x>)", "foo(<x>,<y>)"] ++ ["bar(<[x]>)"] ∧
    ((AutoComplete.AddSymbol_nowait
        (AutoComplete.AddSymbols AutoComplete.blank demoTemplateCalls) "baz<u>"
        autoCompletionType.tmplte).m_wordList autoCompletionType.tmplte =
      ["foo(<x>)", "foo(<x>,<y>)"] ++ ["baz<u>"] ↔
      ∀ t ∈ ["foo(<x>)", "foo(<x>,<y>)"], wxString.Freq t '<' ≠ wxString.Freq "baz<u>" '<') :=
  ⟨by decide,
    AddSymbol_nowait_templates_unique.1 AutoComplete.blank demoTemplateCalls 0 1
      "foo(<x>)" "foo(<x>,<y>)" rfl (by decide) (by decide) (by decide) (by decide)
      (by decide) (by decide),
    AddSymbol_nowait_templates_unique.2.1
      (AutoComplete.AddSymbols AutoComplete.blank demoTemplateCalls) "TEMPLATE: bar([<x>])"
      autoCompletionType.command "bar(<[x]>)" (by decide) (by decide) (by decide) (by decide)
      (by decide),
    AddSymbol_nowait_templates_unique.2.2
      (AutoComplete.AddSymbols AutoComplete.blank demoTemplateCalls) "baz<u>"
      autoCompletionType.tmplte "baz<u>" (by decide) (by decide) (by decide)⟩

/-- C21, the claim as it is written fails.  After `foo(<x>)` the template `bar<y>`, which
has no `(`, is not added, though no entry of the list has its function name: `funName`
is empty for it, every entry starts with the empty text, and `foo(<x>)` has one `<`
as well. -/
theorem AddSymbol_nowait_template_without_paren :
    (AutoComplete.AddSymbols AutoComplete.blank
        [("foo(<x>)", autoCompletionType.tmplte)]).m_wordList autoCompletionType.tmplte =
      ["foo(<x>)"] ∧
    AutoComplete.FixTemplate "bar<y>" = "bar<y>" ∧
    templateName "bar<y>" ≠ templateName "foo(<x>)" ∧
    (AutoComplete.AddSymbol_nowait
        (AutoComplete.AddSymbols AutoComplete.blank [("foo(<x>)", autoCompletionType.tmplte)])
        "bar<y>" autoCompletionType.tmplte).m_wordList autoCompletionType.tmplte =
      ["foo(<x>)"] := by
  decide

/-! ## `wxMaxima::CreateTreeFromWXMCode`: theorems -/

/-- The inner loop of a block branch reaches the end of the array when the end marker
is not among the lines. -/
theorem CreateTreeFromWXMCode_block_unclosed (endMarker : String) :
    ∀ (content : List String) (line : String), endMarker ∉ content →
      CreateTreeFromWXMCode_block endMarker content line =
        Except.error WXMFault.itemOfEmpty := by
  intro content
  induction content with
  | nil => intro line _; rfl
  | cons item content ih =>
    intro line h
    have h1 : item ≠ endMarker := fun e => h (e ▸ List.mem_cons_self _ _)
    have h2 : endMarker ∉ content := fun e => h (List.mem_cons_of_mem _ e)
    have h3 : (item != endMarker) = true := by simpa using h1
    simp only [CreateTreeFromWXMCode_block, h3, if_true]
    exact ih _ h2

/-- The inner loop of a block branch does not run out of fuel, and the lines it leaves
are not more than the lines it was given. -/
theorem CreateTreeFromWXMCode_block_length (endMarker : String) :
    ∀ (wxmLines : List String) (line : String),
      CreateTreeFromWXMCode_block endMarker wxmLines line ≠
          Except.error WXMFault.outOfFuel ∧
        ∀ text left, CreateTreeFromWXMCode_block endMarker wxmLines line =
            Except.ok (text, left) → left.length ≤ wxmLines.length := by
  intro wxmLines
  induction wxmLines with
  | nil =>
    intro line
    simp [CreateTreeFromWXMCode_block]
  | cons item wxmLines ih =>
    intro line
    simp only [CreateTreeFromWXMCode_block]
    split
    · have := ih (if line.length == 0 then item else line ++ ("\n" ++ item))
      refine ⟨this.1, fun text left h => ?_⟩
      have := this.2 text left h
      simp only [List.length_cons]
      omega
    · refine ⟨by simp, fun text left h => ?_⟩
      simp only [Except.ok.injEq, Prod.mk.injEq] at h
      rw [← h.2]

/-- With more rounds of fuel than lines the loop of `CreateTreeFromWXMCode` does not run
out of fuel, and the lines it leaves are not more than the lines it was given. -/
theorem CreateTreeFromWXMCode_loop_fuel :
    ∀ (fuel : Nat) (wxmLines : List String) (hide : Bool) (tree : List GroupCell),
      wxmLines.length < fuel →
      CreateTreeFromWXMCode_loop fuel wxmLines hide tree ≠
          Except.error WXMFault.outOfFuel ∧
        ∀ chain left, CreateTreeFromWXMCode_loop fuel wxmLines hide tree =
            Except.ok (chain, left) → left.length ≤ wxmLines.length := by
  intro fuel
  induction fuel with
  | zero => intro wxmLines hide tree h; omega
  | succ fuel ih =>
    intro wxmLines hide tree hlen
    cases wxmLines with
    | nil =>
      simp only [CreateTreeFromWXMCode_loop]
      refine ⟨by simp, fun chain left h => ?_⟩
      simp only [Except.ok.injEq, Prod.mk.injEq] at h
      rw [← h.2]
    | cons item wxmLines =>
      simp only [List.length_cons] at hlen ⊢
      have hrec : ∀ (ls : List String) (hd : Bool) (tr : List GroupCell),
          ls.length ≤ wxmLines.length →
          CreateTreeFromWXMCode_loop fuel ls hd tr ≠ Except.error WXMFault.outOfFuel ∧
            ∀ chain left, CreateTreeFromWXMCode_loop fuel ls hd tr =
              Except.ok (chain, left) → left.length ≤ wxmLines.length + 1 := by
        intro ls hd tr hls
        have := ih ls hd tr (by omega)
        exact ⟨this.1, fun chain left h => by have := this.2 chain left h; omega⟩
      have hrem : ∀ ls ls2 : List String, wxArrayString.RemoveAt0 ls = Except.ok ls2 →
          ls2.length ≤ ls.length := by
        intro ls ls2 h
        cases ls with
        | nil => cases h
        | cons a ls =>
          simp only [wxArrayString.RemoveAt0, Except.ok.injEq] at h
          rw [← h]
          simp
      have hremf : ∀ ls : List String, ∀ e, wxArrayString.RemoveAt0 ls = Except.error e →
          e ≠ WXMFault.outOfFuel := by
        intro ls e h
        cases ls with
        | nil =>
          simp only [wxArrayString.RemoveAt0, Except.error.injEq] at h
          rw [← h]
          decide
        | cons a ls => cases h
      unfold CreateTreeFromWXMCode_loop
      split
      · exact hrec _ _ _ (Nat.le_refl _)
      · split
        · rename_i type endMarker _
          have hb := CreateTreeFromWXMCode_block_length endMarker wxmLines ""
          split
          · rename_i e he
            refine ⟨fun h => hb.1 ?_, fun chain left h => by cases h⟩
            have e1 : e = WXMFault.outOfFuel := by simpa using h
            rw [he, e1]
          · rename_i line left1 he
            have hl1 := hb.2 line left1 he
            split
            · rename_i e he2
              refine ⟨fun h => hremf _ _ he2 ?_, fun chain left h => by cases h⟩
              simpa using h
            · rename_i left2 he2
              have hl2 := hrem _ _ he2
              exact hrec _ _ _ (by omega)
        · split
          · split
            · rename_i e he2
              refine ⟨fun h => hremf _ _ he2 ?_, fun chain left h => by cases h⟩
              simpa using h
            · rename_i left2 he2
              have hl2 := hrem _ _ he2
              exact hrec _ _ _ (by omega)
          · split
            · have hf := ih wxmLines false [] (by omega)
              split
              · rename_i e he
                refine ⟨fun h => hf.1 ?_, fun chain left h => by cases h⟩
                rw [he]
                exact h
              · rename_i folded left1 he
                have hl1 := hf.2 folded left1 he
                split
                · exact ⟨by simp, fun chain left h => by cases h⟩
                · split
                  · rename_i e he2
                    refine ⟨fun h => hremf _ _ he2 ?_, fun chain left h => by cases h⟩
                    simpa using h
                  · rename_i left2 he2
                    have hl2 := hrem _ _ he2
                    exact hrec _ _ _ (by omega)
            · split
              · refine ⟨by simp, fun chain left h => ?_⟩
                simp only [Except.ok.injEq, Prod.mk.injEq] at h
                rw [← h.2]
                omega
              · exact hrec _ _ _ (Nat.le_refl _)

/-- The method `CreateTreeFromWXMCode` never runs out of the fuel of the model. -/
theorem CreateTreeFromWXMCode_fuel (wxmLines : List String) :
    wxMaxima.CreateTreeFromWXMCode wxmLines ≠ Except.error WXMFault.outOfFuel :=
  (CreateTreeFromWXMCode_loop_fuel (wxmLines.length + 1) wxmLines false []
    (Nat.lt_succ_self _)).1

/-- C27: the code indexes an empty array.  When the lines begin with a start marker of a
title, section, subsection, subsubsection, comment or input block and the end marker of
that block is not among the lines behind it, the inner loop of `CreateTreeFromWXMCode`
removes every line and then evaluates `wxmLines->Item(0)` on the empty array.  A page
break marker as the only line is removed by its branch, and the `RemoveAt(0)` at the end
of the round is applied to the empty array.  A fold start marker before any cell makes
the code call `last->HideTree` with `last` being `NULL`. -/
theorem CreateTreeFromWXMCode_not_total :
    (∀ (start endMarker : String) (type : GroupType) (content : List String),
      blockStart start = some (type, endMarker) → endMarker ∉ content →
      wxMaxima.CreateTreeFromWXMCode (start :: content) =
        Except.error WXMFault.itemOfEmpty) ∧
    wxMaxima.CreateTreeFromWXMCode ["/* [wxMaxima: page break    ] */"] =
      Except.error WXMFault.removeAtOfEmpty ∧
    wxMaxima.CreateTreeFromWXMCode
        ["/* [wxMaxima: fold    start ] */", "/* [wxMaxima: fold    end   ] */", ""] =
      Except.error WXMFault.nullLast := by
  refine ⟨?_, rfl, rfl⟩
  intro start endMarker type content hs hc
  have hh : (start == "/* [wxMaxima: hide output   ] */") = false := by
    cases h : start == "/* [wxMaxima: hide output   ] */" with
    | false => rfl
    | true =>
      have e : start = "/* [wxMaxima: hide output   ] */" := by simpa using h
      have hn : blockStart "/* [wxMaxima: hide output   ] */" = none := by decide
      rw [e, hn] at hs
      cases hs
  simp only [wxMaxima.CreateTreeFromWXMCode, List.length_cons, CreateTreeFromWXMCode_loop, hh,
    hs, CreateTreeFromWXMCode_block_unclosed endMarker content "" hc]
  rfl

/-- The theorem `CreateTreeFromWXMCode_not_total` at a title block of two lines without
its end marker. -/
theorem CreateTreeFromWXMCode_not_total_witness :
    wxMaxima.CreateTreeFromWXMCode ["/* [wxMaxima: title   start ]", "Title", "more"] =
      Except.error WXMFault.itemOfEmpty :=
  CreateTreeFromWXMCode_not_total.1 "/* [wxMaxima: title   start ]"
    "   [wxMaxima: title   end   ] */" GroupType.GC_TYPE_TITLE ["Title", "more"]
    (by decide) (by decide)

/-- C28: the code loses the block behind a page break.  For a page break marker directly
followed by an input block with the line `x;`, `CreateTreeFromWXMCode` returns the page
break cell alone: the branch of the page break removes its marker itself, and the
`RemoveAt(0)` at the end of the round removes the start marker of the input block; with
a separator line between them both cells are returned.  A comment block with the content
lines `""` and `foo` gets the text `foo`, not the joined lines, since the first line
is taken over as long as the text is empty.  A hide marker before a page break hides
the cell behind the page break. -/
theorem CreateTreeFromWXMCode_page_break_eats_line :
    wxMaxima.CreateTreeFromWXMCode
        ["/* [wxMaxima: page break    ] */", "/* [wxMaxima: input   start ] */", "x;",
          "/* [wxMaxima: input   end   ] */"] =
      Except.ok ([GroupCell.mk GroupType.GC_TYPE_PAGEBREAK "" false []], []) ∧
    wxMaxima.CreateTreeFromWXMCode
        ["/* [wxMaxima: page break    ] */", "", "/* [wxMaxima: input   start ] */", "x;",
          "/* [wxMaxima: input   end   ] */"] =
      Except.ok ([GroupCell.mk GroupType.GC_TYPE_PAGEBREAK "" false [],
        GroupCell.mk GroupType.GC_TYPE_CODE "x;" false []], []) ∧
    wxMaxima.CreateTreeFromWXMCode
        ["/* [wxMaxima: comment start ]", "", "foo", "   [wxMaxima: comment end   ] */"] =
      Except.ok ([GroupCell.mk GroupType.GC_TYPE_TEXT "foo" false []], []) ∧
    joinLines ["", "foo"] = "\nfoo" ∧
    wxMaxima.CreateTreeFromWXMCode
        ["/* [wxMaxima: hide output   ] */", "/* [wxMaxima: page break    ] */", "",
          "/* [wxMaxima: input   start ] */", "x;", "/* [wxMaxima: input   end   ] */"] =
      Except.ok ([GroupCell.mk GroupType.GC_TYPE_PAGEBREAK "" false [],
        GroupCell.mk GroupType.GC_TYPE_CODE "x;" true []], []) :=
  ⟨rfl, rfl, rfl, rfl, rfl⟩

/-- A round of the loop of `CreateTreeFromWXMCode` on a line that is no marker. -/
theorem CreateTreeFromWXMCode_loop_separator (fuel : Nat) (item : String)
    (wxmLines : List String) (hide : Bool) (tree : List GroupCell)
    (h : isSeparatorLine item = true) :
    CreateTreeFromWXMCode_loop (fuel + 1) (item :: wxmLines) hide tree =
      CreateTreeFromWXMCode_loop fuel wxmLines hide tree := by
  simp only [isSeparatorLine, Bool.and_eq_true, bne_iff_ne, ne_eq, Option.isNone_iff_eq_none]
    at h
  obtain ⟨⟨⟨⟨h1, h2⟩, h3⟩, h4⟩, h5⟩ := h
  have e1 : (item == "/* [wxMaxima: hide output   ] */") = false := by simpa using h1
  have e3 : (item == "/* [wxMaxima: page break    ] */") = false := by simpa using h3
  have e4 : (item == "/* [wxMaxima: fold    start ] */") = false := by simpa using h4
  have e5 : (item == "/* [wxMaxima: fold    end   ] */") = false := by simpa using h5
  simp only [CreateTreeFromWXMCode_loop, e1, h2, e3, e4, e5, Bool.false_eq_true, if_false]

/-- The loop of `CreateTreeFromWXMCode` passes over lines that are no markers. -/
theorem CreateTreeFromWXMCode_loop_separators :
    ∀ (separators wxmLines : List String) (fuel : Nat) (hide : Bool) (tree : List GroupCell),
      (∀ l ∈ separators, isSeparatorLine l = true) →
      CreateTreeFromWXMCode_loop (fuel + separators.length) (separators ++ wxmLines) hide tree =
        CreateTreeFromWXMCode_loop fuel wxmLines hide tree := by
  intro separators
  induction separators with
  | nil => intro wxmLines fuel hide tree _; rfl
  | cons item separators ih =>
    intro wxmLines fuel hide tree h
    have e : fuel + (item :: separators).length = (fuel + separators.length) + 1 := by
      simp only [List.length_cons]; omega
    rw [e, List.cons_append,
      CreateTreeFromWXMCode_loop_separator _ _ _ _ _ (h item (List.mem_cons_self _ _))]
    exact ih wxmLines fuel hide tree (fun l hl => h l (List.mem_cons_of_mem _ hl))

/-- A start marker of a block is not the hide marker. -/
theorem blockStart_ne_hide (start endMarker : String) (type : GroupType)
    (hs : blockStart start = some (type, endMarker)) :
    (start == "/* [wxMaxima: hide output   ] */") = false := by
  cases h : start == "/* [wxMaxima: hide output   ] */" with
  | false => rfl
  | true =>
    have e : start = "/* [wxMaxima: hide output   ] */" := by simpa using h
    have hn : blockStart "/* [wxMaxima: hide output   ] */" = none := by decide
    rw [e, hn] at hs
    cases hs

/-- The inner loop of a block branch on content lines without the end marker, followed
by the end marker: a text that is not empty gets every line appended behind a newline
character. -/
theorem CreateTreeFromWXMCode_block_nonempty (endMarker : String) (wxmLines : List String) :
    ∀ (content : List String) (line : String), endMarker ∉ content → line ≠ "" →
      CreateTreeFromWXMCode_block endMarker (content ++ endMarker :: wxmLines) line =
        Except.ok (joinLines (line :: content), endMarker :: wxmLines) := by
  intro content
  induction content with
  | nil =>
    intro line _ _
    simp [CreateTreeFromWXMCode_block, joinLines]
  | cons item content ih =>
    intro line h hl
    have h1 : item ≠ endMarker := fun e => h (e ▸ List.mem_cons_self _ _)
    have h2 : endMarker ∉ content := fun e => h (List.mem_cons_of_mem _ e)
    have h3 : (item != endMarker) = true := by simpa using h1
    have hlen : (line.length == 0) = false := by
      cases hc : line.length == 0 with
      | false => rfl
      | true =>
        have h0 : line.length = 0 := by simpa using hc
        have h1 : line.data = [] := List.length_eq_zero.mp h0
        exact absurd (String.ext h1) hl
    have hne : line ++ ("\n" ++ item) ≠ "" := by
      intro e
      have := congrArg String.length e
      simp only [String.length_append] at this
      have h0 : "".length = 0 := rfl
      have h1 : "\n".length = 1 := rfl
      omega
    simp only [List.cons_append, CreateTreeFromWXMCode_block, h3, if_true, hlen,
      Bool.false_eq_true, if_false]
    refine Eq.trans (ih _ h2 hne) ?_
    cases content with
    | nil => simp [joinLines, String.append_assoc]
    | cons c content => simp [joinLines, String.append_assoc]

/-- The inner loop of a block branch on a well-formed block: the text is the content
lines joined by newline characters when the first content line is not empty. -/
theorem CreateTreeFromWXMCode_block_joinLines (endMarker : String) (wxmLines : List String)
    (content : List String) (h : endMarker ∉ content) (hhead : content.head? ≠ some "") :
    CreateTreeFromWXMCode_block endMarker (content ++ endMarker :: wxmLines) "" =
      Except.ok (joinLines content, endMarker :: wxmLines) := by
  cases content with
  | nil => simp [CreateTreeFromWXMCode_block, joinLines]
  | cons item content =>
    have h1 : item ≠ endMarker := fun e => h (e ▸ List.mem_cons_self _ _)
    have h2 : endMarker ∉ content := fun e => h (List.mem_cons_of_mem _ e)
    have h3 : (item != endMarker) = true := by simpa using h1
    have hi : item ≠ "" := by simpa using hhead
    have h0 : ("".length == 0) = true := rfl
    simp only [List.cons_append, CreateTreeFromWXMCode_block, h3, if_true, h0]
    exact CreateTreeFromWXMCode_block_nonempty endMarker wxmLines content item h2 hi

/-- With more rounds of fuel than lines, the loop of `CreateTreeFromWXMCode` on the
lines of readable blocks appends the cells of the blocks to the chain, in their order,
and leaves no line. -/
theorem CreateTreeFromWXMCode_loop_blocks :
    ∀ (blocks : List (WXMBlock × List String)) (fuel : Nat) (tree : List GroupCell),
      (∀ b ∈ blocks, WXMBlock.readable b) →
      (WXMBlock.fileLines blocks).length < fuel →
      CreateTreeFromWXMCode_loop fuel (WXMBlock.fileLines blocks) false tree =
        Except.ok (tree ++ blocks.map (fun b => WXMBlock.cell b.1), []) := by
  intro blocks
  induction blocks with
  | nil =>
    intro fuel tree _ hf
    cases fuel with
    | zero => simp [WXMBlock.fileLines] at hf
    | succ fuel => simp [WXMBlock.fileLines, CreateTreeFromWXMCode_loop]
  | cons b blocks ih =>
    intro fuel tree hr hf
    have hb := hr b (List.mem_cons_self _ _)
    have hrest : ∀ b2 ∈ blocks, WXMBlock.readable b2 :=
      fun b2 h2 => hr b2 (List.mem_cons_of_mem _ h2)
    obtain ⟨block, separators⟩ := b
    cases block with
    | pageBreak =>
      obtain ⟨hne, hsep⟩ := hb
      cases separators with
      | nil => exact absurd rfl hne
      | cons s separators =>
        simp only [WXMBlock.fileLines, WXMBlock.lines, List.cons_append, List.nil_append,
          List.length_cons, List.length_append] at hf ⊢
        obtain ⟨f, rfl⟩ : ∃ f, fuel = (f + separators.length) + 1 + 1 :=
          ⟨fuel - separators.length - 2, by omega⟩
        have e1 : CreateTreeFromWXMCode_loop (f + separators.length + 1 + 1)
            ("/* [wxMaxima: page break    ] */" ::
              s :: (separators ++ WXMBlock.fileLines blocks)) false tree =
            CreateTreeFromWXMCode_loop (f + separators.length + 1)
              (separators ++ WXMBlock.fileLines blocks) false
              (tree ++ [GroupCell.mk GroupType.GC_TYPE_PAGEBREAK "" false []]) := by
          have hn : blockStart "/* [wxMaxima: page break    ] */" = none := by decide
          have hh : ("/* [wxMaxima: page break    ] */" ==
            "/* [wxMaxima: hide output   ] */") = false := by decide
          simp only [CreateTreeFromWXMCode_loop, hn, hh, wxArrayString.RemoveAt0,
            Bool.false_eq_true, if_false, beq_self_eq_true, if_true]
        have e2 : f + separators.length + 1 = (f + 1) + separators.length := by omega
        rw [e1, e2, CreateTreeFromWXMCode_loop_separators separators _ (f + 1) false _ hsep,
          ih (f + 1) _ hrest (by omega)]
        simp [WXMBlock.cell]
    | text hide type start endMarker content =>
      obtain ⟨hs, hc, hhead, hsep⟩ := hb
      have hh := blockStart_ne_hide start endMarker type hs
      have hstart : ∀ (f : Nat) (hd : Bool),
          CreateTreeFromWXMCode_loop (f + separators.length + 1)
            (start :: (content ++ endMarker :: (separators ++ WXMBlock.fileLines blocks)))
            hd tree =
          CreateTreeFromWXMCode_loop f (WXMBlock.fileLines blocks) false
            (tree ++ [GroupCell.mk type (joinLines content) hd []]) := by
        intro f hd
        simp only [CreateTreeFromWXMCode_loop, hh, hs, Bool.false_eq_true, if_false,
          CreateTreeFromWXMCode_block_joinLines endMarker _ content hc hhead,
          wxArrayString.RemoveAt0]
        exact CreateTreeFromWXMCode_loop_separators separators _ f false _ hsep
      cases hide with
      | false =>
        simp only [WXMBlock.fileLines, WXMBlock.lines, List.cons_append, List.nil_append,
          List.length_cons, List.length_append, List.append_assoc, Bool.false_eq_true,
          if_false, List.singleton_append] at hf ⊢
        obtain ⟨f, rfl⟩ : ∃ f, fuel = f + separators.length + 1 :=
          ⟨fuel - separators.length - 1, by omega⟩
        rw [hstart f false, ih f _ hrest (by omega)]
        simp [WXMBlock.cell]
      | true =>
        simp only [WXMBlock.fileLines, WXMBlock.lines, List.cons_append, List.nil_append,
          List.length_cons, List.length_append, List.append_assoc,
          if_true, List.singleton_append] at hf ⊢
        obtain ⟨f, rfl⟩ : ∃ f, fuel = f + separators.length + 1 + 1 :=
          ⟨fuel - separators.length - 2, by omega⟩
        have e1 : CreateTreeFromWXMCode_loop (f + separators.length + 1 + 1)
            ("/* [wxMaxima: hide output   ] */" :: start ::
              (content ++ endMarker :: (separators ++ WXMBlock.fileLines blocks))) false tree =
            CreateTreeFromWXMCode_loop (f + separators.length + 1)
              (start :: (content ++ endMarker :: (separators ++ WXMBlock.fileLines blocks)))
              true tree := by
          simp only [CreateTreeFromWXMCode_loop, beq_self_eq_true, if_true]
        rw [e1, hstart f true, ih f _ hrest (by omega)]
        simp [WXMBlock.cell]

/-- For readable blocks `CreateTreeFromWXMCode` yields one group cell per block, in
order.  The lines are separator lines (lines that are no markers) followed by blocks,
each with separator lines behind it, where every text block has the markers of one
type, content lines without the end marker, and a first content line that is not empty,
and every page break has a line behind it that is given up.  Then the returned chain
has the cell of every block in the order of the blocks: the type of the block, the
content lines joined by newline characters, hidden exactly for the blocks with a hide
marker; and no line is left. -/
theorem CreateTreeFromWXMCode_blocks (leading : List String)
    (blocks : List (WXMBlock × List String))
    (hl : ∀ l ∈ leading, isSeparatorLine l = true)
    (hr : ∀ b ∈ blocks, WXMBlock.readable b) :
    wxMaxima.CreateTreeFromWXMCode (leading ++ WXMBlock.fileLines blocks) =
      Except.ok (blocks.map (fun b => WXMBlock.cell b.1), []) := by
  have e : (leading ++ WXMBlock.fileLines blocks).length + 1 =
      ((WXMBlock.fileLines blocks).length + 1) + leading.length := by
    simp only [List.length_append]; omega
  rw [wxMaxima.CreateTreeFromWXMCode, e,
    CreateTreeFromWXMCode_loop_separators leading _ _ false [] hl,
    CreateTreeFromWXMCode_loop_blocks blocks _ [] hr (Nat.lt_succ_self _)]
  simp

/-- The theorem `CreateTreeFromWXMCode_blocks` at the file `demoWXMBlocks` behind two
leading lines: the chain has the title, the hidden input cell, the page break and the
comment. -/
theorem CreateTreeFromWXMCode_blocks_witness :
    wxMaxima.CreateTreeFromWXMCode
        (["/* header */", ""] ++ WXMBlock.fileLines demoWXMBlocks) =
      Except.ok ([GroupCell.mk GroupType.GC_TYPE_TITLE "Title" false [],
        GroupCell.mk GroupType.GC_TYPE_CODE "x:1;\ny:2;" true [],
        GroupCell.mk GroupType.GC_TYPE_PAGEBREAK "" false [],
        GroupCell.mk GroupType.GC_TYPE_TEXT "a\n\nb" false []], []) :=
  CreateTreeFromWXMCode_blocks ["/* header */", ""] demoWXMBlocks (by decide)
    (by
      intro b hb
      simp only [demoWXMBlocks, List.mem_cons, List.mem_singleton, List.not_mem_nil,
        or_false] at hb
      rcases hb with rfl | rfl | rfl | rfl
      · exact ⟨by decide, by decide, by decide, by decide⟩
      · exact ⟨by decide, by decide, by decide, by decide⟩
      · exact ⟨by decide, by decide⟩
      · exact ⟨by decide, by decide, by decide, by decide⟩)

/-! ## `BreakUp` followed by `Unbreak`: the export -/

/-- The cell at an address of heaps with the same content. -/
theorem Heap.content_get {H H' : Heap} (h : H.content = H'.content) (q : Nat) :
    (H[q]? = none ∧ H'[q]? = none) ∨
      ∃ c c', H[q]? = some c ∧ H'[q]? = some c' ∧ c.content = c'.content := by
  have e : (H.content)[q]? = (H'.content)[q]? := by rw [h]
  simp only [Heap.content, List.getElem?_map] at e
  cases hx : H[q]? with
  | none =>
    cases hx' : H'[q]? with
    | none => exact Or.inl ⟨rfl, rfl⟩
    | some x' => simp [hx, hx'] at e
  | some x =>
    cases hx' : H'[q]? with
    | none => simp [hx, hx'] at e
    | some x' =>
      simp only [hx, hx', Option.map_some', Option.some.injEq] at e
      exact Or.inr ⟨x, x', rfl, rfl, e⟩

/-- A write to a cell that keeps its content keeps the content of the heap. -/
theorem Heap.content_set {H : Heap} {p : Nat} {c x : Cell} (hp : H[p]? = some c)
    (hx : x.content = c.content) : Heap.content (H.set p x) = H.content := by
  apply List.ext_getElem?
  intro n
  simp only [Heap.content, List.getElem?_map, List.getElem?_set]
  by_cases e : p = n
  · subst e
    have hlt : p < H.length := by
      rcases Nat.lt_or_ge p H.length with h | h
      · exact h
      · rw [List.getElem?_eq_none h] at hp
        cases hp
    simp [hlt, hp, hx]
  · simp [e]

/-- The cell at a live address after a write to it. -/
theorem Heap.get_set_self {H : Heap} {p : Nat} {c : Cell} (hp : H[p]? = some c) (x : Cell) :
    (H.set p x)[p]? = some x := by
  have hlt : p < H.length := by
    rcases Nat.lt_or_ge p H.length with h | h
    · exact h
    · rw [List.getElem?_eq_none h] at hp
      cases hp
  exact List.getElem?_set_self hlt

/-- The method `RecalculateWidths` on a cell that needs recalculation, is not broken into
lines and owns its three lists: it returns, it keeps the content of the tree, and it
leaves the cell with the width that `GetFullWidth` measures for the inner list after
the pass over it, plus the bars. -/
theorem AbsCell.RecalculateWidths_forced (E : CellEnv) (fontsize : Int) {H K : Heap}
    {p i o cl : Nat} {c : Cell} (hK : K.content = H.content)
    (hp : K[p]? = some c) (hb : c.m_isBrokenIntoLines = false)
    (hi : c.m_innerCell = some i) (ho : c.m_open = some o) (hcl : c.m_close = some cl)
    (hn : E.NeedsRecalculation K p = true)
    (hloc : E.ListPassesAreLocal H p [i, o, cl]) :
    ∃ J d, AbsCell.RecalculateWidths E fontsize K p = some J ∧ J.content = H.content ∧
      J[p]? = some d ∧
      d.m_width = E.GetFullWidth (E.RecalculateWidthsList fontsize K i) i + E.Scale_Px 8 +
        2 * E.GetDefaultLineWidth ∧
      d.m_height = c.m_height ∧ d.m_center = c.m_center ∧
      d.m_isBrokenIntoLines = false ∧ d.m_innerCell = some i ∧ d.m_open = some o ∧
      d.m_close = some cl := by
  -- m_innerCell->RecalculateWidthsList(fontsize);
  obtain ⟨c1, _, p1, _, _⟩ := hloc fontsize K i hK (by simp)
  rw [hp] at p1
  -- m_width = ...
  obtain ⟨cw, hcw⟩ : ∃ cw : Cell, cw = { c with
      m_width := E.GetFullWidth (E.RecalculateWidthsList fontsize K i) i + E.Scale_Px 8 +
        2 * E.GetDefaultLineWidth } := ⟨_, rfl⟩
  have hU2 : (E.RecalculateWidthsList fontsize K i).update p (fun x => { x with
      m_width := E.GetFullWidth (E.RecalculateWidthsList fontsize K i) i + E.Scale_Px 8 +
        2 * E.GetDefaultLineWidth }) =
      some ((E.RecalculateWidthsList fontsize K i).set p cw) := by
    rw [hcw]
    exact Heap.update_of_get _ p1
  have c2 : Heap.content ((E.RecalculateWidthsList fontsize K i).set p cw) = H.content := by
    rw [Heap.content_set p1 (by rw [hcw]; rfl), c1]
  have p2 : ((E.RecalculateWidthsList fontsize K i).set p cw)[p]? = some cw :=
    Heap.get_set_self p1 cw
  generalize (E.RecalculateWidthsList fontsize K i).set p cw = J2 at hU2 c2 p2
  -- m_open->RecalculateWidthsList(fontsize);
  obtain ⟨c3, _, p3, _, _⟩ := hloc fontsize J2 o c2 (by simp)
  rw [p2] at p3
  -- m_close->RecalculateWidthsList(fontsize);
  obtain ⟨c4, _, p4, _, _⟩ := hloc fontsize (E.RecalculateWidthsList fontsize J2 o) cl c3
    (by simp)
  rw [p3] at p4
  -- Cell::RecalculateWidths(fontsize);
  obtain ⟨d, hd⟩ : ∃ d : Cell, d = { cw with
      base := E.Cell_RecalculateWidths fontsize cw.base } := ⟨_, rfl⟩
  have hU5 : (E.RecalculateWidthsList fontsize (E.RecalculateWidthsList fontsize J2 o) cl).update
      p (fun x => { x with base := E.Cell_RecalculateWidths fontsize x.base }) =
      some ((E.RecalculateWidthsList fontsize
        (E.RecalculateWidthsList fontsize J2 o) cl).set p d) := by
    rw [hd]
    exact Heap.update_of_get _ p4
  have hcwo : cw.m_open = some o := by rw [hcw]; exact ho
  have hcwc : cw.m_close = some cl := by rw [hcw]; exact hcl
  refine ⟨_, d, ?_, ?_, Heap.get_set_self p4 d, ?_, ?_, ?_, ?_, ?_, ?_, ?_⟩
  · unfold AbsCell.RecalculateWidths
    simp only [hp, hn, Bool.not_true, Bool.false_eq_true, if_false, hb,
      AbsCell.RecalculateWidths_unbroken, Option.some_bind, hi, p1, hU2, ho, p3, hcwc]
    exact hU5
  · rw [Heap.content_set p4 (by rw [hd]; rfl), c4]
  · rw [hd, hcw]
  · rw [hd, hcw]
  · rw [hd, hcw]
  · rw [hd, hcw]; exact hb
  · rw [hd, hcw]; exact hi
  · rw [hd, hcw]; exact ho
  · rw [hd, hcw]; exact hcl
/-- The method `RecalculateHeight` on a cell that needs recalculation, is not broken into
lines and owns its three lists: it returns, it keeps the content of the tree, and it
leaves the cell with the height and the center that `GetMaxHeight` and `GetMaxCenter`
measure for the inner list after the pass over it, plus the margins. -/
theorem AbsCell.RecalculateHeight_forced (E : CellEnv) (fontsize : Int) {H K : Heap}
    {p i o cl : Nat} {c : Cell} (hK : K.content = H.content)
    (hp : K[p]? = some c) (hb : c.m_isBrokenIntoLines = false)
    (hi : c.m_innerCell = some i) (ho : c.m_open = some o) (hcl : c.m_close = some cl)
    (hn : E.NeedsRecalculation K p = true)
    (hloc : E.ListPassesAreLocal H p [i, o, cl]) :
    ∃ G d K2, AbsCell.RecalculateHeight E fontsize K p = some G ∧ G.content = H.content ∧
      G[p]? = some d ∧ K2.content = H.content ∧
      d.m_width = c.m_width ∧
      d.m_height = E.GetMaxHeight (E.RecalculateHeightList fontsize K2 i) i + E.Scale_Px 4 ∧
      d.m_center = E.GetMaxCenter (E.RecalculateHeightList fontsize K2 i) i + E.Scale_Px 2 ∧
      d.m_isBrokenIntoLines = false ∧ d.m_innerCell = some i ∧ d.m_open = some o ∧
      d.m_close = some cl := by
  -- Cell::RecalculateHeight(fontsize);
  obtain ⟨c0, hc0⟩ : ∃ c0 : Cell, c0 = { c with
      base := E.Cell_RecalculateHeight fontsize c.base } := ⟨_, rfl⟩
  have hU0 : K.update p (fun x => { x with
      base := E.Cell_RecalculateHeight fontsize x.base }) = some (K.set p c0) := by
    rw [hc0]
    exact Heap.update_of_get _ hp
  have t0 : Heap.content (K.set p c0) = H.content := by
    rw [Heap.content_set hp (by rw [hc0]; rfl), hK]
  have p0 : (K.set p c0)[p]? = some c0 := Heap.get_set_self hp c0
  generalize K.set p c0 = H0 at hU0 t0 p0
  -- m_height = wxMax(m_innerCell->GetMaxHeight(), m_open->GetMaxHeight());
  obtain ⟨c1, hc1⟩ : ∃ c1 : Cell, c1 = { c0 with
      m_height := max (E.GetMaxHeight H0 i) (E.GetMaxHeight H0 o) } := ⟨_, rfl⟩
  have hU1 : Heap.update H0 p (fun x => { x with
      m_height := max (E.GetMaxHeight H0 i) (E.GetMaxHeight H0 o) }) = some (H0.set p c1) := by
    rw [hc1]
    exact Heap.update_of_get _ p0
  have t1 : Heap.content (H0.set p c1) = H.content := by
    rw [Heap.content_set p0 (by rw [hc1]; rfl), t0]
  have p1 : (H0.set p c1)[p]? = some c1 := Heap.get_set_self p0 c1
  generalize H0.set p c1 = H1 at hU1 t1 p1
  -- m_center = wxMax(m_innerCell->GetMaxCenter(), m_open->GetMaxCenter());
  obtain ⟨c2, hc2⟩ : ∃ c2 : Cell, c2 = { c1 with
      m_center := max (E.GetMaxCenter H1 i) (E.GetMaxCenter H1 o) } := ⟨_, rfl⟩
  have hU2 : Heap.update H1 p (fun x => { x with
      m_center := max (E.GetMaxCenter H1 i) (E.GetMaxCenter H1 o) }) = some (H1.set p c2) := by
    rw [hc2]
    exact Heap.update_of_get _ p1
  have t2 : Heap.content (H1.set p c2) = H.content := by
    rw [Heap.content_set p1 (by rw [hc2]; rfl), t1]
  have p2 : (H1.set p c2)[p]? = some c2 := Heap.get_set_self p1 c2
  generalize H1.set p c2 = H2 at hU2 t2 p2
  -- m_innerCell->RecalculateHeightList(fontsize);
  obtain ⟨_, t3, _, p3, hread⟩ := hloc fontsize H2 i t2 (by simp)
  rw [p2] at p3
  obtain ⟨_, _, _, _, hread3⟩ := hloc fontsize (E.RecalculateHeightList fontsize H2 i) i t3
    (by simp)
  -- m_height = m_innerCell->GetMaxHeight() + Scale_Px(4);
  obtain ⟨c4, hc4⟩ : ∃ c4 : Cell, c4 = { c2 with
      m_height := E.GetMaxHeight (E.RecalculateHeightList fontsize H2 i) i + E.Scale_Px 4 } :=
    ⟨_, rfl⟩
  have hU4 : (E.RecalculateHeightList fontsize H2 i).update p (fun x => { x with
      m_height := E.GetMaxHeight (E.RecalculateHeightList fontsize H2 i) i + E.Scale_Px 4 }) =
      some ((E.RecalculateHeightList fontsize H2 i).set p c4) := by
    rw [hc4]
    exact Heap.update_of_get _ p3
  have t4 : Heap.content ((E.RecalculateHeightList fontsize H2 i).set p c4) = H.content := by
    rw [Heap.content_set p3 (by rw [hc4]; rfl), t3]
  have p4 : ((E.RecalculateHeightList fontsize H2 i).set p c4)[p]? = some c4 :=
    Heap.get_set_self p3 c4
  have m4 : E.GetMaxCenter ((E.RecalculateHeightList fontsize H2 i).set p c4) i =
      E.GetMaxCenter (E.RecalculateHeightList fontsize H2 i) i := (hread3 c4).2.2
  generalize (E.RecalculateHeightList fontsize H2 i).set p c4 = H4 at hU4 t4 p4 m4
  -- m_center = m_innerCell->GetMaxCenter() + Scale_Px(2);
  obtain ⟨c5, hc5⟩ : ∃ c5 : Cell, c5 = { c4 with
      m_center := E.GetMaxCenter H4 i + E.Scale_Px 2 } := ⟨_, rfl⟩
  have hU5 : Heap.update H4 p (fun x => { x with
      m_center := E.GetMaxCenter H4 i + E.Scale_Px 2 }) = some (H4.set p c5) := by
    rw [hc5]
    exact Heap.update_of_get _ p4
  have t5 : Heap.content (H4.set p c5) = H.content := by
    rw [Heap.content_set p4 (by rw [hc5]; rfl), t4]
  have p5 : (H4.set p c5)[p]? = some c5 := Heap.get_set_self p4 c5
  generalize H4.set p c5 = H5 at hU5 t5 p5
  -- m_open->RecalculateHeightList(fontsize);
  obtain ⟨_, t6, _, p6, _⟩ := hloc fontsize H5 o t5 (by simp)
  rw [p5] at p6
  -- m_close->RecalculateHeightList(fontsize);
  obtain ⟨_, t7, _, p7, _⟩ := hloc fontsize (E.RecalculateHeightList fontsize H5 o) cl t6
    (by simp)
  rw [p6] at p7
  have e0b : c0.m_isBrokenIntoLines = false := by rw [hc0]; exact hb
  have e0i : c0.m_innerCell = some i := by rw [hc0]; exact hi
  have e0o : c0.m_open = some o := by rw [hc0]; exact ho
  have e2i : c2.m_innerCell = some i := by rw [hc2, hc1]; exact e0i
  have e2o : c2.m_open = some o := by rw [hc2, hc1]; exact e0o
  have e5c : c5.m_close = some cl := by rw [hc5, hc4, hc2, hc1, hc0]; exact hcl
  refine ⟨_, c5, H2, ?_, t7, p7, t2, ?_, ?_, ?_, ?_, ?_, ?_, e5c⟩
  · unfold AbsCell.RecalculateHeight
    simp only [hp, hn, Bool.not_true, Bool.false_eq_true, if_false, hU0, Option.some_bind,
      p0, e0b, Bool.not_false, if_true, AbsCell.RecalculateHeight_unbroken, e0i, e0o, hU1,
      hU2, p3, e2i, hU4, hU5, e2o, p6, e5c]
  · rw [hc5, hc4, hc2, hc1, hc0]
  · rw [hc5, hc4]
  · rw [hc5, m4]
  · rw [hc5, hc4, hc2, hc1]; exact e0b
  · rw [hc5, hc4]; exact e2i
  · rw [hc5, hc4]; exact e2o
/-- While `NeedsRecalculation()` is false, `RecalculateWidths` and `RecalculateHeight`
hand back the heap as it was. -/
theorem AbsCell.Recalculate_of_clean (E : CellEnv) (fontsize : Int) {K : Heap} {p : Nat}
    {x : Cell} (hx : K[p]? = some x) (hn : E.NeedsRecalculation K p = false) :
    AbsCell.RecalculateWidths E fontsize K p = some K ∧
      AbsCell.RecalculateHeight E fontsize K p = some K ∧
      AbsCell.Recalculate E fontsize K p = some K := by
  have h1 : AbsCell.RecalculateWidths E fontsize K p = some K := by
    simp [AbsCell.RecalculateWidths, hx, hn]
  have h2 : AbsCell.RecalculateHeight E fontsize K p = some K := by
    simp [AbsCell.RecalculateHeight, hx, hn]
  exact ⟨h1, h2, by simp [AbsCell.Recalculate, h1, h2]⟩

/-- A round of `RecalculateWidths` and `RecalculateHeight` on a cell that is broken into
lines: it returns, the cell stays broken into lines and keeps its center; when the cell
needed recalculation its width and height are 0 afterwards, and when it did not the
heap is as it was. -/
theorem AbsCell.Recalculate_of_broken (E : CellEnv) (fontsize : Int) {H : Heap} {p : Nat}
    {c : Cell} (hp : H[p]? = some c) (hb : c.m_isBrokenIntoLines = true) :
    ∃ H' c', AbsCell.Recalculate E fontsize H p = some H' ∧ H'[p]? = some c' ∧
      c'.m_isBrokenIntoLines = true ∧ c'.m_center = c.m_center ∧
      ((c'.m_width = 0 ∧ c'.m_height = 0) ∨ H' = H) := by
  by_cases hn : E.NeedsRecalculation H p = true
  · obtain ⟨d1, hd1⟩ : ∃ d1 : Cell, d1 = { c with m_width := 0, m_height := 0 } := ⟨_, rfl⟩
    have hU1 : H.update p (fun x => { x with m_width := 0, m_height := 0 }) =
        some (H.set p d1) := by
      rw [hd1]
      exact Heap.update_of_get _ hp
    have p1 : (H.set p d1)[p]? = some d1 := Heap.get_set_self hp d1
    generalize H.set p d1 = H1 at hU1 p1
    obtain ⟨d2, hd2⟩ : ∃ d2 : Cell, d2 = { d1 with
        base := E.Cell_RecalculateWidths fontsize d1.base } := ⟨_, rfl⟩
    have hU2 : Heap.update H1 p (fun x => { x with
        base := E.Cell_RecalculateWidths fontsize x.base }) = some (H1.set p d2) := by
      rw [hd2]
      exact Heap.update_of_get _ p1
    have p2 : (H1.set p d2)[p]? = some d2 := Heap.get_set_self p1 d2
    generalize H1.set p d2 = H2 at hU2 p2
    have hRW : AbsCell.RecalculateWidths E fontsize H p = some H2 := by
      unfold AbsCell.RecalculateWidths
      simp only [hp, hn, Bool.not_true, Bool.false_eq_true, if_false, hb, if_true, hU1,
        Option.some_bind]
      exact hU2
    have e2b : d2.m_isBrokenIntoLines = true := by rw [hd2, hd1]; exact hb
    by_cases hn2 : E.NeedsRecalculation H2 p = true
    · obtain ⟨d3, hd3⟩ : ∃ d3 : Cell, d3 = { d2 with
          base := E.Cell_RecalculateHeight fontsize d2.base } := ⟨_, rfl⟩
      have hU3 : Heap.update H2 p (fun x => { x with
          base := E.Cell_RecalculateHeight fontsize x.base }) = some (H2.set p d3) := by
        rw [hd3]
        exact Heap.update_of_get _ p2
      have p3 : (H2.set p d3)[p]? = some d3 := Heap.get_set_self p2 d3
      have e3b : d3.m_isBrokenIntoLines = true := by rw [hd3]; exact e2b
      have hRH : AbsCell.RecalculateHeight E fontsize H2 p = some (H2.set p d3) := by
        unfold AbsCell.RecalculateHeight
        simp only [p2, hn2, Bool.not_true, Bool.false_eq_true, if_false, hU3, Option.some_bind,
          p3, e3b]
      refine ⟨_, d3, by simp [AbsCell.Recalculate, hRW, hRH], p3, e3b, ?_, Or.inl ⟨?_, ?_⟩⟩
      · rw [hd3, hd2, hd1]
      · rw [hd3, hd2, hd1]
      · rw [hd3, hd2, hd1]
    · have hn2' : E.NeedsRecalculation H2 p = false := by simpa using hn2
      have hRH := (AbsCell.Recalculate_of_clean E fontsize p2 hn2').2.1
      refine ⟨H2, d2, by simp [AbsCell.Recalculate, hRW, hRH], p2, e2b, ?_, Or.inl ⟨?_, ?_⟩⟩
      · rw [hd2, hd1]
      · rw [hd2, hd1]
      · rw [hd2, hd1]
  · have hn' : E.NeedsRecalculation H p = false := by simpa using hn
    exact ⟨H, c, (AbsCell.Recalculate_of_clean E fontsize hp hn').2.2, hp, hb, rfl, Or.inr rfl⟩

/-- A round of `RecalculateWidths` and `RecalculateHeight` on a cell that needs
recalculation, is not broken into lines and owns its three lists: it returns, it keeps
the content of the tree, the width of the cell is the one that `GetFullWidth` measures
after the pass over the inner list, plus the bars, and its height and center are the
ones it had, or the ones that `GetMaxHeight` and `GetMaxCenter` measure after the pass
over the inner list, plus the margins. -/
theorem AbsCell.Recalculate_forced (E : CellEnv) (fontsize : Int) {H K : Heap}
    {p i o cl : Nat} {c : Cell} (hK : K.content = H.content)
    (hp : K[p]? = some c) (hb : c.m_isBrokenIntoLines = false)
    (hi : c.m_innerCell = some i) (ho : c.m_open = some o) (hcl : c.m_close = some cl)
    (hn : E.NeedsRecalculation K p = true)
    (hloc : E.ListPassesAreLocal H p [i, o, cl]) :
    ∃ G d, AbsCell.Recalculate E fontsize K p = some G ∧ G.content = H.content ∧
      G[p]? = some d ∧
      d.m_isBrokenIntoLines = false ∧ d.m_innerCell = some i ∧ d.m_open = some o ∧
      d.m_close = some cl ∧
      d.m_width = E.GetFullWidth (E.RecalculateWidthsList fontsize K i) i + E.Scale_Px 8 +
        2 * E.GetDefaultLineWidth ∧
      ((E.NeedsRecalculation G p = false ∧ d.m_height = c.m_height ∧
          d.m_center = c.m_center) ∨
        ∃ K2, K2.content = H.content ∧
          d.m_height =
            E.GetMaxHeight (E.RecalculateHeightList fontsize K2 i) i + E.Scale_Px 4 ∧
          d.m_center =
            E.GetMaxCenter (E.RecalculateHeightList fontsize K2 i) i + E.Scale_Px 2) := by
  obtain ⟨J, d, hRW, hJc, hJp, hw, hh, hce, hdb, hdi, hdo, hdc⟩ :=
    AbsCell.RecalculateWidths_forced E fontsize hK hp hb hi ho hcl hn hloc
  by_cases hn2 : E.NeedsRecalculation J p = true
  · obtain ⟨G, d', K2, hRH, hGc, hGp, hK2, hw', hh', hce', hb', hi', ho', hcl'⟩ :=
      AbsCell.RecalculateHeight_forced E fontsize hJc hJp hdb hdi hdo hdc hn2 hloc
    refine ⟨G, d', by simp [AbsCell.Recalculate, hRW, hRH], hGc, hGp, hb', hi', ho', hcl',
      by rw [hw', hw], Or.inr ⟨K2, hK2, hh', hce'⟩⟩
  · have hn2' : E.NeedsRecalculation J p = false := by simpa using hn2
    have hRH := (AbsCell.Recalculate_of_clean E fontsize hJp hn2').2.1
    exact ⟨J, d, by simp [AbsCell.Recalculate, hRW, hRH], hJc, hJp, hdb, hdi, hdo, hdc, hw,
      Or.inl ⟨hn2', hh, hce⟩⟩

/-- Two rounds on a cell that needs recalculation, is not broken into lines and owns its
three lists, when the list passes are local and the measures follow the content: the
second round returns, with the width, height and center of the first. -/
theorem AbsCell.Recalculate_twice_forced (E : CellEnv) (fontsize : Int) {H H1 : Heap}
    {p i o cl : Nat} {c : Cell} (hp : H[p]? = some c) (hb : c.m_isBrokenIntoLines = false)
    (hi : c.m_innerCell = some i) (ho : c.m_open = some o) (hcl : c.m_close = some cl)
    (hn : E.NeedsRecalculation H p = true)
    (hloc : E.ListPassesAreLocal H p [i, o, cl])
    (hmeas : E.MeasuresFollowContent H [i, o, cl])
    (h1 : AbsCell.Recalculate E fontsize H p = some H1) :
    ∃ H2 c1 c2, AbsCell.Recalculate E fontsize H1 p = some H2 ∧
      H1[p]? = some c1 ∧ H2[p]? = some c2 ∧
      c2.m_width = c1.m_width ∧ c2.m_height = c1.m_height ∧ c2.m_center = c1.m_center := by
  obtain ⟨G, d, hR1, hGc, hGp, hdb, hdi, hdo, hdc, hw, hrest⟩ :=
    AbsCell.Recalculate_forced E fontsize rfl hp hb hi ho hcl hn hloc
  rw [h1] at hR1
  simp only [Option.some.injEq] at hR1
  subst hR1
  by_cases hn1 : E.NeedsRecalculation H1 p = true
  · obtain ⟨G2, e, hR2, _, hG2p, _, _, _, _, hw2, hrest2⟩ :=
      AbsCell.Recalculate_forced E fontsize hGc hGp hdb hdi hdo hdc hn1 hloc
    have hwe : e.m_width = d.m_width := by
      rw [hw2, hw, (hmeas fontsize H1 H i hGc rfl (by simp)).1]
    refine ⟨G2, d, e, hR2, hGp, hG2p, hwe, ?_⟩
    rcases hrest2 with ⟨_, hh2, hce2⟩ | ⟨K2', hK2', hh2, hce2⟩
    · exact ⟨hh2, hce2⟩
    · rcases hrest with ⟨hclean, _, _⟩ | ⟨K2, hK2, hh, hce⟩
      · rw [hclean] at hn1
        cases hn1
      · obtain ⟨_, m1, m2⟩ := hmeas fontsize K2' K2 i hK2' hK2 (by simp)
        exact ⟨by rw [hh2, hh, m1], by rw [hce2, hce, m2]⟩
  · have hn1' : E.NeedsRecalculation H1 p = false := by simpa using hn1
    exact ⟨H1, d, d, (AbsCell.Recalculate_of_clean E fontsize hGp hn1').2.2, hGp, hGp, rfl,
      rfl, rfl⟩

/-- C5.  Recalculation is memoized.  While `NeedsRecalculation()` is false,
`RecalculateWidths(fontsize)` and `RecalculateHeight(fontsize)` hand back the heap as
it was, for every font size: no width, height or center of any cell changes.  Two
rounds of `RecalculateWidths` and `RecalculateHeight` in a row: when the first round has
returned and left the cell in place, the second round returns, with the same width,
height and center of the cell as after the first, whenever the cell did not need
recalculation before the first round, or is broken into lines, or does not need
recalculation after the first round; and also when it still needs recalculation after
the first round, as under a forced update, for a cell with its three lists, given that
the list passes are local to the lists and that what is measured after a pass follows
the content of the tree. -/
theorem AbsCell.Recalculate_memoized (E : CellEnv) (fontsize : Int) (H : Heap) (p : Nat)
    (c : Cell) (hp : H[p]? = some c) :
    (E.NeedsRecalculation H p = false →
      AbsCell.RecalculateWidths E fontsize H p = some H ∧
      AbsCell.RecalculateHeight E fontsize H p = some H) ∧
    (∀ H1 c1, AbsCell.Recalculate E fontsize H p = some H1 → H1[p]? = some c1 →
      (E.NeedsRecalculation H p = false ∨ c.m_isBrokenIntoLines = true ∨
        E.NeedsRecalculation H1 p = false) →
      ∃ H2 c2, AbsCell.Recalculate E fontsize H1 p = some H2 ∧ H2[p]? = some c2 ∧
        c2.m_width = c1.m_width ∧ c2.m_height = c1.m_height ∧ c2.m_center = c1.m_center) ∧
    (∀ H1 i o cl, AbsCell.Recalculate E fontsize H p = some H1 →
      c.m_innerCell = some i → c.m_open = some o → c.m_close = some cl →
      E.ListPassesAreLocal H p [i, o, cl] → E.MeasuresFollowContent H [i, o, cl] →
      ∃ H2 c1 c2, AbsCell.Recalculate E fontsize H1 p = some H2 ∧
        H1[p]? = some c1 ∧ H2[p]? = some c2 ∧
        c2.m_width = c1.m_width ∧ c2.m_height = c1.m_height ∧ c2.m_center = c1.m_center) := by
  have hclean : ∀ H1 : Heap, AbsCell.Recalculate E fontsize H p = some H1 →
      E.NeedsRecalculation H p = false →
      ∃ H2 c2, AbsCell.Recalculate E fontsize H1 p = some H2 ∧ H1[p]? = some c2 ∧
        H2[p]? = some c2 := by
    intro H1 h1 hn
    have h := (AbsCell.Recalculate_of_clean E fontsize hp hn).2.2
    rw [h1] at h
    simp only [Option.some.injEq] at h
    subst h
    exact ⟨H1, c, h1, hp, hp⟩
  have hbroken : ∀ H1 : Heap, AbsCell.Recalculate E fontsize H p = some H1 →
      E.NeedsRecalculation H p = true → c.m_isBrokenIntoLines = true →
      ∃ H2 c1 c2, AbsCell.Recalculate E fontsize H1 p = some H2 ∧ H1[p]? = some c1 ∧
        H2[p]? = some c2 ∧
        c2.m_width = c1.m_width ∧ c2.m_height = c1.m_height ∧ c2.m_center = c1.m_center := by
    intro H1 h1 hn hb
    obtain ⟨H', c', hR, hp', hb', _, hgeo⟩ := AbsCell.Recalculate_of_broken E fontsize hp hb
    rw [h1] at hR
    simp only [Option.some.injEq] at hR
    subst hR
    obtain ⟨H2, c2, hR2, hp2, _, hce2, hgeo2⟩ :=
      AbsCell.Recalculate_of_broken E fontsize hp' hb'
    refine ⟨H2, c', c2, hR2, hp', hp2, ?_⟩
    rcases hgeo2 with ⟨hw2, hh2⟩ | he
    · rcases hgeo with ⟨hw, hh⟩ | he1
      · exact ⟨by rw [hw2, hw], by rw [hh2, hh], hce2⟩
      · subst he1
        rw [hp] at hp'
        cases hp'
        obtain ⟨H3, c3, hR3, hp3, hb3, hce3, hgeo3⟩ :=
          AbsCell.Recalculate_of_broken E fontsize hp hb
        rw [h1] at hR3
        simp only [Option.some.injEq] at hR3
        subst hR3
        rw [hp] at hp3
        cases hp3
        rw [h1] at hR2
        simp only [Option.some.injEq] at hR2
        subst hR2
        rw [hp] at hp2
        cases hp2
        exact ⟨rfl, rfl, rfl⟩
    · subst he
      rw [hp'] at hp2
      cases hp2
      exact ⟨rfl, rfl, rfl⟩
  refine ⟨fun hn => ⟨(AbsCell.Recalculate_of_clean E fontsize hp hn).1,
    (AbsCell.Recalculate_of_clean E fontsize hp hn).2.1⟩, ?_, ?_⟩
  · intro H1 c1 h1 hc1 hcase
    rcases hcase with hn | hb | hn1
    · obtain ⟨H2, c2, hR2, hp1, hp2⟩ := hclean H1 h1 hn
      rw [hc1] at hp1
      cases hp1
      exact ⟨H2, c1, hR2, hp2, rfl, rfl, rfl⟩
    · by_cases hn : E.NeedsRecalculation H p = true
      · obtain ⟨H2, c1', c2, hR2, hp1, hp2, hgeo⟩ := hbroken H1 h1 hn hb
        rw [hc1] at hp1
        cases hp1
        exact ⟨H2, c2, hR2, hp2, hgeo⟩
      · have hn' : E.NeedsRecalculation H p = false := by simpa using hn
        obtain ⟨H2, c2, hR2, hp1, hp2⟩ := hclean H1 h1 hn'
        rw [hc1] at hp1
        cases hp1
        exact ⟨H2, c1, hR2, hp2, rfl, rfl, rfl⟩
    · exact ⟨H1, c1, (AbsCell.Recalculate_of_clean E fontsize hc1 hn1).2.2, hc1, rfl, rfl, rfl⟩
  · intro H1 i o cl h1 hi ho hcl hloc hmeas
    by_cases hn : E.NeedsRecalculation H p = true
    · by_cases hb : c.m_isBrokenIntoLines = true
      · exact hbroken H1 h1 hn hb
      · have hb' : c.m_isBrokenIntoLines = false := by simpa using hb
        exact AbsCell.Recalculate_twice_forced E fontsize hp hb' hi ho hcl hn hloc hmeas h1
    · have hn' : E.NeedsRecalculation H p = false := by simpa using hn
      obtain ⟨H2, c2, hR2, hp1, hp2⟩ := hclean H1 h1 hn'
      exact ⟨H2, c2, c2, hR2, hp1, hp2, rfl, rfl, rfl⟩
/-- The demonstration widths pass over a chain of one cell. -/
theorem demoRecalculateWidthsList_single (fontsize : Int) (n : Nat) {K : Heap} {q : Nat}
    {k : Cell} (hk : K[q]? = some k) (hn : k.m_next = none) :
    demoRecalculateWidthsList fontsize (n + 1) K (some q) =
      K.set q { k with m_width := fontsize * k.m_text.length } := by
  simp only [demoRecalculateWidthsList, hk, hn]
  cases n <;> rfl

/-- The demonstration heights pass over a chain of one cell. -/
theorem demoRecalculateHeightList_single (fontsize : Int) (n : Nat) {K : Heap} {q : Nat}
    {k : Cell} (hk : K[q]? = some k) (hn : k.m_next = none) :
    demoRecalculateHeightList fontsize (n + 1) K (some q) =
      K.set q { k with m_height := fontsize, m_center := fontsize / 2 } := by
  simp only [demoRecalculateHeightList, hk, hn]
  cases n <;> rfl

/-- The demonstration width of a chain of one cell. -/
theorem demoGetFullWidth_single (n : Nat) {K : Heap} {q : Nat} {k : Cell}
    (hk : K[q]? = some k) (hn : k.m_next = none) :
    demoGetFullWidth K (n + 1) (some q) = k.m_width := by
  simp only [demoGetFullWidth, hk, hn]
  cases n <;> simp [demoGetFullWidth]

/-- The demonstration maximum over a chain of one cell. -/
theorem demoGetMax_single (f : Cell → Int) (n : Nat) {K : Heap} {q : Nat} {k : Cell}
    (hk : K[q]? = some k) (hn : k.m_next = none) :
    demoGetMax f K (n + 1) (some q) = max (f k) 0 := by
  simp only [demoGetMax, hk, hn]
  cases n <;> simp [demoGetMax]

/-- In a heap with the content of `demoAbs`, each of the three lists of the `AbsCell` is
one cell long, and the cell has the text that it has in `demoAbs`. -/
theorem demoAbs_lists {K : Heap} (hK : K.content = demoAbs.content) {q : Nat}
    (hq : q ∈ [0, 1, 2]) :
    ∃ k c, K[q]? = some k ∧ demoAbs[q]? = some c ∧ k.m_next = none ∧
      k.m_text = c.m_text ∧ q ≠ 3 := by
  have hq3 : q ≠ 3 := by
    simp only [List.mem_cons, List.mem_singleton, List.not_mem_nil, or_false] at hq
    omega
  rcases Heap.content_get hK q with ⟨_, h⟩ | ⟨k, c, hk, hc, e⟩
  · simp only [List.mem_cons, List.mem_singleton, List.not_mem_nil, or_false] at hq
    rcases hq with rfl | rfl | rfl <;> exact absurd h (by decide)
  · have e1 : k.content.m_next = c.content.m_next := by rw [e]
    have e2 : k.content.m_text = c.content.m_text := by rw [e]
    have hc0 : c.m_next = none :=
      (by decide : ∀ y ∈ demoAbs, y.m_next = none) c (List.getElem?_mem hc)
    exact ⟨k, c, hk, hc, by simpa [Cell.content, hc0] using e1,
      by simpa [Cell.content] using e2, hq3⟩

/-- The demonstration passes are local to the lists of the `AbsCell` of `demoAbs`. -/
theorem demoForcedEnv_ListPassesAreLocal :
    demoForcedEnv.ListPassesAreLocal demoAbs 3 [0, 1, 2] := by
  intro fontsize K q hK hq
  obtain ⟨k, c, hk, _, hn, _, hq3⟩ := demoAbs_lists hK hq
  have hW : demoForcedEnv.RecalculateWidthsList fontsize K q =
      K.set q { k with m_width := fontsize * k.m_text.length } :=
    demoRecalculateWidthsList_single fontsize K.length hk hn
  have hH : demoForcedEnv.RecalculateHeightList fontsize K q =
      K.set q { k with m_height := fontsize, m_center := fontsize / 2 } :=
    demoRecalculateHeightList_single fontsize K.length hk hn
  refine ⟨?_, ?_, ?_, ?_, ?_⟩
  · rw [hW]
    refine (Heap.content_set hk ?_).trans hK
    rfl
  · rw [hH]
    refine (Heap.content_set hk ?_).trans hK
    rfl
  · rw [hW]
    exact List.getElem?_set_ne hq3
  · rw [hH]
    exact List.getElem?_set_ne hq3
  · intro x
    have hk' : (K.set 3 x)[q]? = some k := by
      rw [List.getElem?_set_ne (Ne.symm hq3)]
      exact hk
    refine ⟨?_, ?_, ?_⟩
    · exact (demoGetFullWidth_single _ hk' hn).trans (demoGetFullWidth_single _ hk hn).symm
    · exact (demoGetMax_single _ _ hk' hn).trans (demoGetMax_single _ _ hk hn).symm
    · exact (demoGetMax_single _ _ hk' hn).trans (demoGetMax_single _ _ hk hn).symm

/-- What the demonstration measures give after a pass follows the content of
`demoAbs`. -/
theorem demoForcedEnv_MeasuresFollowContent :
    demoForcedEnv.MeasuresFollowContent demoAbs [0, 1, 2] := by
  intro fontsize K K' q hK hK' hq
  obtain ⟨k, c, hk, hc, hn, ht, _⟩ := demoAbs_lists hK hq
  obtain ⟨k', c', hk', hc', hn', ht', _⟩ := demoAbs_lists hK' hq
  rw [hc] at hc'
  cases hc'
  have hW : ∀ (J : Heap) (j : Cell), J[q]? = some j → j.m_next = none →
      demoForcedEnv.GetFullWidth (demoForcedEnv.RecalculateWidthsList fontsize J q) q =
        fontsize * j.m_text.length := by
    intro J j hj hjn
    have e : demoForcedEnv.RecalculateWidthsList fontsize J q =
        J.set q { j with m_width := fontsize * j.m_text.length } :=
      demoRecalculateWidthsList_single fontsize J.length hj hjn
    rw [e]
    exact demoGetFullWidth_single _ (Heap.get_set_self hj _) hjn
  have hH : ∀ (f : Cell → Int) (J : Heap) (j : Cell), J[q]? = some j → j.m_next = none →
      demoGetMax f (demoForcedEnv.RecalculateHeightList fontsize J q)
          ((demoForcedEnv.RecalculateHeightList fontsize J q).length + 1) (some q) =
        max (f { j with m_height := fontsize, m_center := fontsize / 2 }) 0 := by
    intro f J j hj hjn
    have e : demoForcedEnv.RecalculateHeightList fontsize J q =
        J.set q { j with m_height := fontsize, m_center := fontsize / 2 } :=
      demoRecalculateHeightList_single fontsize J.length hj hjn
    rw [e]
    exact demoGetMax_single _ _ (Heap.get_set_self hj _) hjn
  refine ⟨?_, ?_, ?_⟩
  · rw [hW K k hk hn, hW K' k' hk' hn', ht, ht']
  · exact (hH Cell.m_height K k hk hn).trans (hH Cell.m_height K' k' hk' hn').symm
  · exact (hH Cell.m_center K k hk hn).trans (hH Cell.m_center K' k' hk' hn').symm

/-- C5, at an instance: in `demoForcedEnv` every cell needs recalculation whenever it
is asked, as under a forced update.  The first round on the `AbsCell` of `demoAbs` at
font size 12 gives it the width 22, the height 16 and the center 8, it still needs
recalculation afterwards, and the second round returns with the same width, height
and center. -/
theorem AbsCell.Recalculate_memoized_witness :
    demoAbs[3]? = some (demoAbs.cell 3) ∧
    (demoAbs.cell 3).m_isBrokenIntoLines = false ∧
    AbsCell.Recalculate demoForcedEnv 12 demoAbs 3 = some demoForcedRound ∧
    demoForcedEnv.NeedsRecalculation demoForcedRound 3 = true ∧
    (demoForcedRound[3]?.map fun c => (c.m_width, c.m_height, c.m_center)) =
      some (22, 16, 8) ∧
    ∃ H2 c1 c2, AbsCell.Recalculate demoForcedEnv 12 demoForcedRound 3 = some H2 ∧
      demoForcedRound[3]? = some c1 ∧ H2[3]? = some c2 ∧
      c2.m_width = c1.m_width ∧ c2.m_height = c1.m_height ∧ c2.m_center = c1.m_center :=
  ⟨by decide, by decide, by decide, rfl, by decide,
    (AbsCell.Recalculate_memoized demoForcedEnv 12 demoAbs 3 (demoAbs.cell 3) (by decide)).2.2
      demoForcedRound 0 1 2 (by decide) (by decide) (by decide) (by decide)
      demoForcedEnv_ListPassesAreLocal demoForcedEnv_MeasuresFollowContent⟩

end WxMaxima




